import Mathlib

/-!
Verification of the ChronoGuard Lite audit/decision substrate against its
specification.  The Python sources are shallowly embedded: each Python
class becomes a Lean structure, each method a Lean function on that
structure, and stateful methods become explicit state-passing functions.

Modelling conventions, used throughout:

* UUID values (`uuid.UUID`, 16 bytes) are modelled as `Nat`.
* IEEE-754 doubles that the code only ever compares or copies
  (`timestamp`, elapsed milliseconds) are modelled as `Int`: every claim
  under verification depends only on order and equality of these values,
  never on rounding.  The one double the code does NOT merely copy is
  `processing_time_ms`: the columnar store narrows it through an
  `array('f')` (binary32) column, and the model applies the corresponding
  round-to-nearest-even narrowing `f32Round` on the integer-valued
  submodel at the same program point.
* SHA-256 and HMAC-SHA-256 (crypto/hasher.py) are modelled as free
  constructors of an inductive type `HashVal`, i.e. as ideal
  collision-free hash functions.  The length-prefixed canonical encoding
  of `hasher._canonicalize` is injective by construction (each field is
  4-byte-length prefixed), so under the standard collision-resistance
  idealisation the composite `entry, previous_hash ↦ digest` map is
  injective; the free constructors realise exactly that idealisation.
  The 64-zero `GENESIS_HASH` sentinel is the constructor `HashVal.genesis`.
* Python exceptions become `Except`/`Option` results, or a result paired
  with the (unchanged) state at the raise point.
-/

namespace ChronoGuard

/-- `AccessDecision` enum from domain/decisions.py (`auto()` numbering 1..4). -/
inductive AccessDecision where
  | ALLOW
  | DENY
  | RATE_LIMITED
  | NO_MATCHING_POLICY
deriving DecidableEq, Repr, Inhabited

/-- `AccessDecision.value` (Python `enum.auto()` assigns 1,2,3,4 in order). -/
def AccessDecision.value : AccessDecision → Nat
  | .ALLOW => 1
  | .DENY => 2
  | .RATE_LIMITED => 3
  | .NO_MATCHING_POLICY => 4

/-- Inverse of `AccessDecision.value`: Python `AccessDecision(v)`, which raises
for a byte outside 1..4 (hence `Option`). -/
def AccessDecision.ofValue : Nat → Option AccessDecision
  | 1 => some .ALLOW
  | 2 => some .DENY
  | 3 => some .RATE_LIMITED
  | 4 => some .NO_MATCHING_POLICY
  | _ => none

/-- `AccessDecision.name` (the Python enum member name). -/
def AccessDecision.nm : AccessDecision → String
  | .ALLOW => "ALLOW"
  | .DENY => "DENY"
  | .RATE_LIMITED => "RATE_LIMITED"
  | .NO_MATCHING_POLICY => "NO_MATCHING_POLICY"

/-- `AuditEntry` from domain/audit.py.  UUIDs are `Nat`, doubles are `Int`
(order/equality only — see the header comment). -/
structure AuditEntry where
  entry_id : Nat
  agent_id : Nat
  domain : String
  decision : AccessDecision
  timestamp : Int
  reason : String
  policy_id : Option Nat := none
  rule_id : Option Nat := none
  request_method : String := "GET"
  request_path : String := "/"
  source_ip : String := "0.0.0.0"
  processing_time_ms : Int := 0
deriving DecidableEq, Repr, Inhabited

/-! ## crypto/hasher.py and crypto/chain.py -/

/-- Digest values.  `genesis` is the 64-zero `GENESIS_HASH` sentinel;
`sha e prev` is `hash_entry(e, prev)` (SHA-256 of the canonical encoding);
`hmac k e prev` is `hmac_entry(e, prev, k)`.  Free constructors model the
collision-free idealisation of SHA-256/HMAC-SHA-256 composed with the
injective length-prefixed canonicalisation of hasher.py. -/
inductive HashVal where
  | genesis
  | sha (e : AuditEntry) (prev : HashVal)
  | hmac (key : Nat) (e : AuditEntry) (prev : HashVal)
deriving DecidableEq, Repr, Inhabited

/-- The hash function selected by `AuditChain.append`: HMAC-SHA-256 when the
chain holds a secret key, plain SHA-256 otherwise. -/
def hashFn (key : Option Nat) (e : AuditEntry) (prev : HashVal) : HashVal :=
  match key with
  | some k => .hmac k e prev
  | none => .sha e prev

/-- `ChainedEntry` from crypto/chain.py. -/
structure ChainedEntry where
  entry : AuditEntry
  previous_hash : HashVal
  current_hash : HashVal
  sequence_number : Nat
deriving DecidableEq, Repr, Inhabited

/-- `AuditChain` state: `_entries`, `_head_hash`, `_secret_key`. -/
structure AuditChain where
  entries : List ChainedEntry
  head_hash : HashVal
  secret_key : Option Nat
deriving DecidableEq, Repr

/-- `AuditChain.__init__`: empty ledger, head at genesis. -/
def AuditChain.init (secret_key : Option Nat) : AuditChain :=
  { entries := [], head_hash := .genesis, secret_key := secret_key }

/-- `AuditChain.append`: hash the entry against the current head, wrap it with
the next sequence number, extend the ledger and advance the head. -/
def AuditChain.append (c : AuditChain) (entry : AuditEntry) : AuditChain :=
  let seq := c.entries.length
  let previous := c.head_hash
  let current := hashFn c.secret_key entry previous
  { c with
      entries := c.entries ++
        [{ entry := entry, previous_hash := previous,
           current_hash := current, sequence_number := seq }],
      head_hash := current }

/-- A chain obtained from the empty chain by a finite sequence of appends. -/
def buildChain (key : Option Nat) (es : List AuditEntry) : AuditChain :=
  es.foldl AuditChain.append (AuditChain.init key)

/-! ## crypto/verifier.py -/

/-- Which `error_message` branch of `_verify_range_internal` fired:
"Chain link broken at sequence ..." versus "Hash mismatch at sequence ...:
entry fields have been modified." -/
inductive Diag where
  | linkBroken
  | hashMismatch
deriving DecidableEq, Repr

/-- `ChainVerificationResult` from crypto/verifier.py (`error_message` is
modelled by the `diag` tag carrying which message was produced). -/
structure ChainVerificationResult where
  is_valid : Bool
  entries_verified : Nat
  first_invalid_sequence : Option Nat := none
  expected_hash : Option HashVal := none
  actual_hash : Option HashVal := none
  diag : Option Diag := none
deriving DecidableEq, Repr

/-- `ChainVerifier._compute_hash`: recompute with the chain's hashing mode. -/
def AuditChain.computeHash (c : AuditChain) (e : AuditEntry) (prev : HashVal) : HashVal :=
  hashFn c.secret_key e prev

/-- The `expected_prev` selection inside `_verify_range_internal`'s loop. -/
def expectedPrevOf (c : AuditChain) (start seq : Nat) (chained : ChainedEntry) : HashVal :=
  if seq = 0 then .genesis
  else if seq = start then chained.previous_hash
  else (c.entries.getD (seq - 1) default).current_hash

/-- The `for seq in range(start, end)` loop of `_verify_range_internal`,
structurally recursive on the number of remaining indices
(`remaining = end - seq`).  `verified` is the running counter. -/
def verifyLoop (c : AuditChain) (start : Nat) :
    Nat → Nat → Nat → ChainVerificationResult
  | _, verified, 0 => { is_valid := true, entries_verified := verified }
  | seq, verified, remaining + 1 =>
    let chained := c.entries.getD seq default
    let expectedPrev := expectedPrevOf c start seq chained
    if chained.previous_hash ≠ expectedPrev then
      { is_valid := false, entries_verified := verified,
        first_invalid_sequence := some seq,
        expected_hash := some expectedPrev,
        actual_hash := some chained.previous_hash,
        diag := some .linkBroken }
    else
      let recomputed := c.computeHash chained.entry chained.previous_hash
      if recomputed ≠ chained.current_hash then
        { is_valid := false, entries_verified := verified,
          first_invalid_sequence := some seq,
          expected_hash := some recomputed,
          actual_hash := some chained.current_hash,
          diag := some .hashMismatch }
      else verifyLoop c start (seq + 1) (verified + 1) remaining

/-- `ChainVerifier._verify_range_internal`. -/
def AuditChain.verifyRangeInternal (c : AuditChain) (start stop : Nat) :
    ChainVerificationResult :=
  verifyLoop c start start 0 (stop - start)

/-- `ChainVerifier.verify_full`. -/
def AuditChain.verifyFull (c : AuditChain) : ChainVerificationResult :=
  if c.entries.length = 0 then { is_valid := true, entries_verified := 0 }
  else c.verifyRangeInternal 0 c.entries.length

/-! ## C1: the chain invariants -/

/-- The conjunction of spec invariants I1–I3 plus the head-hash law, stated
over an `AuditChain` value. -/
def ChainWF (c : AuditChain) : Prop :=
  (∀ i (h : i < c.entries.length), (c.entries.get ⟨i, h⟩).sequence_number = i) ∧
  (∀ h : 0 < c.entries.length, (c.entries.get ⟨0, h⟩).previous_hash = .genesis) ∧
  (∀ i (h : i + 1 < c.entries.length),
    (c.entries.get ⟨i + 1, h⟩).previous_hash =
      (c.entries.get ⟨i, Nat.lt_of_succ_lt h⟩).current_hash) ∧
  (∀ i (h : i < c.entries.length),
    (c.entries.get ⟨i, h⟩).current_hash =
      hashFn c.secret_key (c.entries.get ⟨i, h⟩).entry
        (c.entries.get ⟨i, h⟩).previous_hash) ∧
  c.head_hash = (c.entries.getLast?.elim HashVal.genesis ChainedEntry.current_hash)

/-- Replace exactly one field of the audit entry stored at index `i`, keeping
all stored hashes and sequence numbers (the "tamper middle" scenario of the
spec: mutate `ledger[i].entry`, touch nothing else). -/
def tamperEntryAt (c : AuditChain) (i : Nat) (e' : AuditEntry) : AuditChain :=
  { c with entries := c.entries.set i { c.entries.getD i default with entry := e' } }

/-- `e'` agrees with `e` on all fields except exactly one, on which it
differs. -/
def oneFieldTamper (e e' : AuditEntry) : Prop :=
  (e'.entry_id ≠ e.entry_id ∧ e' = { e with entry_id := e'.entry_id }) ∨
  (e'.agent_id ≠ e.agent_id ∧ e' = { e with agent_id := e'.agent_id }) ∨
  (e'.domain ≠ e.domain ∧ e' = { e with domain := e'.domain }) ∨
  (e'.decision ≠ e.decision ∧ e' = { e with decision := e'.decision }) ∨
  (e'.timestamp ≠ e.timestamp ∧ e' = { e with timestamp := e'.timestamp }) ∨
  (e'.reason ≠ e.reason ∧ e' = { e with reason := e'.reason }) ∨
  (e'.policy_id ≠ e.policy_id ∧ e' = { e with policy_id := e'.policy_id }) ∨
  (e'.rule_id ≠ e.rule_id ∧ e' = { e with rule_id := e'.rule_id }) ∨
  (e'.request_method ≠ e.request_method ∧ e' = { e with request_method := e'.request_method }) ∨
  (e'.request_path ≠ e.request_path ∧ e' = { e with request_path := e'.request_path }) ∨
  (e'.source_ip ≠ e.source_ip ∧ e' = { e with source_ip := e'.source_ip }) ∨
  (e'.processing_time_ms ≠ e.processing_time_ms ∧
    e' = { e with processing_time_ms := e'.processing_time_ms })

/-! ## store/columnar_store.py -/

/-- `METHOD_ENCODING` (the fixed verb vocabulary). -/
def METHOD_ENCODING : String → Option Nat
  | "GET" => some 0
  | "POST" => some 1
  | "PUT" => some 2
  | "DELETE" => some 3
  | "PATCH" => some 4
  | "HEAD" => some 5
  | "OPTIONS" => some 6
  | _ => none

/-- `METHOD_DECODING` (inverse dict comprehension of `METHOD_ENCODING`). -/
def METHOD_DECODING : Nat → Option String
  | 0 => some "GET"
  | 1 => some "POST"
  | 2 => some "PUT"
  | 3 => some "DELETE"
  | 4 => some "PATCH"
  | 5 => some "HEAD"
  | 6 => some "OPTIONS"
  | _ => none

/-- `self.METHOD_ENCODING.get(entry.request_method, 0)` in `append`. -/
def methodEncode (m : String) : Nat := (METHOD_ENCODING m).getD 0

/-- `self.METHOD_DECODING.get(self._methods[idx], "GET")` in
`_reconstruct_entry`. -/
def methodDecode (b : Nat) : String := (METHOD_DECODING b).getD "GET"

/-- The fixed verb vocabulary (keys of `METHOD_ENCODING`). -/
def knownMethods : List String :=
  ["GET", "POST", "PUT", "DELETE", "PATCH", "HEAD", "OPTIONS"]

/-- `ColumnarAuditStore`'s columns.  `array('d')`/`array('f')` values are
modelled as `Int` (order/equality only; the float32 narrowing of the
latency column is outside the model), byte arrays as `Nat` lists, UUID-byte
lists as `Nat` lists. -/
structure ColumnarStore where
  timestamps : List Int
  agent_ids : List Nat
  domains : List String
  decisions : List Nat
  reasons : List String
  policy_ids : List (Option Nat)
  rule_ids : List (Option Nat)
  entry_ids : List Nat
  methods : List Nat
  paths : List String
  source_ips : List String
  latencies : List Int
  count : Nat
deriving DecidableEq, Repr

/-- `ColumnarAuditStore.__init__`. -/
def emptyStore : ColumnarStore :=
  { timestamps := [], agent_ids := [], domains := [], decisions := [],
    reasons := [], policy_ids := [], rule_ids := [], entry_ids := [],
    methods := [], paths := [], source_ips := [], latencies := [], count := 0 }

/-- Floor of log₂ by structural recursion on a fuel that bounds the number
of halvings (the argument itself always suffices). -/
def log2Aux : Nat → Nat → Nat
  | 0, _ => 0
  | fuel + 1, n => if n ≤ 1 then 0 else log2Aux fuel (n / 2) + 1

/-- The `array('f')` narrowing performed by `self._latencies.append` in
`ColumnarAuditStore.append`: IEEE-754 binary32 round-to-nearest, ties to
even significand, restricted to the integer-valued submodel of Python
floats used throughout this file.  Magnitudes up to `2 ^ 24` are exactly
representable and pass through unchanged; larger magnitudes are rounded
to 24 significant bits (for magnitudes at or beyond `2 ^ 128` the rounded
integer stands in for the IEEE infinity that `array('f')` silently
stores — CPython raises no exception on float32 overflow). -/
def f32Round (n : Int) : Int :=
  let a := n.natAbs
  if a ≤ 2 ^ 24 then n
  else
    let e := log2Aux a a
    let step := 2 ^ (e - 23)
    let q := a / step
    let r := a % step
    let rounded :=
      if 2 * r < step then q * step
      else if step < 2 * r then (q + 1) * step
      else if q % 2 = 0 then q * step else (q + 1) * step
    if n < 0 then -(rounded : Int) else (rounded : Int)

/-- The column updates performed by the body of `ColumnarAuditStore.append`
(after the out-of-order guard has passed).  The latency column is an
`array('f')`, so the appended value is narrowed through `f32Round`. -/
def pushEntry (s : ColumnarStore) (e : AuditEntry) : ColumnarStore :=
  { timestamps := s.timestamps ++ [e.timestamp],
    agent_ids := s.agent_ids ++ [e.agent_id],
    domains := s.domains ++ [e.domain],
    decisions := s.decisions ++ [e.decision.value],
    reasons := s.reasons ++ [e.reason],
    policy_ids := s.policy_ids ++ [e.policy_id],
    rule_ids := s.rule_ids ++ [e.rule_id],
    entry_ids := s.entry_ids ++ [e.entry_id],
    methods := s.methods ++ [methodEncode e.request_method],
    paths := s.paths ++ [e.request_path],
    source_ips := s.source_ips ++ [e.source_ip],
    latencies := s.latencies ++ [f32Round e.processing_time_ms],
    count := s.count + 1 }

/-- `ColumnarAuditStore.append`, statement for statement: the out-of-order
guard raises (`ValueError`) before any column is touched, so the error
branch returns the message together with the unmodified store; the success
branch appends to every column and bumps the count. -/
def ColumnarStore.appendRun (s : ColumnarStore) (e : AuditEntry) :
    Option String × ColumnarStore :=
  if s.count > 0 ∧ e.timestamp < s.timestamps.getLastD 0 then
    (some "Out-of-order append: entries must be chronological", s)
  else
    (none, pushEntry s e)

/-- A sequence of `append` calls, `none` as soon as one raises. -/
def appendAllStore : List AuditEntry → ColumnarStore → Option ColumnarStore
  | [], s => some s
  | e :: es, s =>
    match s.appendRun e with
    | (some _, _) => none
    | (none, s') => appendAllStore es s'

/-- `bisect.bisect_left`'s loop, structurally recursive on a fuel that
bounds `hi - lo` (the Python loop runs while `lo < hi`, halving the gap). -/
def bisectLeftAux (a : List Int) (x : Int) : Nat → Nat → Nat → Nat
  | 0, lo, _ => lo
  | fuel + 1, lo, hi =>
    if lo < hi then
      let mid := (lo + hi) / 2
      if a.getD mid 0 < x then bisectLeftAux a x fuel (mid + 1) hi
      else bisectLeftAux a x fuel lo mid
    else lo

/-- `bisect.bisect_left(a, x)`. -/
def bisectLeft (a : List Int) (x : Int) : Nat :=
  bisectLeftAux a x a.length 0 a.length

/-- `bisect.bisect_right`'s loop. -/
def bisectRightAux (a : List Int) (x : Int) : Nat → Nat → Nat → Nat
  | 0, lo, _ => lo
  | fuel + 1, lo, hi =>
    if lo < hi then
      let mid := (lo + hi) / 2
      if x < a.getD mid 0 then bisectRightAux a x fuel lo mid
      else bisectRightAux a x fuel (mid + 1) hi
    else lo

/-- `bisect.bisect_right(a, x)`. -/
def bisectRight (a : List Int) (x : Int) : Nat :=
  bisectRightAux a x a.length 0 a.length

/-- `ColumnarAuditStore._reconstruct_entry`.  (`AccessDecision(v)` raises on
a byte outside 1..4; stores built by `append` never contain one, so the
`.getD` default is unreachable there.)  `self._latencies[idx]` reads the
`array('f')` column verbatim: the binary32 narrowing happened at `append`
time (`pushEntry` here), so the value returned is the narrowed one. -/
def ColumnarStore.reconstructEntry (s : ColumnarStore) (idx : Nat) : AuditEntry :=
  { entry_id := s.entry_ids.getD idx 0,
    agent_id := s.agent_ids.getD idx 0,
    domain := s.domains.getD idx "",
    decision := (AccessDecision.ofValue (s.decisions.getD idx 0)).getD .ALLOW,
    timestamp := s.timestamps.getD idx 0,
    reason := s.reasons.getD idx "",
    policy_id := s.policy_ids.getD idx none,
    rule_id := s.rule_ids.getD idx none,
    request_method := methodDecode (s.methods.getD idx 0),
    request_path := s.paths.getD idx "",
    source_ip := s.source_ips.getD idx "",
    processing_time_ms := s.latencies.getD idx 0 }

/-- `ColumnarAuditStore.query_time_range`: two binary searches, then
reconstruct the slice `range(left, right)`. -/
def ColumnarStore.query_time_range (s : ColumnarStore) (start stop : Int) :
    List AuditEntry :=
  let left := bisectLeft s.timestamps start
  let right := bisectRight s.timestamps stop
  (List.range' left (right - left)).map s.reconstructEntry

/-- Concrete audit entries and stores used by the closed witness theorems. -/
def wEntryA : AuditEntry :=
  { entry_id := 10, agent_id := 20, domain := "a.com",
    decision := .ALLOW, timestamp := 5, reason := "ok" }

def wEntryB : AuditEntry :=
  { entry_id := 11, agent_id := 20, domain := "b.com",
    decision := .DENY, timestamp := 6, reason := "no" }

def wEntryEarly : AuditEntry :=
  { entry_id := 12, agent_id := 20, domain := "c.com",
    decision := .ALLOW, timestamp := 3, reason := "late" }

def wStoreAB : ColumnarStore :=
  (appendAllStore [wEntryA, wEntryB] emptyStore).getD emptyStore

def wEntryTrace : AuditEntry :=
  { entry_id := 13, agent_id := 20, domain := "d.com",
    decision := .ALLOW, timestamp := 5, reason := "r",
    request_method := "TRACE" }

def wEntryLat : AuditEntry :=
  { entry_id := 15, agent_id := 20, domain := "e.com",
    decision := .ALLOW, timestamp := 5, reason := "ok",
    processing_time_ms := 16777217 }

def wEntrySearch : AuditEntry :=
  { entry_id := 14, agent_id := 20, domain := "api.openai.com",
    decision := .ALLOW, timestamp := 5, reason := "ok" }

/-! ## domain/policy.py -/

/-- `PolicyStatus` enum. -/
inductive PolicyStatus where
  | DRAFT
  | ACTIVE
  | SUSPENDED
  | ARCHIVED
deriving DecidableEq, Repr

/-- `RuleAction` enum. -/
inductive RuleAction where
  | ALLOW
  | DENY
deriving DecidableEq, Repr

/-- A `datetime` value as far as policy evaluation consults it: the weekday
(`.weekday()`, 0 = Monday) and a totally ordered time-of-day
(`.time()`, modelled as e.g. minutes since midnight). -/
structure DateTime where
  weekday : Nat
  timeOfDay : Nat
deriving DecidableEq, Repr

/-- `TimeWindow` (UTC time-of-day restriction). -/
structure TimeWindow where
  start_time : Nat
  end_time : Nat
  days_of_week : List Nat
deriving DecidableEq, Repr

/-- `TimeWindow.contains`, including the overnight wrap-around branch. -/
def TimeWindow.containsDT (w : TimeWindow) (dt : DateTime) : Bool :=
  if dt.weekday ∈ w.days_of_week then
    if w.start_time ≤ w.end_time then
      decide (w.start_time ≤ dt.timeOfDay ∧ dt.timeOfDay ≤ w.end_time)
    else
      decide (w.start_time ≤ dt.timeOfDay ∨ dt.timeOfDay ≤ w.end_time)
  else false

/-- `RateLimit` configuration (never consulted by `Policy.evaluate`). -/
structure RateLimit where
  requests_per_minute : Nat
  requests_per_hour : Nat
  requests_per_day : Nat
  burst_limit : Nat := 10
deriving DecidableEq, Repr

/-- Python `s.split(sep)` for a one-character separator, on the character
list (structurally recursive, so concrete witnesses evaluate). -/
def splitOnChar (sep : Char) : List Char → List (List Char)
  | [] => [[]]
  | c :: cs =>
    let rest := splitOnChar sep cs
    if c = sep then [] :: rest
    else
      match rest with
      | [] => [[c]]
      | r :: rs => (c :: r) :: rs

/-- Python `s.split(".")`. -/
def splitDots (s : String) : List String :=
  (splitOnChar '.' s.data).map String.mk

/-- `PolicyRule`. -/
structure PolicyRule where
  rule_id : Nat
  domain_pattern : String
  action : RuleAction
  priority : Int := 100
deriving DecidableEq, Repr

/-- `PolicyRule.matches`: split both on ".", require equal segment counts,
then compare segment by segment with "*" matching any single segment. -/
def PolicyRule.matches (r : PolicyRule) (domain : String) : Bool :=
  let pattern_parts := splitDots r.domain_pattern
  let domain_parts := splitDots domain
  (pattern_parts.length == domain_parts.length) &&
    (pattern_parts.zip domain_parts).all fun pd => pd.1 == "*" || pd.1 == pd.2

/-- `Policy` (creation timestamps omitted: never consulted by the code under
verification). -/
structure Policy where
  policy_id : Nat
  name : String
  description : String
  rules : List PolicyRule
  status : PolicyStatus
  priority : Int
  time_window : Option TimeWindow := none
  rate_limit : Option RateLimit := none
deriving DecidableEq, Repr

/-- `Policy.evaluate`: time-window gate first (a configured window that does
not contain the request time yields `None`), then the rules sorted stably
by ascending priority, returning the first match.  Note: `status` is never
consulted. -/
def Policy.evaluate (p : Policy) (domain : String) (request_time : DateTime) :
    Option RuleAction :=
  if p.time_window.all (fun w => w.containsDT request_time) then
    let sorted_rules :=
      List.insertionSort (fun a b => a.priority ≤ b.priority) p.rules
    (sorted_rules.find? (fun r => r.matches domain)).map (·.action)
  else none

/-! ## graph/policy_engine.py -/

/-- `EvalResult` (wall-clock `eval_time_ms` modelled as `Int`, supplied by an
`elapsed` oracle for evaluated nodes and 0.0 for short-circuited ones as in
the code). -/
structure EvalResult where
  policy_id : Nat
  decision : AccessDecision
  eval_time_ms : Int
  short_circuited : Bool
deriving DecidableEq, Repr, Inhabited

/-- `EvalReport` (`total_time_ms` omitted: pure wall clock). -/
structure EvalReport where
  results : List EvalResult
  final_decision : AccessDecision
  policies_evaluated : Nat
  policies_skipped : Nat
deriving DecidableEq, Repr

/-- The data `PolicyEngine.evaluate` reads from a built engine:
`self._policies` (dict lookup), `self._graph.predecessors`, and the
topological order `self._order` computed by `build()`. -/
structure PolicyEngine where
  policies : Nat → Policy
  preds : Nat → List Nat
  order : List Nat

/-- The `_DENY_DECISIONS` frozenset membership test. -/
def denyDecision (d : AccessDecision) : Bool :=
  d == AccessDecision.DENY || d == AccessDecision.RATE_LIMITED

/-- The `if action is None / elif ALLOW / else DENY` decision mapping. -/
def decisionOfAction : Option RuleAction → AccessDecision
  | none => .NO_MATCHING_POLICY
  | some .ALLOW => .ALLOW
  | some .DENY => .DENY

/-- `decided.get(pre_id)` — the `decided` dict is modelled as an association
list with the newest binding in front, matching dict overwrite semantics. -/
def lookupDecided (decided : List (Nat × AccessDecision)) (pid : Nat) :
    Option AccessDecision :=
  (decided.find? (fun q => q.1 == pid)).map (·.2)

/-- One iteration of the `for pid in self._order` loop in
`PolicyEngine.evaluate`: short-circuit to DENY with elapsed 0 when some
predecessor's recorded decision is in `_DENY_DECISIONS`, otherwise evaluate
the policy's own rules. -/
def evalStep (g : PolicyEngine) (domain : String) (t : DateTime)
    (elapsed : Nat → Int)
    (acc : List EvalResult × List (Nat × AccessDecision)) (pid : Nat) :
    List EvalResult × List (Nat × AccessDecision) :=
  let prereq_denied := (g.preds pid).any fun pre =>
    match lookupDecided acc.2 pre with
    | some dec => denyDecision dec
    | none => false
  if prereq_denied then
    (acc.1 ++ [{ policy_id := pid, decision := .DENY, eval_time_ms := 0,
                 short_circuited := true }],
     (pid, AccessDecision.DENY) :: acc.2)
  else
    let dec := decisionOfAction ((g.policies pid).evaluate domain t)
    (acc.1 ++ [{ policy_id := pid, decision := dec, eval_time_ms := elapsed pid,
                 short_circuited := false }],
     (pid, dec) :: acc.2)

/-- The loop state after the first `k` nodes of the order. -/
def evalStates (g : PolicyEngine) (domain : String) (t : DateTime)
    (elapsed : Nat → Int) (k : Nat) :
    List EvalResult × List (Nat × AccessDecision) :=
  (g.order.take k).foldl (evalStep g domain t elapsed) ([], [])

/-- `PolicyEngine.evaluate`. -/
def PolicyEngine.evaluate (g : PolicyEngine) (domain : String) (t : DateTime)
    (elapsed : Nat → Int) : EvalReport :=
  let results := (g.order.foldl (evalStep g domain t elapsed) ([], [])).1
  let skipped := (results.filter (·.short_circuited)).length
  let has_deny := results.any (·.decision == AccessDecision.DENY)
  let has_allow := results.any (·.decision == AccessDecision.ALLOW)
  let final :=
    if has_deny then AccessDecision.DENY
    else if has_allow then AccessDecision.ALLOW
    else AccessDecision.NO_MATCHING_POLICY
  { results := results, final_decision := final,
    policies_evaluated := results.length - skipped,
    policies_skipped := skipped }

/-! ## domain/agent.py and interceptor/evaluator.py -/

/-- `AgentStatus` enum. -/
inductive AgentStatus where
  | PENDING
  | ACTIVE
  | SUSPENDED
  | DEACTIVATED
  | EXPIRED
deriving DecidableEq, Repr

/-- `AgentStatus.name`. -/
def AgentStatus.nm : AgentStatus → String
  | .PENDING => "PENDING"
  | .ACTIVE => "ACTIVE"
  | .SUSPENDED => "SUSPENDED"
  | .DEACTIVATED => "DEACTIVATED"
  | .EXPIRED => "EXPIRED"

/-- The fields of `Agent` that `PolicyEvaluator.evaluate` consults. -/
structure Agent where
  name : String
  status : AgentStatus
deriving DecidableEq, Repr

/-- `Agent.can_make_requests`: only ACTIVE agents may make requests. -/
def Agent.can_make_requests (a : Agent) : Bool := a.status == AgentStatus.ACTIVE

/-- `InterceptRequest` from interceptor/protocol.py. -/
structure InterceptRequest where
  agent_id : String
  domain : String
  method : String
  path : String
  source_ip : String := "0.0.0.0"
deriving DecidableEq, Repr

/-- `EvaluationResult` from interceptor/evaluator.py. -/
structure EvaluationResult where
  decision : AccessDecision
  reason : String
  policy_id : Option Nat := none
  rule_id : Option Nat := none
deriving DecidableEq, Repr

/-- `PolicyEvaluator._find_matched_rule`. -/
def findMatchedRule (p : Policy) (domain : String) : Option Nat :=
  ((List.insertionSort (fun a b => a.priority ≤ b.priority) p.rules).find?
    (fun r => r.matches domain)).map (·.rule_id)

/-- The `for policy in sorted_policies` loop of `PolicyEvaluator.evaluate`:
skip every policy whose status is not ACTIVE, return the first match. -/
def evalPoliciesLoop (domain : String) (now : DateTime) :
    List Policy → EvaluationResult
  | [] =>
    { decision := .NO_MATCHING_POLICY,
      reason := "No policy matched domain " ++ domain }
  | p :: ps =>
    if p.status ≠ PolicyStatus.ACTIVE then evalPoliciesLoop domain now ps
    else
      match p.evaluate domain now with
      | none => evalPoliciesLoop domain now ps
      | some action =>
        { decision :=
            if action = RuleAction.ALLOW then AccessDecision.ALLOW
            else AccessDecision.DENY,
          reason := "Matched policy: " ++ p.name,
          policy_id := some p.policy_id,
          rule_id := findMatchedRule p domain }

/-- `PolicyEvaluator.evaluate` (the wall-clock `datetime.now` is passed
explicitly as `now`). -/
def PolicyEvaluator.evaluate (request : InterceptRequest) (agent : Agent)
    (policies : List Policy) (now : DateTime) : EvaluationResult :=
  if ¬ agent.can_make_requests then
    { decision := .DENY,
      reason := "Agent " ++ agent.name ++ " is " ++ agent.status.nm ++
        ", not ACTIVE" }
  else
    evalPoliciesLoop request.domain now
      (List.insertionSort (fun a b => a.priority ≤ b.priority) policies)

/-- Overwrite a policy's status, all other fields unchanged. -/
def Policy.setStatus (p : Policy) (st : PolicyStatus) : Policy :=
  { p with status := st }

/-! ## String utilities shared by the search engine (ASCII-faithful models of
the Python `str` methods, written structurally over the character list so
that concrete witnesses evaluate inside the kernel) -/

/-- `str.lower()` (ASCII case mapping). -/
def lowerStr (s : String) : String := String.mk (s.data.map Char.toLower)

/-- `str.upper()` (ASCII case mapping). -/
def upperStr (s : String) : String := String.mk (s.data.map Char.toUpper)

/-- The whitespace class of `str.split()` / `str.strip()`. -/
def isSpaceChar (c : Char) : Bool :=
  c == ' ' || c == '\t' || c == '\n' || c == '\r' ||
  c == Char.ofNat 11 || c == Char.ofNat 12

/-- `str.strip()` (trim whitespace at both ends). -/
def strTrim (s : String) : String :=
  String.mk (((s.data.dropWhile isSpaceChar).reverse.dropWhile
    isSpaceChar).reverse)

/-- `value in haystack`: substring containment. -/
def containsSub (needle : List Char) : List Char → Bool
  | [] => needle.isPrefixOf []
  | c :: cs => needle.isPrefixOf (c :: cs) || containsSub needle cs

/-- Accumulating worker for `str.split()` (split on whitespace runs,
dropping empty tokens). -/
def splitWsAux (cur : List Char) : List Char → List (List Char)
  | [] => if cur.isEmpty then [] else [cur.reverse]
  | c :: cs =>
    if isSpaceChar c then
      if cur.isEmpty then splitWsAux [] cs
      else cur.reverse :: splitWsAux [] cs
    else splitWsAux (c :: cur) cs

/-- `str.split()` with no separator. -/
def splitWs (l : List Char) : List (List Char) := splitWsAux [] l

/-- `word.strip(chars)`: drop the given characters from both ends. -/
def stripChars (chars : List Char) (l : List Char) : List Char :=
  ((l.dropWhile (chars.contains ·)).reverse.dropWhile
    (chars.contains ·)).reverse

/-- The punctuation set of `InvertedIndex.add_entry`'s reason tokenizer:
`".,;:!?()[]"`. -/
def punctChars : List Char := ['.', ',', ';', ':', '!', '?', '(', ')', '[', ']']

/-- `s.split(sep)` for a non-empty multi-character separator, fuelled by the
input length (Python's non-overlapping left-to-right split). -/
def splitOnListAux (sep : List Char) : Nat → List Char → List (List Char)
  | 0, l => [l]
  | _ + 1, [] => [[]]
  | fuel + 1, c :: cs =>
    if sep.isPrefixOf (c :: cs) then
      [] :: splitOnListAux sep fuel (List.drop (sep.length - 1) cs)
    else
      match splitOnListAux sep fuel cs with
      | [] => [[c]]
      | r :: rs => (c :: r) :: rs

/-- `s.split(sep)` for a string separator. -/
def splitOnStr (sep s : String) : List String :=
  (splitOnListAux sep.data (s.data.length + 1) s.data).map String.mk

/-- `part.split(":", 1)` preceded by the `":" in part` test: `none` when the
separator is absent. -/
def splitColonOnce : List Char → Option (List Char × List Char)
  | [] => none
  | c :: cs =>
    if c = ':' then some ([], cs)
    else (splitColonOnce cs).map (fun p => (c :: p.1, p.2))

/-- `value.split("-", 1)`, `none` when no dash is present (the Python code
then hits `parts[1]` / the length check). -/
def splitDashOnce : List Char → Option (List Char × List Char)
  | [] => none
  | c :: cs =>
    if c = '-' then some ([], cs)
    else (splitDashOnce cs).map (fun p => (c :: p.1, p.2))

/-- Numeric literal parser standing in for Python `float(...)` on the query's
time bounds (timestamps are modelled as `Int`). -/
def parseIntChars (l : List Char) : Option Int :=
  let digits (ds : List Char) : Option Nat :=
    if ds.isEmpty || ¬ ds.all Char.isDigit then none
    else some (ds.foldl (fun acc c => acc * 10 + (c.toNat - 48)) 0)
  match l with
  | '-' :: rest => (digits rest).map (fun n => -(n : Int))
  | _ => (digits l).map (fun n => (n : Int))

/-! ## strings/inverted_index.py -/

/-- The field-scoped posting dicts of `InvertedIndex` (term → entry-index
set; the set is modelled as the list of indices in increasing insertion
order, which is how a Python set over ever-increasing ints enumerates). -/
structure InvertedIndex where
  domainP : List (String × List Nat)
  agentP : List (String × List Nat)
  decisionP : List (String × List Nat)
  reasonP : List (String × List Nat)
  timestamps : List Int
  count : Nat
deriving DecidableEq, Repr

/-- A fresh `InvertedIndex`. -/
def emptyIndex : InvertedIndex :=
  { domainP := [], agentP := [], decisionP := [], reasonP := [],
    timestamps := [], count := 0 }

/-- `posting.setdefault(term, set()).add(idx)`. -/
def addPosting (ps : List (String × List Nat)) (term : String) (idx : Nat) :
    List (String × List Nat) :=
  match ps with
  | [] => [(term, [idx])]
  | (t, s) :: rest =>
    if t = term then (t, if idx ∈ s then s else s ++ [idx]) :: rest
    else (t, s) :: addPosting rest term idx

/-- `posting.get(term, set())`. -/
def postingLookup (ps : List (String × List Nat)) (term : String) : List Nat :=
  ((ps.find? (fun q => q.1 == term)).map (·.2)).getD []

/-- `InvertedIndex.add_entry`: index the domain's dot-tokens (lowercased)
plus the full lowercased domain, the agent id's string form, the decision
name, and the reason's whitespace tokens lowercased and stripped of
punctuation (empty tokens skipped); record the timestamp and bump the
count. -/
def InvertedIndex.add_entry (ix : InvertedIndex) (e : AuditEntry) :
    InvertedIndex :=
  let idx := ix.count
  let domainP := (splitDots e.domain).foldl
    (fun ps tok => addPosting ps (lowerStr tok) idx) ix.domainP
  let domainP := addPosting domainP (lowerStr e.domain) idx
  let agentP := addPosting ix.agentP (toString e.agent_id) idx
  let decisionP := addPosting ix.decisionP e.decision.nm idx
  let reasonP := (splitWs e.reason.data).foldl
    (fun ps w =>
      let w' := stripChars punctChars (w.map Char.toLower)
      if w'.isEmpty then ps else addPosting ps (String.mk w') idx)
    ix.reasonP
  { domainP := domainP, agentP := agentP, decisionP := decisionP,
    reasonP := reasonP, timestamps := ix.timestamps ++ [e.timestamp],
    count := ix.count + 1 }

/-- `InvertedIndex.search_field`: the decision field upper-cases the term,
all others lower-case it; the posting dict is selected by the *raw* field
name (`self._postings.get(field, {})`), an unknown field giving the empty
posting dict. -/
def InvertedIndex.search_field (ix : InvertedIndex) (field term : String) :
    List Nat :=
  let term' := if lowerStr field = "decision" then upperStr term
               else lowerStr term
  let posting :=
    if field = "domain" then ix.domainP
    else if field = "agent_id" then ix.agentP
    else if field = "decision" then ix.decisionP
    else if field = "reason" then ix.reasonP
    else []
  postingLookup posting term'

/-- The `result = result & other; if not result: return set()` loop shared by
`search_and` and the time-set intersection in `search`. -/
def interLoop (acc : List Nat) : List (List Nat) → List Nat
  | [] => acc
  | l :: ls =>
    let acc' := acc.filter (· ∈ l)
    if acc'.isEmpty then [] else interLoop acc' ls

/-- Collect the per-clause posting sets, short-circuiting to `none` when one
is empty (`if not s: return set()`). -/
def collectLists (ix : InvertedIndex) :
    List (String × String) → Option (List (List Nat))
  | [] => some []
  | (f, t) :: rest =>
    let s := ix.search_field f t
    if s.isEmpty then none
    else (collectLists ix rest).map (s :: ·)

/-- `InvertedIndex.search_and`: gather the posting sets, sort them by size
(smallest first), and intersect with early exit. -/
def InvertedIndex.search_and (ix : InvertedIndex)
    (clauses : List (String × String)) : List Nat :=
  match clauses with
  | [] => []
  | _ =>
    match collectLists ix clauses with
    | none => []
    | some lists =>
      match List.insertionSort (fun a b => a.length ≤ b.length) lists with
      | [] => []
      | l0 :: rest => interLoop l0 rest

/-- `InvertedIndex.search_time_range`: linear scan over the timestamps,
keeping indices with `start ≤ ts ≤ end` (the resulting set enumerated in
increasing order). -/
def InvertedIndex.search_time_range (ix : InvertedIndex) (start stop : Int) :
    List Nat :=
  (List.range ix.timestamps.length).filter
    (fun i => decide (start ≤ ix.timestamps.getD i 0 ∧
      ix.timestamps.getD i 0 ≤ stop))

/-! ## strings/search_engine.py -/

/-- `AuditSearchEngine` state: the index plus the entry list. -/
structure AuditSearchEngine where
  index : InvertedIndex
  entries : List AuditEntry
deriving Repr

/-- A fresh engine. -/
def emptyEngine : AuditSearchEngine := { index := emptyIndex, entries := [] }

/-- `AuditSearchEngine.index_entry`. -/
def AuditSearchEngine.index_entry (en : AuditSearchEngine) (e : AuditEntry) :
    AuditSearchEngine :=
  { index := en.index.add_entry e, entries := en.entries ++ [e] }

/-- An engine built by indexing the given entries in order. -/
def buildEngine (es : List AuditEntry) : AuditSearchEngine :=
  es.foldl AuditSearchEngine.index_entry emptyEngine

/-- One clause of `AuditSearchEngine._parse`: strip, require a colon, split
once, strip both halves, reject empties (`QueryParseError` is `none`). -/
def parseClause (part : String) : Option (String × String) :=
  let part := strTrim part
  match splitColonOnce part.data with
  | none => none
  | some (f, v) =>
    let fs := strTrim (String.mk f)
    let vs := strTrim (String.mk v)
    if fs = "" || vs = "" then none else some (fs, vs)

/-- Parse every ` AND `-separated clause. -/
def parseClauses : List String → Option (List (String × String))
  | [] => some []
  | p :: ps =>
    match parseClause p with
    | none => none
    | some c => (parseClauses ps).map (c :: ·)

/-- `AuditSearchEngine._parse`. -/
def parseQuery (query : String) : Option (List (String × String)) :=
  let q := strTrim query
  if q = "" then some []
  else parseClauses (splitOnStr " AND " q)

/-- Parse a `time:start-end` value: split on the first dash, then both
bounds numeric. -/
def parseTimeClause (v : String) : Option (Int × Int) :=
  match splitDashOnce v.data with
  | none => none
  | some (a, b) =>
    match parseIntChars a, parseIntChars b with
    | some x, some y => some (x, y)
    | _, _ => none

/-- The first pass of `AuditSearchEngine.search` over the clauses: evaluate
every `time:` clause to its index set, `none` on a malformed one
(`QueryParseError`). -/
def timeSetsOf (ix : InvertedIndex) :
    List (String × String) → Option (List (List Nat))
  | [] => some []
  | c :: cs =>
    if c.1 = "time" then
      match parseTimeClause c.2 with
      | none => none
      | some xy => (timeSetsOf ix cs).map (ix.search_time_range xy.1 xy.2 :: ·)
    else timeSetsOf ix cs

/-- Python `sorted(...)` on an int set, as a stable sort of its enumeration. -/
def sortNats (l : List Nat) : List Nat :=
  List.insertionSort (fun a b => a ≤ b) l

/-- `AuditSearchEngine.search`: parse, evaluate time clauses, intersect the
field-clause posting sets with the time sets, return the sorted indices. -/
def AuditSearchEngine.search (en : AuditSearchEngine) (query : String) :
    Option (List Nat) :=
  match parseQuery query with
  | none => none
  | some clauses =>
    if clauses.isEmpty then some []
    else
      match timeSetsOf en.index clauses with
      | none => none
      | some time_sets =>
        let field_clauses := clauses.filter (fun c => ¬ c.1 = "time")
        if ¬ field_clauses.isEmpty then
          some (sortNats (interLoop (en.index.search_and field_clauses)
            time_sets))
        else
          match time_sets with
          | [] => some []
          | t0 :: rest => some (sortNats (interLoop t0 rest))

/-- One clause of `_entry_matches_all` (naive scan); `none` models the
uncaught exceptions on a malformed `time:` clause. -/
def entryMatchesClause (e : AuditEntry) (c : String × String) : Option Bool :=
  if c.1 = "domain" then
    some (containsSub (lowerStr c.2).data (lowerStr e.domain).data)
  else if c.1 = "agent_id" then
    some (containsSub c.2.data (toString e.agent_id).data)
  else if c.1 = "decision" then
    some (upperStr c.2 == e.decision.nm)
  else if c.1 = "reason" then
    some (containsSub (lowerStr c.2).data (lowerStr e.reason).data)
  else if c.1 = "time" then
    match parseTimeClause c.2 with
    | none => none
    | some xy => some (decide (xy.1 ≤ e.timestamp ∧ e.timestamp ≤ xy.2))
  else some false

/-- `_entry_matches_all`: clauses in order, stopping at the first failure. -/
def entryMatchesAll (e : AuditEntry) :
    List (String × String) → Option Bool
  | [] => some true
  | c :: cs =>
    match entryMatchesClause e c with
    | none => none
    | some false => some false
    | some true => entryMatchesAll e cs

/-- The `for i, entry in enumerate(self._entries)` loop of `naive_search`. -/
def naiveLoop (clauses : List (String × String)) :
    Nat → List AuditEntry → Option (List Nat)
  | _, [] => some []
  | i, e :: es =>
    match entryMatchesAll e clauses with
    | none => none
    | some true => (naiveLoop clauses (i + 1) es).map (i :: ·)
    | some false => naiveLoop clauses (i + 1) es

/-- `AuditSearchEngine.naive_search`. -/
def AuditSearchEngine.naive_search (en : AuditSearchEngine) (query : String) :
    Option (List Nat) :=
  match parseQuery query with
  | none => none
  | some clauses =>
    if clauses.isEmpty then some []
    else naiveLoop clauses 0 en.entries

/-! ## strings/trie.py, strings/aho_corasick.py, strings/domain_matcher.py -/

/-- `dict.get(key)` on an insertion-ordered association list. -/
def assocGet {β : Type} (key : String) : List (String × β) → Option β
  | [] => none
  | (k, v) :: rest => if k = key then some v else assocGet key rest

/-- `dict[key] = val`: replace in place when the key exists, append when it
does not (Python dicts keep the original position on update and append new
keys at the end). -/
def assocSet {β : Type} (key : String) (val : β) :
    List (String × β) → List (String × β)
  | [] => [(key, val)]
  | (k, v) :: rest =>
    if k = key then (k, val) :: rest else (k, v) :: assocSet key val rest

/-- A `TrieNode` of `strings/trie.py`: children as an insertion-ordered
association list plus the patterns terminating at this node. -/
inductive TrieNode where
  | node : List (String × TrieNode) → List String → TrieNode

/-- The `children` field. -/
def TrieNode.children : TrieNode → List (String × TrieNode)
  | .node ch _ => ch

/-- The `patterns` field. -/
def TrieNode.patterns : TrieNode → List String
  | .node _ ps => ps

/-- The loop of `DomainTrie.insert` over the reversed segments, in
functional form: walk down, creating absent children (`TrieNode()`), and
append the pattern to the terminal node's `patterns`. -/
def trieInsertAux : List String → TrieNode → String → TrieNode
  | [], t, pattern => TrieNode.node t.children (t.patterns ++ [pattern])
  | seg :: rest, t, pattern =>
    let child := match assocGet seg t.children with
      | some c => c
      | none => TrieNode.node [] []
    TrieNode.node (assocSet seg (trieInsertAux rest child pattern) t.children)
      t.patterns

/-- `DomainTrie.insert`: split on ".", reverse, walk/extend, record the
pattern at the terminal node. -/
def trieInsert (root : TrieNode) (pattern : String) : TrieNode :=
  trieInsertAux (splitDots pattern).reverse root pattern

/-- A `DomainTrie` built by inserting each pattern into a fresh trie. -/
def buildTrie (ps : List String) : TrieNode :=
  ps.foldl trieInsert (TrieNode.node [] [])

/-- `DomainTrie._walk`: at each level follow both the literal-segment child
and the `"*"` child; at full depth collect the node's patterns.  The DFS
emits the literal subtree's results before the wildcard subtree's. -/
def trieWalk : List String → TrieNode → List String
  | [], t => t.patterns
  | seg :: rest, t =>
    (match assocGet seg t.children with
     | none => []
     | some c => trieWalk rest c) ++
    (match assocGet "*" t.children with
     | none => []
     | some w => trieWalk rest w)

/-- `DomainTrie.match`. -/
def trieMatch (root : TrieNode) (domain : String) : List String :=
  trieWalk (splitDots domain).reverse root

/-- `DomainMatcher.match_naive`: compare every stored pattern segment by
segment against the domain ("*" matches exactly one segment). -/
def matchNaive (patterns : List String) (domain : String) : List String :=
  let domain_parts := splitDots domain
  patterns.filter (fun pattern =>
    let pattern_parts := splitDots pattern
    (pattern_parts.length == domain_parts.length) &&
      ((pattern_parts.zip domain_parts).all
        (fun pd => pd.1 == "*" || pd.1 == pd.2)))

/-- An `ACNode` of `strings/aho_corasick.py` in a flat, index-addressed
rendering of the automaton: Python object identity becomes the node's index
in the node list; the root is index 0. -/
structure ACNode where
  children : List (String × Nat)
  fail : Nat
  output : List String
  depth : Nat
deriving DecidableEq, Repr, Inhabited

/-- A fresh automaton: just the root node. -/
def acEmpty : List ACNode := [⟨[], 0, [], 0⟩]

/-- The loop of `AhoCorasick.add_pattern` over `enumerate(segments)`:
follow existing children or create `ACNode(depth=i + 1)` at a fresh index,
then append the pattern to the terminal node's `output`. -/
def acAddAux : List String → List ACNode → Nat → Nat → String → List ACNode
  | [], nodes, cur, _, pattern =>
    nodes.set cur { nodes.getD cur default with
      output := (nodes.getD cur default).output ++ [pattern] }
  | seg :: rest, nodes, cur, i, pattern =>
    match assocGet seg (nodes.getD cur default).children with
    | some nxt => acAddAux rest nodes nxt (i + 1) pattern
    | none =>
      let idx := nodes.length
      let nodes' := (nodes.set cur { nodes.getD cur default with
        children := (nodes.getD cur default).children ++ [(seg, idx)] }) ++
        [{ children := [], fail := 0, output := [], depth := i + 1 }]
      acAddAux rest nodes' idx (i + 1) pattern

/-- `AhoCorasick.add_pattern`. -/
def acAddPattern (nodes : List ACNode) (pattern : String) : List ACNode :=
  acAddAux (splitDots pattern) nodes 0 0 pattern

/-- The goto trie of an automaton fed every pattern in order. -/
def buildAC (ps : List String) : List ACNode :=
  ps.foldl acAddPattern acEmpty

/-- The `while current is not root and seg not in current.children` climb
shared by `build` and `_advance`.  The failure chain strictly decreases the
node depth, so `nodes.length` fuel always suffices. -/
def acClimb (nodes : List ACNode) (seg : String) : Nat → Nat → Nat
  | 0, cur => cur
  | _ + 1, 0 => 0
  | fuel + 1, cur + 1 =>
    if (assocGet seg (nodes.getD (cur + 1) default).children).isSome then
      cur + 1
    else acClimb nodes seg fuel (nodes.getD (cur + 1) default).fail

/-- One `(seg, child)` edge of `build`s BFS body: climb the failure chain
from the parent's failure link, set the child's failure link (with the
self-loop guard), then append the failure target's output list. -/
def acProcessChild (nodes : List ACNode) (cur : Nat) (seg : String)
    (child : Nat) : List ACNode :=
  let fallback := acClimb nodes seg nodes.length (nodes.getD cur default).fail
  let f0 := match assocGet seg (nodes.getD fallback default).children with
    | some t => t
    | none => 0
  let f1 := if f0 = child then 0 else f0
  let nodes1 := nodes.set child { nodes.getD child default with fail := f1 }
  nodes1.set child { nodes1.getD child default with
    output := (nodes1.getD child default).output ++
      (nodes1.getD f1 default).output }

/-- `build`s BFS loop over the queue of node indices.  Each node is
enqueued at most once, so `nodes.length + 1` fuel always suffices. -/
def acBuildLoop : Nat → List ACNode → List Nat → List ACNode
  | 0, nodes, _ => nodes
  | _ + 1, nodes, [] => nodes
  | fuel + 1, nodes, cur :: queue =>
    let st := (nodes.getD cur default).children.foldl
      (fun st sc => (acProcessChild st.1 cur sc.1 sc.2, st.2 ++ [sc.2]))
      (nodes, queue)
    acBuildLoop fuel st.1 st.2

/-- `AhoCorasick.build`: the root fails to itself, depth-1 nodes fail to
the root and seed the queue, then the BFS computes the remaining failure
links and propagates outputs. -/
def acBuild (nodes : List ACNode) : List ACNode :=
  let nodes1 := nodes.set 0 { nodes.getD 0 default with fail := 0 }
  let rootChildren := (nodes1.getD 0 default).children
  let nodes2 := rootChildren.foldl
    (fun st sc => st.set sc.2 { st.getD sc.2 default with fail := 0 })
    nodes1
  acBuildLoop (nodes.length + 1) nodes2 (rootChildren.map (fun sc => sc.2))

/-- `AhoCorasick._advance`: climb from the active node itself, then step to
the found child, adding it to `next_active` unless already present. -/
def acAdvance (nodes : List ACNode) (v : Nat) (seg : String)
    (next : List Nat) : List Nat :=
  let cur := acClimb nodes seg nodes.length v
  match assocGet seg (nodes.getD cur default).children with
  | none => next
  | some t => if t ∈ next then next else next ++ [t]

/-- One segment step of `search`: every active node tries the literal
segment and then `"*"`. -/
def acStep (nodes : List ACNode) (active : List Nat) (seg : String) :
    List Nat :=
  active.foldl
    (fun next v => acAdvance nodes v "*" (acAdvance nodes v seg next)) []

/-- Python `pat.count(".")`. -/
def dotCount (s : String) : Nat := s.data.count '.'

/-- The final collection loop of `search`: outputs of all final active
states, deduplicated via `seen`, keeping only patterns with exactly as many
segments as the domain. -/
def acCollect (nodes : List ACNode) (n : Nat) (active : List Nat) :
    List String :=
  active.foldl (fun results v =>
    (nodes.getD v default).output.foldl (fun results pat =>
      if pat ∉ results ∧ dotCount pat + 1 = n then results ++ [pat]
      else results) results) []

/-- `AhoCorasick.search` on a built automaton (`DomainMatcher.match_ac`
raises before `build`, so the verified form takes the built node list). -/
def acSearch (nodes : List ACNode) (domain : String) : List String :=
  let segments := splitDots domain
  acCollect nodes segments.length (segments.foldl (acStep nodes) [0])

/-- The goto function of the automaton (children only, no failure links):
where a segment list leads from a node. -/
def acFollow (nodes : List ACNode) : Nat → List String → Option Nat
  | v, [] => some v
  | v, s :: rest =>
    match assocGet s (nodes.getD v default).children with
    | none => none
    | some w => acFollow nodes w rest

/-- The segment-comparison test shared by `match_naive` (and by
`PolicyRule.matches`): equal segment counts and "*"-or-equal segmentwise. -/
def wmB (qs ds : List String) : Bool :=
  (qs.length == ds.length) &&
    ((qs.zip ds).all (fun pd => pd.1 == "*" || pd.1 == pd.2))

/-- Structural well-formedness of the goto trie, as established by
`add_pattern`: the root is index 0 at depth 0; every child edge targets a
non-root index in range at depth one more than its parent (hence depth is
at most the index, positive off the root); distinct edges target distinct
nodes. -/
def ACStruct (nodes : List ACNode) : Prop :=
  1 ≤ nodes.length ∧
  (nodes.getD 0 default).depth = 0 ∧
  (∀ v, v < nodes.length → ∀ sc ∈ (nodes.getD v default).children,
    1 ≤ sc.2 ∧ sc.2 < nodes.length ∧
    (nodes.getD sc.2 default).depth = (nodes.getD v default).depth + 1) ∧
  (∀ v, v < nodes.length → (nodes.getD v default).depth ≤ v) ∧
  (∀ v, v < nodes.length → 1 ≤ v → 1 ≤ (nodes.getD v default).depth) ∧
  (∀ v, v < nodes.length → ∀ w, w < nodes.length →
    ∀ sc ∈ (nodes.getD v default).children,
    ∀ sc' ∈ (nodes.getD w default).children,
    sc.2 = sc'.2 → v = w ∧ sc.1 = sc'.1)

/-- Every output entry sits at the node its segment path leads to, and its
segment count equals that node's depth. -/
def ACOutWF (nodes : List ACNode) : Prop :=
  ∀ v, ∀ q ∈ (nodes.getD v default).output,
    dotCount q + 1 = (nodes.getD v default).depth

/-- What `build` preserves or establishes, relative to the pre-build
automaton `base`: children and depths untouched, outputs only extended with
strictly shorter patterns, and every non-root failure link in range and
strictly decreasing in depth. -/
def BuildRel (base nodes : List ACNode) : Prop :=
  nodes.length = base.length ∧
  (∀ v, (nodes.getD v default).children = (base.getD v default).children) ∧
  (∀ v, (nodes.getD v default).depth = (base.getD v default).depth) ∧
  (∀ v, ∃ extra,
    (nodes.getD v default).output = (base.getD v default).output ++ extra ∧
    ∀ q ∈ extra, dotCount q + 1 < (nodes.getD v default).depth) ∧
  (∀ v, 1 ≤ v → v < nodes.length →
    (nodes.getD v default).fail < nodes.length ∧
    (nodes.getD (nodes.getD v default).fail default).depth <
      (nodes.getD v default).depth)

/-- Labels fed to the automaton during `search` against the actual domain
segments: at each position the literal segment or `"*"`. -/
def labelsMatch : List String → List String → Prop :=
  List.Forall₂ (fun l d => l = d ∨ l = "*")

/-- The active-set invariant of `search` after consuming `ds`: every active
state is in range at depth at most the number of consumed segments; the
full-depth active states are exactly the goto-trie nodes whose paths match
the consumed segments literally or by wildcard. -/
def ActiveOk (nodes : List ACNode) (ds : List String)
    (active : List Nat) : Prop :=
  (∀ v ∈ active, v < nodes.length ∧
    (nodes.getD v default).depth ≤ ds.length) ∧
  (∀ v ∈ active, (nodes.getD v default).depth = ds.length →
    ∃ ls, labelsMatch ls ds ∧ acFollow nodes 0 ls = some v) ∧
  (∀ ls, labelsMatch ls ds → ∀ v, acFollow nodes 0 ls = some v →
    v ∈ active)

/-! # Theorems -/

theorem chainWF_init (key : Option Nat) : ChainWF (AuditChain.init key) := by
  refine ⟨?_, ?_, ?_, ?_, rfl⟩
  · intro i h; simp [AuditChain.init] at h
  · intro h; simp [AuditChain.init] at h
  · intro i h; simp [AuditChain.init] at h
  · intro i h; simp [AuditChain.init] at h

theorem secret_key_append (c : AuditChain) (e : AuditEntry) :
    (c.append e).secret_key = c.secret_key := rfl

theorem entries_append (c : AuditChain) (e : AuditEntry) :
    (c.append e).entries = c.entries ++
      [{ entry := e, previous_hash := c.head_hash,
         current_hash := hashFn c.secret_key e c.head_hash,
         sequence_number := c.entries.length }] := rfl

theorem chainWF_append (c : AuditChain) (e : AuditEntry) (hc : ChainWF c) :
    ChainWF (c.append e) := by
  obtain ⟨hseq, hgen, hlink, hhash, hhead⟩ := hc
  have hlen : (c.append e).entries.length = c.entries.length + 1 := by
    simp [entries_append]
  refine ⟨?_, ?_, ?_, ?_, ?_⟩
  · intro i h
    rw [hlen] at h
    rcases Nat.lt_succ_iff_lt_or_eq.mp h with h' | h'
    · simp only [List.get_eq_getElem, entries_append, List.getElem_append, h', dif_pos]
      exact hseq i h'
    · subst h'
      simp [entries_append, List.getElem_append]
  · intro h
    rcases Nat.eq_zero_or_pos c.entries.length with h0 | h0
    · have he : c.entries = [] := List.length_eq_zero.mp h0
      have hh : c.head_hash = HashVal.genesis := by rw [hhead, he]; rfl
      simp [entries_append, he, hh]
    · simp only [List.get_eq_getElem, entries_append, List.getElem_append, h0, dif_pos]
      exact hgen h0
  · intro i h
    rw [hlen] at h
    rcases Nat.lt_succ_iff_lt_or_eq.mp h with h' | h'
    · simp only [List.get_eq_getElem, entries_append, List.getElem_append, h',
        Nat.lt_of_succ_lt h', dif_pos]
      exact hlink i h'
    · -- the appended entry: its previous_hash is the old head, i.e. the old
      -- last entry's current_hash
      have hi : i = c.entries.length - 1 := by omega
      have hilt : i < c.entries.length := by omega
      simp only [List.get_eq_getElem, entries_append, List.getElem_append, hilt, dif_pos]
      rw [dif_neg (by omega)]
      have hlast : c.entries.getLast? = some c.entries[i] := by
        subst hi
        rw [List.getLast?_eq_getElem?]
        exact List.getElem?_eq_getElem (by omega)
      simp [hhead, hlast]
  · intro i h
    rw [hlen] at h
    rw [secret_key_append]
    rcases Nat.lt_succ_iff_lt_or_eq.mp h with h' | h'
    · simp only [List.get_eq_getElem, entries_append, List.getElem_append, h', dif_pos]
      exact hhash i h'
    · subst h'
      simp [entries_append, List.getElem_append]
  · simp [entries_append, AuditChain.append, List.getLast?_append]

theorem chainWF_buildChain (key : Option Nat) (es : List AuditEntry) :
    ChainWF (buildChain key es) := by
  induction es using List.reverseRecOn with
  | nil => exact chainWF_init key
  | append_singleton es e ih =>
    have : buildChain key (es ++ [e]) = (buildChain key es).append e := by
      simp [buildChain, List.foldl_append]
    rw [this]
    exact chainWF_append _ _ ih

theorem buildChain_secret_key (key : Option Nat) (es : List AuditEntry) :
    (buildChain key es).secret_key = key := by
  induction es using List.reverseRecOn with
  | nil => rfl
  | append_singleton es e ih =>
    have : buildChain key (es ++ [e]) = (buildChain key es).append e := by
      simp [buildChain, List.foldl_append]
    rw [this, secret_key_append, ih]

theorem buildChain_length (key : Option Nat) (es : List AuditEntry) :
    (buildChain key es).entries.length = es.length := by
  induction es using List.reverseRecOn with
  | nil => rfl
  | append_singleton es e ih =>
    have : buildChain key (es ++ [e]) = (buildChain key es).append e := by
      simp [buildChain, List.foldl_append]
    rw [this]
    simp [entries_append, ih]

/-- C1: every chain built by a finite sequence of `append` calls from the
empty chain has dense sequence numbers `0..n-1`, a genesis `previous_hash`
at entry 0, back-links `previous_hash(i) = current_hash(i-1)`, every
`current_hash` equal to the mode's hash of the entry and its
`previous_hash`, and `head_hash` equal to the last `current_hash`
(genesis when empty); in both plain and keyed modes. -/
theorem C1_chain_invariants (key : Option Nat) (es : List AuditEntry) :
    (buildChain key es).entries.length = es.length ∧
    ChainWF (buildChain key es) ∧
    (∀ i (h : i < (buildChain key es).entries.length),
      ((buildChain key es).entries.get ⟨i, h⟩).current_hash =
        hashFn key ((buildChain key es).entries.get ⟨i, h⟩).entry
          ((buildChain key es).entries.get ⟨i, h⟩).previous_hash) := by
  refine ⟨buildChain_length key es, chainWF_buildChain key es, ?_⟩
  intro i h
  have := (chainWF_buildChain key es).2.2.2.1 i h
  rwa [buildChain_secret_key] at this

/-- Witness for C1 at a concrete two-entry chain (plain mode). -/
theorem C1_chain_invariants_witness :
    ((buildChain none
        [{ entry_id := 1, agent_id := 2, domain := "a.com",
           decision := .ALLOW, timestamp := 5, reason := "ok" },
         { entry_id := 3, agent_id := 2, domain := "b.com",
           decision := .DENY, timestamp := 6, reason := "no" }]).entries.length = 2) ∧
    ((buildChain none
        [{ entry_id := 1, agent_id := 2, domain := "a.com",
           decision := .ALLOW, timestamp := 5, reason := "ok" },
         { entry_id := 3, agent_id := 2, domain := "b.com",
           decision := .DENY, timestamp := 6, reason := "no" }]).entries.get
        ⟨1, by decide⟩).sequence_number = 1 := by
  refine ⟨(C1_chain_invariants none _).1, ?_⟩
  exact (C1_chain_invariants none _).2.1.1 1 (by decide)

/-! ## C2: verify_full accepts untampered chains -/

/-- If every index in `[seq, seq + remaining)` passes both the link check and
the recomputation check, the verification loop reports success and counts
all of them. -/
theorem verifyLoop_valid (c : AuditChain) (hc : ChainWF c) :
    ∀ remaining seq verified, seq + remaining ≤ c.entries.length →
      verifyLoop c 0 seq verified remaining =
        { is_valid := true, entries_verified := verified + remaining } := by
  obtain ⟨hseq, hgen, hlink, hhash, hhead⟩ := hc
  intro remaining
  induction remaining with
  | zero => intro seq verified _; simp [verifyLoop]
  | succ r ih =>
    intro seq verified hle
    have hs : seq < c.entries.length := by omega
    have hgetd : c.entries.getD seq default = c.entries[seq] :=
      List.getD_eq_getElem _ _ hs
    have hprev : (c.entries[seq]).previous_hash = expectedPrevOf c 0 seq c.entries[seq] := by
      unfold expectedPrevOf
      rcases Nat.eq_zero_or_pos seq with h0 | h0
      · subst h0
        simpa using hgen hs
      · obtain ⟨j, rfl⟩ : ∃ j, seq = j + 1 := ⟨seq - 1, by omega⟩
        rw [if_neg (by omega), if_neg (by omega)]
        have hl := hlink j (by omega)
        simp only [List.get_eq_getElem] at hl
        simpa [List.getElem?_eq_getElem (show j < c.entries.length by omega)] using hl
    have hcur : c.computeHash (c.entries[seq]).entry (c.entries[seq]).previous_hash =
        (c.entries[seq]).current_hash := by
      have := hhash seq hs
      simp only [List.get_eq_getElem] at this
      rw [AuditChain.computeHash, ← this]
    simp only [verifyLoop, hgetd]
    rw [if_neg (not_not_intro hprev), if_neg (not_not_intro hcur)]
    rw [ih (seq + 1) (verified + 1) (by omega)]
    congr 1
    omega

/-- C2: `verify_full` on a chain produced only by `append` (any number of
entries, either hashing mode) returns a valid result whose
`entries_verified` equals the chain length. -/
theorem C2_verify_full_valid (key : Option Nat) (es : List AuditEntry) :
    (buildChain key es).verifyFull =
      { is_valid := true, entries_verified := es.length } := by
  unfold AuditChain.verifyFull
  rcases Nat.eq_zero_or_pos (buildChain key es).entries.length with h0 | h0
  · rw [if_pos h0]
    rw [buildChain_length] at h0
    simp [h0]
  · rw [if_neg (by omega)]
    unfold AuditChain.verifyRangeInternal
    have := verifyLoop_valid (buildChain key es) (chainWF_buildChain key es)
      ((buildChain key es).entries.length) 0 0 (by omega)
    simpa [buildChain_length] using this

/-! ## C3: in-place tampering with a single entry field -/

theorem oneFieldTamper_ne {e e' : AuditEntry} (h : oneFieldTamper e e') : e' ≠ e := by
  intro heq
  subst heq
  rcases h with ⟨h, -⟩ | ⟨h, -⟩ | ⟨h, -⟩ | ⟨h, -⟩ | ⟨h, -⟩ | ⟨h, -⟩ | ⟨h, -⟩ |
    ⟨h, -⟩ | ⟨h, -⟩ | ⟨h, -⟩ | ⟨h, -⟩ | ⟨h, -⟩ <;> exact h rfl

/-- The free-constructor hash is injective in the entry argument (the
collision-free idealisation of SHA-256/HMAC over the injective
length-prefixed canonical encoding). -/
theorem hashFn_inj_entry {key : Option Nat} {e₁ e₂ : AuditEntry} {p : HashVal}
    (h : hashFn key e₁ p = hashFn key e₂ p) : e₁ = e₂ := by
  cases key <;> simpa [hashFn] using h

/-- Generic failure form of the verification loop: if every index before `i`
passes both checks, the link check passes at `i`, but recomputation fails at
`i`, the loop stops at `i` with the hash-mismatch diagnostic. -/
theorem verifyLoop_hashMismatch (d : AuditChain) (i : Nat)
    (hpass : ∀ j, j < i →
      (d.entries.getD j default).previous_hash =
        expectedPrevOf d 0 j (d.entries.getD j default) ∧
      d.computeHash (d.entries.getD j default).entry
          (d.entries.getD j default).previous_hash =
        (d.entries.getD j default).current_hash)
    (hlinki : (d.entries.getD i default).previous_hash =
      expectedPrevOf d 0 i (d.entries.getD i default))
    (hfail : d.computeHash (d.entries.getD i default).entry
        (d.entries.getD i default).previous_hash ≠
      (d.entries.getD i default).current_hash) :
    ∀ remaining seq verified, seq ≤ i → i < seq + remaining →
      verifyLoop d 0 seq verified remaining =
        { is_valid := false, entries_verified := verified + (i - seq),
          first_invalid_sequence := some i,
          expected_hash := some (d.computeHash (d.entries.getD i default).entry
            (d.entries.getD i default).previous_hash),
          actual_hash := some (d.entries.getD i default).current_hash,
          diag := some .hashMismatch } := by
  intro remaining
  induction remaining with
  | zero => intro seq verified h1 h2; omega
  | succ r ih =>
    intro seq verified h1 h2
    rcases Nat.lt_or_ge seq i with hlt | hge
    · obtain ⟨hp, hh⟩ := hpass seq hlt
      simp only [verifyLoop]
      rw [if_neg (not_not_intro hp), if_neg (not_not_intro hh)]
      rw [ih (seq + 1) (verified + 1) (by omega) (by omega)]
      congr 1
      omega
    · have : seq = i := by omega
      subst this
      simp only [verifyLoop]
      rw [if_neg (not_not_intro hlinki), if_pos hfail]
      congr 1
      omega

/-- C3: replacing exactly one field of the stored entry at index `i` (hashes
and all other entries untouched) makes `verify_full` report invalid at
exactly sequence `i`, with the recomputed hash as `expected_hash`, the
stored `current_hash` as `actual_hash`, and the in-place hash-mismatch
diagnostic (not the chain-link-broken one). -/
theorem C3_tamper_hash_mismatch (key : Option Nat) (es : List AuditEntry)
    (i : Nat) (e' : AuditEntry)
    (hi : i < (buildChain key es).entries.length)
    (ht : oneFieldTamper ((buildChain key es).entries.get ⟨i, hi⟩).entry e') :
    (tamperEntryAt (buildChain key es) i e').verifyFull =
      { is_valid := false, entries_verified := i,
        first_invalid_sequence := some i,
        expected_hash := some (hashFn key e'
          (((buildChain key es).entries.get ⟨i, hi⟩).previous_hash)),
        actual_hash := some (((buildChain key es).entries.get ⟨i, hi⟩).current_hash),
        diag := some Diag.hashMismatch } := by
  obtain ⟨hseq, hgen, hlink, hhash, hhead⟩ := chainWF_buildChain key es
  simp only [List.get_eq_getElem] at hseq hgen hlink hhash ht ⊢
  set c := buildChain key es with hc
  set d := tamperEntryAt c i e' with hd
  have hdent : d.entries = c.entries.set i { c.entries.getD i default with entry := e' } := rfl
  have hdlen : d.entries.length = c.entries.length := by
    rw [hdent, List.length_set]
  have hdkey : d.secret_key = c.secret_key := rfl
  have hckey : c.secret_key = key := buildChain_secret_key key es
  have hgetI : d.entries.getD i default =
      { c.entries[i] with entry := e' } := by
    rw [hdent, List.getD_eq_getElem _ _ (by rw [List.length_set]; exact hi)]
    rw [List.getElem_set]
    rw [if_pos rfl, List.getD_eq_getElem _ _ hi]
  have hgetNe : ∀ j (hj : j < c.entries.length), j ≠ i →
      d.entries.getD j default = c.entries[j] := by
    intro j hj hne
    rw [hdent, List.getD_eq_getElem _ _ (by rw [List.length_set]; exact hj)]
    rw [List.getElem_set, if_neg (fun h => hne h.symm)]
  -- the expected previous hash, in `d`, agrees with the one in `c` at every
  -- index at most i (the predecessor consulted is never the tampered slot)
  have hexp : ∀ j, j ≤ i → ∀ ce, expectedPrevOf d 0 j ce = expectedPrevOf c 0 j ce := by
    intro j hj ce
    unfold expectedPrevOf
    rcases Nat.eq_zero_or_pos j with h0 | h0
    · simp [h0]
    · rw [if_neg (by omega), if_neg (by omega), if_neg (by omega), if_neg (by omega)]
      have hjm : j - 1 < c.entries.length := by omega
      rw [hgetNe (j - 1) hjm (by omega), List.getD_eq_getElem _ _ hjm]
  have hpass : ∀ j, j < i →
      (d.entries.getD j default).previous_hash =
        expectedPrevOf d 0 j (d.entries.getD j default) ∧
      d.computeHash (d.entries.getD j default).entry
          (d.entries.getD j default).previous_hash =
        (d.entries.getD j default).current_hash := by
    intro j hj
    have hjc : j < c.entries.length := by omega
    rw [hgetNe j hjc (by omega), hexp j (by omega)]
    constructor
    · unfold expectedPrevOf
      rcases Nat.eq_zero_or_pos j with h0 | h0
      · subst h0; simpa using hgen (by omega)
      · obtain ⟨k, rfl⟩ : ∃ k, j = k + 1 := ⟨j - 1, by omega⟩
        rw [if_neg (by omega), if_neg (by omega)]
        have hl := hlink k (by omega)
        simpa [List.getElem?_eq_getElem (show k < c.entries.length by omega)] using hl
    · rw [AuditChain.computeHash, hdkey]
      exact (hhash j hjc).symm
  have hlinki : (d.entries.getD i default).previous_hash =
      expectedPrevOf d 0 i (d.entries.getD i default) := by
    rw [hgetI, hexp i le_rfl]
    show (c.entries[i]).previous_hash = expectedPrevOf c 0 i _
    unfold expectedPrevOf
    rcases Nat.eq_zero_or_pos i with h0 | h0
    · subst h0; simpa using hgen (by omega)
    · obtain ⟨k, rfl⟩ : ∃ k, i = k + 1 := ⟨i - 1, by omega⟩
      rw [if_neg (by omega), if_neg (by omega)]
      have hl := hlink k (by omega)
      simpa [List.getElem?_eq_getElem (show k < c.entries.length by omega)] using hl
  have hfail : d.computeHash (d.entries.getD i default).entry
      (d.entries.getD i default).previous_hash ≠
      (d.entries.getD i default).current_hash := by
    rw [hgetI, AuditChain.computeHash, hdkey, hckey]
    show hashFn key e' (c.entries[i]).previous_hash ≠ (c.entries[i]).current_hash
    intro habs
    have hstored := hhash i hi
    rw [hckey] at hstored
    rw [hstored] at habs
    exact oneFieldTamper_ne ht (hashFn_inj_entry habs)
  have hlen0 : d.entries.length ≠ 0 := by omega
  unfold AuditChain.verifyFull
  rw [if_neg hlen0]
  unfold AuditChain.verifyRangeInternal
  simp only [Nat.sub_zero]
  rw [verifyLoop_hashMismatch d i hpass hlinki hfail d.entries.length 0 0
    (by omega) (by omega)]
  rw [hgetI]
  simp [AuditChain.computeHash, hdkey, hckey]

/-- Witness for C3: a two-entry plain-mode chain with the domain of the entry
at index 1 replaced by "evil.com". -/
theorem C3_tamper_hash_mismatch_witness :
    (1 < (buildChain none
      [{ entry_id := 1, agent_id := 2, domain := "a.com",
         decision := .ALLOW, timestamp := 5, reason := "ok" },
       { entry_id := 3, agent_id := 2, domain := "b.com",
         decision := .DENY, timestamp := 6, reason := "no" }]).entries.length) ∧
    ((tamperEntryAt (buildChain none
      [{ entry_id := 1, agent_id := 2, domain := "a.com",
         decision := .ALLOW, timestamp := 5, reason := "ok" },
       { entry_id := 3, agent_id := 2, domain := "b.com",
         decision := .DENY, timestamp := 6, reason := "no" }]) 1
      { entry_id := 3, agent_id := 2, domain := "evil.com",
        decision := .DENY, timestamp := 6, reason := "no" }).verifyFull).is_valid
      = false := by
  refine ⟨by decide, ?_⟩
  rw [C3_tamper_hash_mismatch none
    [{ entry_id := 1, agent_id := 2, domain := "a.com",
       decision := .ALLOW, timestamp := 5, reason := "ok" },
     { entry_id := 3, agent_id := 2, domain := "b.com",
       decision := .DENY, timestamp := 6, reason := "no" }] 1
    { entry_id := 3, agent_id := 2, domain := "evil.com",
      decision := .DENY, timestamp := 6, reason := "no" }
    (by decide) (by unfold oneFieldTamper; decide)]

/-! ## Columnar store: structural lemmas -/

theorem appendAllStore_eq_foldl :
    ∀ (es : List AuditEntry) (s s' : ColumnarStore),
      appendAllStore es s = some s' → s' = es.foldl pushEntry s := by
  intro es
  induction es with
  | nil => intro s s' h; cases h; rfl
  | cons e es ih =>
    intro s s' h
    unfold appendAllStore ColumnarStore.appendRun at h
    by_cases hc : s.count > 0 ∧ e.timestamp < s.timestamps.getLastD 0
    · rw [if_pos hc] at h; cases h
    · rw [if_neg hc] at h
      exact ih (pushEntry s e) s' h

theorem pushAll_fields (es : List AuditEntry) : ∀ s : ColumnarStore,
    (es.foldl pushEntry s).timestamps = s.timestamps ++ es.map (·.timestamp) ∧
    (es.foldl pushEntry s).agent_ids = s.agent_ids ++ es.map (·.agent_id) ∧
    (es.foldl pushEntry s).domains = s.domains ++ es.map (·.domain) ∧
    (es.foldl pushEntry s).decisions =
      s.decisions ++ es.map (fun e => e.decision.value) ∧
    (es.foldl pushEntry s).reasons = s.reasons ++ es.map (·.reason) ∧
    (es.foldl pushEntry s).policy_ids = s.policy_ids ++ es.map (·.policy_id) ∧
    (es.foldl pushEntry s).rule_ids = s.rule_ids ++ es.map (·.rule_id) ∧
    (es.foldl pushEntry s).entry_ids = s.entry_ids ++ es.map (·.entry_id) ∧
    (es.foldl pushEntry s).methods =
      s.methods ++ es.map (fun e => methodEncode e.request_method) ∧
    (es.foldl pushEntry s).paths = s.paths ++ es.map (·.request_path) ∧
    (es.foldl pushEntry s).source_ips = s.source_ips ++ es.map (·.source_ip) ∧
    (es.foldl pushEntry s).latencies =
      s.latencies ++ es.map (fun e => f32Round e.processing_time_ms) ∧
    (es.foldl pushEntry s).count = s.count + es.length := by
  induction es with
  | nil => intro s; simp
  | cons e es ih =>
    intro s
    obtain ⟨h1, h2, h3, h4, h5, h6, h7, h8, h9, h10, h11, h12, h13⟩ :=
      ih (pushEntry s e)
    refine ⟨?_, ?_, ?_, ?_, ?_, ?_, ?_, ?_, ?_, ?_, ?_, ?_, ?_⟩ <;>
      (simp only [List.foldl_cons, h1, h2, h3, h4, h5, h6, h7, h8, h9, h10, h11,
        h12, h13]
       simp [pushEntry]) <;> omega

theorem sorted_mem_le_getLastD {l : List Int} (hs : l.Pairwise (· ≤ ·))
    {a : Int} (ha : a ∈ l) : a ≤ l.getLastD 0 := by
  have hne : l ≠ [] := by rintro rfl; simp at ha
  rw [List.getLastD_eq_getLast?, List.getLast?_eq_getLast l hne, Option.getD_some,
    List.getLast_eq_getElem]
  obtain ⟨i, hi, rfl⟩ := List.mem_iff_getElem.mp ha
  rcases Nat.lt_or_ge i (l.length - 1) with h | h
  · exact (List.pairwise_iff_getElem.mp hs) i (l.length - 1) hi (by omega) h
  · have : i = l.length - 1 := by omega
    subst this; exact le_refl _

theorem appendAll_count_sorted :
    ∀ (es : List AuditEntry) (s s' : ColumnarStore),
      appendAllStore es s = some s' →
      s.count = s.timestamps.length → s.timestamps.Pairwise (· ≤ ·) →
      s'.count = s'.timestamps.length ∧ s'.timestamps.Pairwise (· ≤ ·) := by
  intro es
  induction es with
  | nil => intro s s' h hc hs; cases h; exact ⟨hc, hs⟩
  | cons e es ih =>
    intro s s' h hc hs
    unfold appendAllStore ColumnarStore.appendRun at h
    by_cases hcond : s.count > 0 ∧ e.timestamp < s.timestamps.getLastD 0
    · rw [if_pos hcond] at h; cases h
    · rw [if_neg hcond] at h
      refine ih (pushEntry s e) s' h ?_ ?_
      · simp [pushEntry, hc]
      · simp only [pushEntry]
        rw [List.pairwise_append]
        refine ⟨hs, by simp, ?_⟩
        intro a ha b hb
        simp at hb
        subst hb
        have hne : s.timestamps ≠ [] := by rintro habs; rw [habs] at ha; simp at ha
        have hpos : s.count > 0 := by
          rw [hc]
          exact List.length_pos.mpr hne
        have : ¬ e.timestamp < s.timestamps.getLastD 0 := fun hlt => hcond ⟨hpos, hlt⟩
        have := sorted_mem_le_getLastD hs ha
        omega

/-! ## Binary search (bisect) correctness -/

theorem sorted_getD_le {a : List Int} (hs : a.Pairwise (· ≤ ·))
    {i j : Nat} (hij : i ≤ j) (hj : j < a.length) :
    a.getD i 0 ≤ a.getD j 0 := by
  rcases Nat.lt_or_ge i j with h | h
  · rw [List.getD_eq_getElem _ _ (by omega), List.getD_eq_getElem _ _ hj]
    exact (List.pairwise_iff_getElem.mp hs) i j (by omega) hj h
  · have : i = j := by omega
    subst this; exact le_refl _

theorem bisectLeftAux_spec (a : List Int) (x : Int) (hs : a.Pairwise (· ≤ ·)) :
    ∀ fuel lo hi, hi ≤ a.length → lo ≤ hi → hi - lo ≤ fuel →
      (∀ j, j < lo → a.getD j 0 < x) →
      (∀ j, hi ≤ j → j < a.length → ¬ a.getD j 0 < x) →
      lo ≤ bisectLeftAux a x fuel lo hi ∧
      bisectLeftAux a x fuel lo hi ≤ hi ∧
      (∀ j, j < bisectLeftAux a x fuel lo hi → a.getD j 0 < x) ∧
      (∀ j, bisectLeftAux a x fuel lo hi ≤ j → j < a.length →
        ¬ a.getD j 0 < x) := by
  intro fuel
  induction fuel with
  | zero =>
    intro lo hi hhi hlohi hfuel hlow hhigh
    have : lo = hi := by omega
    subst this
    exact ⟨le_refl _, le_refl _, hlow, fun j hj hjl => hhigh j hj hjl⟩
  | succ f ih =>
    intro lo hi hhi hlohi hfuel hlow hhigh
    by_cases hlt : lo < hi
    · simp only [bisectLeftAux, if_pos hlt]
      have hmidlo : lo ≤ (lo + hi) / 2 := by omega
      have hmidhi : (lo + hi) / 2 < hi := by omega
      by_cases hm : a.getD ((lo + hi) / 2) 0 < x
      · rw [if_pos hm]
        have := ih ((lo + hi) / 2 + 1) hi hhi (by omega) (by omega)
          (fun j hj => by
            have hj2 : j ≤ (lo + hi) / 2 := by omega
            exact lt_of_le_of_lt (sorted_getD_le hs hj2 (by omega)) hm)
          hhigh
        exact ⟨by omega, this.2.1, this.2.2.1, this.2.2.2⟩
      · rw [if_neg hm]
        have := ih lo ((lo + hi) / 2) (by omega) (by omega) (by omega) hlow
          (fun j hj hjl => by
            intro habs
            exact hm (lt_of_le_of_lt (sorted_getD_le hs hj hjl) habs))
        exact ⟨this.1, by omega, this.2.2.1, this.2.2.2⟩
    · simp only [bisectLeftAux, if_neg hlt]
      have : lo = hi := by omega
      subst this
      exact ⟨le_refl _, le_refl _, hlow, fun j hj hjl => hhigh j hj hjl⟩

theorem bisectRightAux_spec (a : List Int) (x : Int) (hs : a.Pairwise (· ≤ ·)) :
    ∀ fuel lo hi, hi ≤ a.length → lo ≤ hi → hi - lo ≤ fuel →
      (∀ j, j < lo → ¬ x < a.getD j 0) →
      (∀ j, hi ≤ j → j < a.length → x < a.getD j 0) →
      lo ≤ bisectRightAux a x fuel lo hi ∧
      bisectRightAux a x fuel lo hi ≤ hi ∧
      (∀ j, j < bisectRightAux a x fuel lo hi → ¬ x < a.getD j 0) ∧
      (∀ j, bisectRightAux a x fuel lo hi ≤ j → j < a.length →
        x < a.getD j 0) := by
  intro fuel
  induction fuel with
  | zero =>
    intro lo hi hhi hlohi hfuel hlow hhigh
    have : lo = hi := by omega
    subst this
    exact ⟨le_refl _, le_refl _, hlow, fun j hj hjl => hhigh j hj hjl⟩
  | succ f ih =>
    intro lo hi hhi hlohi hfuel hlow hhigh
    by_cases hlt : lo < hi
    · simp only [bisectRightAux, if_pos hlt]
      have hmidlo : lo ≤ (lo + hi) / 2 := by omega
      have hmidhi : (lo + hi) / 2 < hi := by omega
      by_cases hm : x < a.getD ((lo + hi) / 2) 0
      · rw [if_pos hm]
        have := ih lo ((lo + hi) / 2) (by omega) (by omega) (by omega) hlow
          (fun j hj hjl => lt_of_lt_of_le hm (sorted_getD_le hs hj hjl))
        exact ⟨this.1, by omega, this.2.2.1, this.2.2.2⟩
      · rw [if_neg hm]
        have := ih ((lo + hi) / 2 + 1) hi hhi (by omega) (by omega)
          (fun j hj => by
            intro habs
            have hj2 : j ≤ (lo + hi) / 2 := by omega
            exact hm (lt_of_lt_of_le habs (sorted_getD_le hs hj2 (by omega))))
          hhigh
        exact ⟨by omega, this.2.1, this.2.2.1, this.2.2.2⟩
    · simp only [bisectRightAux, if_neg hlt]
      have : lo = hi := by omega
      subst this
      exact ⟨le_refl _, le_refl _, hlow, fun j hj hjl => hhigh j hj hjl⟩

/-! ## C4: closed-interval range query -/

/-- On any store whose timestamp column is sorted and counted correctly, the
bisect-based range query returns exactly the rows whose timestamp lies in
the closed interval, in row order. -/
theorem query_eq_filter (s : ColumnarStore)
    (hcnt : s.count = s.timestamps.length)
    (hsort : s.timestamps.Pairwise (· ≤ ·)) (lo hi : Int) :
    s.query_time_range lo hi =
      ((List.range s.count).filter
        (fun i => decide (lo ≤ s.timestamps.getD i 0 ∧
          s.timestamps.getD i 0 ≤ hi))).map s.reconstructEntry := by
  have hL := bisectLeftAux_spec s.timestamps lo hsort s.timestamps.length 0
    s.timestamps.length le_rfl (by omega) (by omega)
    (fun j hj => absurd hj (by omega))
    (fun j h1 h2 => absurd (lt_of_le_of_lt h1 h2) (by omega))
  have hR := bisectRightAux_spec s.timestamps hi hsort s.timestamps.length 0
    s.timestamps.length le_rfl (by omega) (by omega)
    (fun j hj => absurd hj (by omega))
    (fun j h1 h2 => absurd (lt_of_le_of_lt h1 h2) (by omega))
  set L := bisectLeft s.timestamps lo with hLdef
  set R := bisectRight s.timestamps hi with hRdef
  rw [show bisectLeftAux s.timestamps lo s.timestamps.length 0 s.timestamps.length
      = L from rfl] at hL
  rw [show bisectRightAux s.timestamps hi s.timestamps.length 0 s.timestamps.length
      = R from rfl] at hR
  obtain ⟨-, hLle, hLlt, hLge⟩ := hL
  obtain ⟨-, hRle, hRlt, hRge⟩ := hR
  have instLt : IsAntisymm Nat (· < ·) :=
    ⟨fun a b h1 h2 => absurd (h1.trans h2) (lt_irrefl a)⟩
  have hidx : List.range' L (R - L) =
      (List.range s.count).filter
        (fun i => decide (lo ≤ s.timestamps.getD i 0 ∧
          s.timestamps.getD i 0 ≤ hi)) := by
    apply @List.eq_of_perm_of_sorted Nat (· < ·) instLt
    · apply List.perm_of_nodup_nodup_toFinset_eq
      · exact List.nodup_range' _ _
      · exact (List.nodup_range _).filter _
      · ext i
        simp only [List.mem_toFinset, List.mem_range'_1, List.mem_filter,
          List.mem_range, decide_eq_true_eq]
        constructor
        · rintro ⟨h1, h2⟩
          have hiR : i < R := by omega
          refine ⟨by omega, ?_, ?_⟩
          · by_contra habs
            exact (hLge i h1 (by omega)) (by omega)
          · have := hRlt i hiR
            omega
        · rintro ⟨h1, h2, h3⟩
          have hiL : L ≤ i := by
            by_contra habs
            have := hLlt i (by omega)
            omega
          have hiR : i < R := by
            by_contra habs
            have := hRge i (by omega) (by omega)
            omega
          exact ⟨hiL, by omega⟩
    · exact List.pairwise_lt_range' _ _
    · exact List.Pairwise.sublist (List.filter_sublist _) (List.pairwise_lt_range _)
  show (List.range' L (R - L)).map s.reconstructEntry = _
  rw [hidx]

/-- C4: after any sequence of successful appends, `query_time_range(lo, hi)`
returns exactly the stored rows with `lo ≤ ts ≤ hi` (closed at both ends),
in insertion order. -/
theorem C4_query_time_range (es : List AuditEntry) (s : ColumnarStore)
    (h : appendAllStore es emptyStore = some s) (lo hi : Int) :
    s.query_time_range lo hi =
      ((List.range s.count).filter
        (fun i => decide (lo ≤ s.timestamps.getD i 0 ∧
          s.timestamps.getD i 0 ≤ hi))).map s.reconstructEntry := by
  obtain ⟨hc, hs⟩ := appendAll_count_sorted es emptyStore s h rfl List.Pairwise.nil
  exact query_eq_filter s hc hs lo hi

/-- Witness for C4 on a concrete two-row store. -/
theorem C4_query_time_range_witness :
    appendAllStore [wEntryA, wEntryB] emptyStore = some wStoreAB ∧
    wStoreAB.query_time_range 5 5 =
      ((List.range wStoreAB.count).filter
        (fun i => decide ((5 : Int) ≤ wStoreAB.timestamps.getD i 0 ∧
          wStoreAB.timestamps.getD i 0 ≤ (5 : Int)))).map wStoreAB.reconstructEntry :=
  ⟨by decide, C4_query_time_range [wEntryA, wEntryB] wStoreAB (by decide) 5 5⟩

/-! ## C5: the out-of-order append contract -/

/-- C5: on a store built by successful appends, `append` raises exactly when
the store is non-empty and the new timestamp is strictly below the last
appended one; an equal timestamp is accepted; and on failure the raise
happens before any column is touched, so the store is unchanged. -/
theorem C5_append_out_of_order (es : List AuditEntry) (s : ColumnarStore)
    (e : AuditEntry) (h : appendAllStore es emptyStore = some s) :
    ((s.appendRun e).1 ≠ none ↔
      ∃ l, es.getLast? = some l ∧ e.timestamp < l.timestamp) ∧
    (∀ l, es.getLast? = some l → e.timestamp = l.timestamp →
      (s.appendRun e).1 = none) ∧
    ((s.appendRun e).1 ≠ none → (s.appendRun e).2 = s) := by
  have hfold := appendAllStore_eq_foldl es emptyStore s h
  obtain ⟨hts, -, -, -, -, -, -, -, -, -, -, -, hcount⟩ := pushAll_fields es emptyStore
  rw [← hfold] at hts hcount
  simp only [emptyStore, List.nil_append, Nat.zero_add] at hts hcount
  rcases hlast : es.getLast? with _ | l
  · -- empty history: the guard cannot fire
    have hes : es = [] := List.getLast?_eq_none_iff.mp hlast
    subst hes
    have hc0 : s.count = 0 := by simpa using hcount
    have hcond : ¬(s.count > 0 ∧ e.timestamp < s.timestamps.getLastD 0) := by
      intro habs; omega
    unfold ColumnarStore.appendRun
    rw [if_neg hcond]
    refine ⟨?_, ?_, ?_⟩
    · simp
    · intro l hl; cases hl
    · intro habs; simp at habs
  · have hne : es ≠ [] := by
      rintro rfl; simp at hlast
    have hpos : s.count > 0 := by
      rw [hcount]
      exact List.length_pos.mpr hne
    have hlastd : s.timestamps.getLastD 0 = l.timestamp := by
      rw [List.getLastD_eq_getLast?, hts, List.getLast?_map, hlast]
      rfl
    by_cases hlt : e.timestamp < l.timestamp
    · have hcond : s.count > 0 ∧ e.timestamp < s.timestamps.getLastD 0 :=
        ⟨hpos, by omega⟩
      unfold ColumnarStore.appendRun
      rw [if_pos hcond]
      refine ⟨?_, ?_, ?_⟩
      · simp only [ne_eq, reduceCtorEq, not_false_eq_true, true_iff]
        exact ⟨l, rfl, hlt⟩
      · intro l' hl' heq
        cases hl'
        omega
      · intro _; rfl
    · have hcond : ¬(s.count > 0 ∧ e.timestamp < s.timestamps.getLastD 0) := by
        intro habs; omega
      unfold ColumnarStore.appendRun
      rw [if_neg hcond]
      refine ⟨?_, ?_, ?_⟩
      · simp only [ne_eq, not_true_eq_false, false_iff]
        rintro ⟨l', hl', hlt'⟩
        cases hl'
        exact hlt hlt'
      · intro _ _ _; rfl
      · intro habs; simp at habs

/-- Witness for C5: appending a timestamp-3 entry after timestamps 5, 6
fails and leaves the store exactly as it was. -/
theorem C5_append_out_of_order_witness :
    appendAllStore [wEntryA, wEntryB] emptyStore = some wStoreAB ∧
    (wStoreAB.appendRun wEntryEarly).2 = wStoreAB :=
  ⟨by decide,
    (C5_append_out_of_order [wEntryA, wEntryB] wStoreAB wEntryEarly
      (by decide)).2.2 (by decide)⟩

/-! ## C6: round-trip reconstruction -/

theorem getD_map_getElem {α β : Type} {f : α → β} {l : List α} {i : Nat}
    (hi : i < l.length) (d : β) : (l.map f).getD i d = f l[i] := by
  rw [List.getD_eq_getElem _ _ (by simpa using hi), List.getElem_map]

theorem ofValue_value (d : AccessDecision) :
    (AccessDecision.ofValue d.value).getD .ALLOW = d := by
  cases d <;> rfl

theorem methodDecode_encode {m : String} (hm : m ∈ knownMethods) :
    methodDecode (methodEncode m) = m := by
  simp only [knownMethods, List.mem_cons, List.not_mem_nil, or_false] at hm
  rcases hm with rfl | rfl | rfl | rfl | rfl | rfl | rfl <;> rfl

theorem methodEncode_unknown {m : String} (hm : m ∉ knownMethods) :
    methodEncode m = 0 := by
  have hnone : METHOD_ENCODING m = none := by
    unfold METHOD_ENCODING
    split <;> simp_all [knownMethods]
  simp [methodEncode, hnone]

/-- For stores built by successful appends, reconstruction at any in-range
index returns the inserted row with its method decoded through the fixed
vocabulary and its latency narrowed to binary32 by the `array('f')` column. -/
theorem reconstruct_of_appendAll (es : List AuditEntry) (s : ColumnarStore)
    (h : appendAllStore es emptyStore = some s) (i : Nat) (hi : i < es.length)
    (hm : es[i].request_method ∈ knownMethods) :
    s.reconstructEntry i =
      { es[i] with processing_time_ms := f32Round es[i].processing_time_ms } := by
  have hfold := appendAllStore_eq_foldl es emptyStore s h
  obtain ⟨h1, h2, h3, h4, h5, h6, h7, h8, h9, h10, h11, h12, -⟩ :=
    pushAll_fields es emptyStore
  rw [← hfold] at h1 h2 h3 h4 h5 h6 h7 h8 h9 h10 h11 h12
  simp only [emptyStore, List.nil_append] at h1 h2 h3 h4 h5 h6 h7 h8 h9 h10 h11 h12
  unfold ColumnarStore.reconstructEntry
  rw [h1, h2, h3, h4, h5, h6, h7, h8, h9, h10, h11, h12]
  simp only [getD_map_getElem hi]
  rw [ofValue_value, methodDecode_encode hm]

/-- C6 as the code actually behaves (amended): full-span range query after a
sequence of successful appends returns the inserted entries themselves,
field for field and in insertion order, provided every request method
belongs to the fixed verb vocabulary AND every `processing_time_ms` is
exactly representable in binary32 (the `array('f')` latency column narrows
everything else); an unknown verb is encoded to byte 0 (the `GET` code,
not a reserved byte) and decodes back as "GET". -/
theorem C6_full_span_roundtrip (es : List AuditEntry) (s : ColumnarStore)
    (h : appendAllStore es emptyStore = some s) (hne : es ≠ [])
    (hmeths : ∀ e ∈ es, e.request_method ∈ knownMethods)
    (hlat : ∀ e ∈ es, f32Round e.processing_time_ms = e.processing_time_ms) :
    s.query_time_range (es.head hne).timestamp (es.getLast hne).timestamp = es ∧
    (∀ m : String, m ∉ knownMethods →
      methodEncode m = 0 ∧ methodDecode (methodEncode m) = "GET") := by
  constructor
  · obtain ⟨hcnt, hsort⟩ :=
      appendAll_count_sorted es emptyStore s h rfl List.Pairwise.nil
    have hq := query_eq_filter s hcnt hsort (es.head hne).timestamp
      (es.getLast hne).timestamp
    have hfold := appendAllStore_eq_foldl es emptyStore s h
    have hts : s.timestamps = es.map (·.timestamp) := by
      have := (pushAll_fields es emptyStore).1
      rw [← hfold] at this
      simpa [emptyStore] using this
    have hcount : s.count = es.length := by
      rw [hcnt, hts, List.length_map]
    have hlen0 : 0 < es.length := List.length_pos.mpr hne
    have hfull : (List.range s.count).filter
        (fun i => decide ((es.head hne).timestamp ≤ s.timestamps.getD i 0 ∧
          s.timestamps.getD i 0 ≤ (es.getLast hne).timestamp)) =
        List.range s.count := by
      rw [List.filter_eq_self]
      intro a ha
      rw [List.mem_range, hcount] at ha
      have hts_a : s.timestamps.getD a 0 = es[a].timestamp := by
        rw [hts, getD_map_getElem ha]
      have hhead : (es.head hne).timestamp = s.timestamps.getD 0 0 := by
        rw [hts, getD_map_getElem hlen0, List.head_eq_getElem]
      have hlast : (es.getLast hne).timestamp =
          s.timestamps.getD (es.length - 1) 0 := by
        rw [hts, getD_map_getElem (show es.length - 1 < es.length by omega),
          List.getLast_eq_getElem]
      simp only [decide_eq_true_eq]
      constructor
      · rw [hhead]
        exact sorted_getD_le hsort (by omega) (by rw [hts, List.length_map]; omega)
      · rw [hlast]
        exact sorted_getD_le hsort (by omega) (by rw [hts, List.length_map]; omega)
    rw [hq, hfull]
    apply List.ext_getElem
    · simp [hcount]
    · intro n h1 h2
      have hn : n < es.length := by simpa [hcount] using h2
      rw [List.getElem_map, List.getElem_range,
        reconstruct_of_appendAll es s h n hn (hmeths es[n] (List.getElem_mem hn)),
        hlat es[n] (List.getElem_mem hn)]
  · intro m hm
    refine ⟨methodEncode_unknown hm, ?_⟩
    rw [methodEncode_unknown hm]
    rfl

/-- Witness for the amended C6 on the concrete two-row store. -/
theorem C6_full_span_roundtrip_witness :
    appendAllStore [wEntryA, wEntryB] emptyStore = some wStoreAB ∧
    wStoreAB.query_time_range 5 6 = [wEntryA, wEntryB] :=
  ⟨by decide,
    (C6_full_span_roundtrip [wEntryA, wEntryB] wStoreAB (by decide)
      (by decide) (by decide) (by decide)).1⟩

/-- Counterexample to C6 as stated, on both fronts.  (1) An entry whose
method is the unknown verb "TRACE" does not round-trip — the store encodes
it to byte 0 and the full-span query returns it with method "GET".  (2) An
entry whose `processing_time_ms` is `2 ^ 24 + 1` (not binary32-representable)
does not round-trip either — the `array('f')` latency column narrows it and
the full-span query returns it with `processing_time_ms = 2 ^ 24`. -/
theorem C6_counterexample_roundtrip :
    ((appendAllStore [wEntryTrace] emptyStore).map
        (fun s => s.query_time_range 5 5) =
      some [{ wEntryTrace with request_method := "GET" }] ∧
    ({ wEntryTrace with request_method := "GET" } : AuditEntry) ≠ wEntryTrace) ∧
    ((appendAllStore [wEntryLat] emptyStore).map
        (fun s => s.query_time_range 5 5) =
      some [{ wEntryLat with processing_time_ms := 16777216 }] ∧
    ({ wEntryLat with processing_time_ms := 16777216 } : AuditEntry) ≠
      wEntryLat) := by
  refine ⟨⟨?_, ?_⟩, ?_, ?_⟩ <;> decide

/-! ## C7: DAG short-circuit semantics -/

theorem evalStep_fst (g : PolicyEngine) (d : String) (t : DateTime)
    (e : Nat → Int) (acc : List EvalResult × List (Nat × AccessDecision))
    (pid : Nat) : ∃ r, (evalStep g d t e acc pid).1 = acc.1 ++ [r] := by
  unfold evalStep
  by_cases hb : ((g.preds pid).any fun pre =>
      match lookupDecided acc.2 pre with
      | some dec => denyDecision dec
      | none => false) = true
  · rw [if_pos hb]; exact ⟨_, rfl⟩
  · rw [if_neg hb]; exact ⟨_, rfl⟩

theorem evalStates_succ (g : PolicyEngine) (d : String) (t : DateTime)
    (e : Nat → Int) (k : Nat) (hk : k < g.order.length) :
    evalStates g d t e (k + 1) =
      evalStep g d t e (evalStates g d t e k) (g.order.getD k 0) := by
  unfold evalStates
  rw [List.take_succ, List.getElem?_eq_getElem hk]
  rw [List.foldl_append]
  rw [List.getD_eq_getElem _ _ hk]
  rfl

theorem evalStates_fst_length (g : PolicyEngine) (d : String) (t : DateTime)
    (e : Nat → Int) : ∀ k, k ≤ g.order.length →
    (evalStates g d t e k).1.length = k := by
  intro k
  induction k with
  | zero => intro _; rfl
  | succ n ih =>
    intro h
    rw [evalStates_succ g d t e n (by omega)]
    obtain ⟨r, hr⟩ := evalStep_fst g d t e (evalStates g d t e n) (g.order.getD n 0)
    rw [hr, List.length_append, ih (by omega)]
    rfl

theorem evalStates_fst_prefix (g : PolicyEngine) (d : String) (t : DateTime)
    (e : Nat → Int) : ∀ k m, k ≤ m → m ≤ g.order.length →
    ∃ suf, (evalStates g d t e m).1 = (evalStates g d t e k).1 ++ suf := by
  intro k m
  induction m with
  | zero => intro h1 _; have : k = 0 := by omega
            subst this; exact ⟨[], by simp⟩
  | succ n ih =>
    intro h1 h2
    rcases Nat.lt_or_ge k (n + 1) with h | h
    · obtain ⟨suf, hsuf⟩ := ih (by omega) (by omega)
      rw [evalStates_succ g d t e n (by omega)]
      obtain ⟨r, hr⟩ := evalStep_fst g d t e (evalStates g d t e n) (g.order.getD n 0)
      exact ⟨suf ++ [r], by rw [hr, hsuf, List.append_assoc]⟩
    · have : k = n + 1 := by omega
      subst this
      exact ⟨[], by simp⟩

theorem evaluate_results_eq (g : PolicyEngine) (d : String) (t : DateTime)
    (e : Nat → Int) :
    (g.evaluate d t e).results = (evalStates g d t e g.order.length).1 := by
  unfold PolicyEngine.evaluate evalStates
  rw [List.take_length]

/-- The k-th result of the evaluation loop is exactly the result produced by
the k-th step, applied to the state accumulated over the first k nodes. -/
theorem evaluate_results_getD (g : PolicyEngine) (d : String) (t : DateTime)
    (e : Nat → Int) (k : Nat) (hk : k < g.order.length) :
    (g.evaluate d t e).results.getD k default =
      ((evalStep g d t e (evalStates g d t e k) (g.order.getD k 0)).1).getD k
        default := by
  rw [evaluate_results_eq]
  obtain ⟨suf, hsuf⟩ := evalStates_fst_prefix g d t e (k + 1) g.order.length
    (by omega) le_rfl
  rw [hsuf, evalStates_succ g d t e k hk]
  obtain ⟨r, hr⟩ := evalStep_fst g d t e (evalStates g d t e k) (g.order.getD k 0)
  rw [hr]
  have hlen : (evalStates g d t e k).1.length = k :=
    evalStates_fst_length g d t e k (by omega)
  rw [List.append_assoc]
  rw [List.getD_append_right (evalStates g d t e k).1 ([r] ++ suf) default k
    (by omega)]
  rw [List.getD_append_right (evalStates g d t e k).1 [r] default k (by omega)]
  rw [hlen, Nat.sub_self]
  rfl

/-- Membership form of the `prereq_denied` flag. -/
theorem prereq_denied_iff (g : PolicyEngine)
    (decided : List (Nat × AccessDecision)) (pid : Nat) :
    ((g.preds pid).any fun pre =>
      match lookupDecided decided pre with
      | some dec => denyDecision dec
      | none => false) = true ↔
    ∃ pre ∈ g.preds pid, ∃ dd, lookupDecided decided pre = some dd ∧
      (dd = AccessDecision.DENY ∨ dd = AccessDecision.RATE_LIMITED) := by
  rw [List.any_eq_true]
  constructor
  · rintro ⟨pre, hmem, hp⟩
    refine ⟨pre, hmem, ?_⟩
    rcases hl : lookupDecided decided pre with _ | dd
    · rw [hl] at hp; cases hp
    · rw [hl] at hp
      refine ⟨dd, rfl, ?_⟩
      revert hp
      cases dd <;> simp [denyDecision]
  · rintro ⟨pre, hmem, dd, hl, hdd⟩
    refine ⟨pre, hmem, ?_⟩
    rw [hl]
    rcases hdd with rfl | rfl <;> rfl

/-- C7: in `PolicyEngine.evaluate`, the node at position k of the topological
order is short-circuited exactly when some predecessor's recorded decision
is DENY or RATE_LIMITED; a short-circuited node gets decision DENY,
`eval_time_ms = 0`, and its own rules are not evaluated (its result does
not depend on `Policy.evaluate`); a node none of whose predecessors
recorded a deny-set decision — in particular one whose predecessors all
recorded NO_MATCHING_POLICY — is evaluated normally. -/
theorem C7_short_circuit (g : PolicyEngine) (domain : String) (t : DateTime)
    (elapsed : Nat → Int) (k : Nat) (hk : k < g.order.length) :
    ((g.evaluate domain t elapsed).results.getD k default).policy_id =
      g.order.getD k 0 ∧
    (((g.evaluate domain t elapsed).results.getD k default).short_circuited =
        true ↔
      ∃ pre ∈ g.preds (g.order.getD k 0), ∃ dd,
        lookupDecided (evalStates g domain t elapsed k).2 pre = some dd ∧
        (dd = AccessDecision.DENY ∨ dd = AccessDecision.RATE_LIMITED)) ∧
    (((g.evaluate domain t elapsed).results.getD k default).short_circuited =
        true →
      ((g.evaluate domain t elapsed).results.getD k default).decision =
          AccessDecision.DENY ∧
      ((g.evaluate domain t elapsed).results.getD k default).eval_time_ms = 0) ∧
    (((g.evaluate domain t elapsed).results.getD k default).short_circuited =
        false →
      ((g.evaluate domain t elapsed).results.getD k default).decision =
        decisionOfAction
          ((g.policies (g.order.getD k 0)).evaluate domain t)) ∧
    ((∀ pre ∈ g.preds (g.order.getD k 0), ∀ dd,
        lookupDecided (evalStates g domain t elapsed k).2 pre = some dd →
        dd = AccessDecision.NO_MATCHING_POLICY) →
      ((g.evaluate domain t elapsed).results.getD k default).short_circuited =
        false) := by
  rw [evaluate_results_getD g domain t elapsed k hk]
  set st := evalStates g domain t elapsed k with hst
  set pid := g.order.getD k 0 with hpid
  have hlen : st.1.length = k := evalStates_fst_length g domain t elapsed k (by omega)
  unfold evalStep
  by_cases hb : ((g.preds pid).any fun pre =>
      match lookupDecided st.2 pre with
      | some dec => denyDecision dec
      | none => false) = true
  · rw [if_pos hb]
    rw [List.getD_append_right _ _ _ _ (by omega), hlen, Nat.sub_self,
      List.getD_cons_zero]
    refine ⟨rfl, ?_, ?_, ?_, ?_⟩
    · exact ⟨fun _ => (prereq_denied_iff g st.2 pid).mp hb, fun _ => rfl⟩
    · exact fun _ => ⟨rfl, rfl⟩
    · intro habs; exact absurd habs (by simp)
    · intro hall
      exfalso
      obtain ⟨pre, hmem, dd, hl, hdd⟩ := (prereq_denied_iff g st.2 pid).mp hb
      have := hall pre hmem dd hl
      rcases hdd with rfl | rfl <;> cases this
  · rw [if_neg hb]
    rw [List.getD_append_right _ _ _ _ (by omega), hlen, Nat.sub_self,
      List.getD_cons_zero]
    refine ⟨rfl, ?_, ?_, fun _ => rfl, fun _ => rfl⟩
    · constructor
      · intro habs; exact absurd habs (by simp)
      · intro hex
        exact absurd ((prereq_denied_iff g st.2 pid).mpr hex) hb
    · intro habs; exact absurd habs (by simp)

/-- Witness for C7 on a concrete two-node engine whose first node denies. -/
theorem C7_short_circuit_witness :
    (1 < ([1, 2] : List Nat).length) ∧
    ((PolicyEngine.evaluate
      { policies := fun _ =>
          { policy_id := 1, name := "p", description := "",
            rules := [{ rule_id := 7, domain_pattern := "*", action := .DENY }],
            status := .ACTIVE, priority := 100 },
        preds := fun pid => if pid = 2 then [1] else [],
        order := [1, 2] } "x" { weekday := 0, timeOfDay := 0 }
      (fun _ => 0)).results.getD 1 default).policy_id =
      ([1, 2] : List Nat).getD 1 0 := by
  refine ⟨by decide, ?_⟩
  exact (C7_short_circuit
    { policies := fun _ =>
        { policy_id := 1, name := "p", description := "",
          rules := [{ rule_id := 7, domain_pattern := "*", action := .DENY }],
          status := .ACTIVE, priority := 100 },
      preds := fun pid => if pid = 2 then [1] else [],
      order := [1, 2] } "x" { weekday := 0, timeOfDay := 0 }
    (fun _ => 0) 1 (by decide)).1

/-! ## C10: policy status is ignored by the DAG engine, honoured by the flat
evaluator -/

theorem evalPoliciesLoop_all_inactive (domain : String) (now : DateTime) :
    ∀ ps : List Policy, (∀ p ∈ ps, p.status ≠ PolicyStatus.ACTIVE) →
    evalPoliciesLoop domain now ps =
      { decision := .NO_MATCHING_POLICY,
        reason := "No policy matched domain " ++ domain } := by
  intro ps
  induction ps with
  | nil => intro _; rfl
  | cons p ps ih =>
    intro h
    unfold evalPoliciesLoop
    rw [if_pos (h p (List.mem_cons_self p ps))]
    exact ih fun q hq => h q (List.mem_cons_of_mem p hq)

/-- C10: `PolicyEngine.evaluate` never consults a policy's status —
overwriting every status (e.g. to DRAFT, SUSPENDED or ARCHIVED) leaves the
whole evaluation report unchanged, and a non-short-circuited node's
decision is determined solely by `Policy.evaluate` over its rules and time
window — whereas the flat `PolicyEvaluator.evaluate` skips every policy
whose status is not ACTIVE, returning NO_MATCHING_POLICY when none is
ACTIVE (for an agent allowed to make requests). -/
theorem C10_status_ignored_by_engine (g : PolicyEngine) (domain : String)
    (t : DateTime) (elapsed : Nat → Int) (f : Nat → PolicyStatus) :
    PolicyEngine.evaluate
      { policies := fun pid => (g.policies pid).setStatus (f pid),
        preds := g.preds, order := g.order } domain t elapsed =
      g.evaluate domain t elapsed ∧
    (∀ k, k < g.order.length →
      ((g.evaluate domain t elapsed).results.getD k default).short_circuited =
        false →
      ((g.evaluate domain t elapsed).results.getD k default).decision =
        decisionOfAction ((g.policies (g.order.getD k 0)).evaluate domain t)) ∧
    (∀ (request : InterceptRequest) (agent : Agent) (policies : List Policy)
        (now : DateTime), agent.can_make_requests = true →
      (∀ p ∈ policies, p.status ≠ PolicyStatus.ACTIVE) →
      (PolicyEvaluator.evaluate request agent policies now).decision =
        AccessDecision.NO_MATCHING_POLICY) := by
  refine ⟨rfl, ?_, ?_⟩
  · intro k hk
    rw [evaluate_results_getD g domain t elapsed k hk]
    have hlen : (evalStates g domain t elapsed k).1.length = k :=
      evalStates_fst_length g domain t elapsed k (by omega)
    unfold evalStep
    by_cases hb : ((g.preds (g.order.getD k 0)).any fun pre =>
        match lookupDecided (evalStates g domain t elapsed k).2 pre with
        | some dec => denyDecision dec
        | none => false) = true
    · rw [if_pos hb]
      rw [List.getD_append_right _ _ _ _ (by omega), hlen, Nat.sub_self,
        List.getD_cons_zero]
      intro habs
      exact absurd habs (by simp)
    · rw [if_neg hb]
      rw [List.getD_append_right _ _ _ _ (by omega), hlen, Nat.sub_self,
        List.getD_cons_zero]
      intro _
      rfl
  · intro request agent policies now hagent hstatus
    unfold PolicyEvaluator.evaluate
    rw [if_neg (by simp [hagent])]
    rw [evalPoliciesLoop_all_inactive request.domain now _
      (fun p hp => hstatus p ((List.perm_insertionSort _ policies).mem_iff.mp hp))]

/-- Witness for C10 on a concrete one-node engine with a DRAFT policy whose
only rule denies, plus a concrete flat evaluation that skips it. -/
theorem C10_status_ignored_by_engine_witness :
    PolicyEngine.evaluate
      { policies := fun pid =>
          (({ policy_id := 1, name := "p", description := "",
              rules := [{ rule_id := 7, domain_pattern := "*", action := .DENY }],
              status := .ACTIVE, priority := 100 } : Policy)).setStatus
            ((fun _ => PolicyStatus.DRAFT) pid),
        preds := fun _ => [], order := [1] } "x"
      { weekday := 0, timeOfDay := 0 } (fun _ => 0) =
    PolicyEngine.evaluate
      { policies := fun _ =>
          { policy_id := 1, name := "p", description := "",
            rules := [{ rule_id := 7, domain_pattern := "*", action := .DENY }],
            status := .ACTIVE, priority := 100 },
        preds := fun _ => [], order := [1] } "x"
      { weekday := 0, timeOfDay := 0 } (fun _ => 0) :=
  (C10_status_ignored_by_engine
    { policies := fun _ =>
        { policy_id := 1, name := "p", description := "",
          rules := [{ rule_id := 7, domain_pattern := "*", action := .DENY }],
          status := .ACTIVE, priority := 100 },
      preds := fun _ => [], order := [1] } "x"
    { weekday := 0, timeOfDay := 0 } (fun _ => 0) (fun _ => .DRAFT)).1

/-! ## C9: indexed search versus naive scan -/

/-- Counterexample to C9 as stated: the naive scan uses substring matching
(`value in entry.domain`) while the index only knows whole dot-tokens and
the full domain, so `domain:penai` finds the entry under the naive scan but
not through the index. -/
theorem C9_counterexample_substring :
    (buildEngine [wEntrySearch]).search "domain:penai" = some [] ∧
    (buildEngine [wEntrySearch]).naive_search "domain:penai" = some [0] ∧
    (some ([] : List Nat)) ≠ some [0] := by
  refine ⟨by decide, by decide, by decide⟩

theorem buildEngine_append (es : List AuditEntry) (e : AuditEntry) :
    buildEngine (es ++ [e]) = (buildEngine es).index_entry e := by
  simp [buildEngine, List.foldl_append]

theorem buildEngine_entries (es : List AuditEntry) :
    (buildEngine es).entries = es := by
  induction es using List.reverseRecOn with
  | nil => rfl
  | append_singleton es e ih =>
    rw [buildEngine_append]
    show (buildEngine es).entries ++ [e] = es ++ [e]
    rw [ih]

theorem buildEngine_count (es : List AuditEntry) :
    (buildEngine es).index.count = es.length := by
  induction es using List.reverseRecOn with
  | nil => rfl
  | append_singleton es e ih =>
    rw [buildEngine_append]
    show (buildEngine es).index.count + 1 = (es ++ [e]).length
    rw [ih, List.length_append]
    rfl

theorem buildEngine_timestamps (es : List AuditEntry) :
    (buildEngine es).index.timestamps = es.map (·.timestamp) := by
  induction es using List.reverseRecOn with
  | nil => rfl
  | append_singleton es e ih =>
    rw [buildEngine_append]
    show (buildEngine es).index.timestamps ++ [e.timestamp] = _
    rw [ih, List.map_append]
    rfl

theorem postingLookup_addPosting (ps : List (String × List Nat)) (t : String)
    (idx : Nat) (t' : String) :
    postingLookup (addPosting ps t idx) t' =
      if t' = t then
        (if idx ∈ postingLookup ps t then postingLookup ps t
         else postingLookup ps t ++ [idx])
      else postingLookup ps t' := by
  induction ps with
  | nil =>
    by_cases h : t' = t
    · subst h
      simp [addPosting, postingLookup, List.find?]
    · simp [addPosting, postingLookup, List.find?, h,
        show (t == t') = false from beq_eq_false_iff_ne.mpr (fun hh => h hh.symm)]
  | cons hd rest ih =>
    obtain ⟨s, l⟩ := hd
    by_cases hst : s = t
    · by_cases h : t' = t
      · have hs : (s == t') = true := beq_iff_eq.mpr (hst.trans h.symm)
        have hs2 : (s == t) = true := beq_iff_eq.mpr hst
        simp [addPosting, hst, postingLookup, List.find?, h, hs, hs2]
      · have hs3 : (t == t') = false := beq_eq_false_iff_ne.mpr
          (fun hh => h hh.symm)
        have hs2 : (s == t) = true := beq_iff_eq.mpr hst
        simp [addPosting, hst, postingLookup, List.find?, h, hs3, hs2]
    · have hs2 : (s == t) = false := beq_eq_false_iff_ne.mpr hst
      by_cases h : t' = s
      · have hs : (s == t') = true := beq_iff_eq.mpr h.symm
        have hnt : ¬ t' = t := fun hh => hst (h.symm.trans hh)
        simp [addPosting, if_neg hst, postingLookup, List.find?, hnt, hs]
      · have hs : (s == t') = false := beq_eq_false_iff_ne.mpr
          (fun hh => h hh.symm)
        have hlk : ∀ x : String, (s == x) = false → ∀ tail,
            postingLookup ((s, l) :: tail) x = postingLookup tail x := by
          intro x hx tail
          simp [postingLookup, List.find?, hx]
        simp only [addPosting, if_neg hst]
        rw [hlk t' hs (addPosting rest t idx), ih, hlk t hs2 rest,
          hlk t' hs rest]

/-- The decision posting list of a built index is exactly the (increasing)
list of entry indices whose decision name equals the term. -/
theorem buildEngine_decisionP (es : List AuditEntry) (term : String) :
    postingLookup (buildEngine es).index.decisionP term =
      (List.range es.length).filter
        (fun i => (es.getD i default).decision.nm == term) := by
  induction es using List.reverseRecOn with
  | nil => rfl
  | append_singleton es e ih =>
    rw [buildEngine_append]
    show postingLookup (addPosting (buildEngine es).index.decisionP
      e.decision.nm (buildEngine es).index.count) term = _
    rw [buildEngine_count, postingLookup_addPosting, ih]
    have hlen : (es ++ [e]).length = es.length + 1 := by simp
    rw [hlen, List.range_succ, List.filter_append]
    have hfilter : (List.range es.length).filter
        (fun i => (((es ++ [e]).getD i default).decision.nm == term)) =
        (List.range es.length).filter
        (fun i => ((es.getD i default).decision.nm == term)) := by
      apply List.filter_congr
      intro i hi
      rw [List.mem_range] at hi
      rw [List.getD_append _ _ _ _ hi]
    rw [hfilter]
    have hgetlast : (es ++ [e]).getD es.length default = e := by
      rw [List.getD_append_right _ _ _ _ le_rfl, Nat.sub_self, List.getD_cons_zero]
    by_cases ht : term = e.decision.nm
    · rw [if_pos ht, ← ht, ih]
      have hnotin : es.length ∉ (List.range es.length).filter
          (fun i => ((es.getD i default).decision.nm == term)) := by
        intro hmem
        have := (List.mem_filter.mp hmem).1
        rw [List.mem_range] at this
        omega
      rw [if_neg hnotin]
      congr 1
      rw [List.filter_cons, if_pos (by rw [hgetlast]; exact beq_iff_eq.mpr ht.symm)]
      rfl
    · rw [if_neg ht]
      rw [List.filter_cons, if_neg (by
        rw [hgetlast]
        exact fun hb => ht ((beq_iff_eq.mp hb).symm))]
      simp

theorem interLoop_mem (x : Nat) : ∀ (ls : List (List Nat)) (acc : List Nat),
    x ∈ interLoop acc ls ↔ x ∈ acc ∧ ∀ l ∈ ls, x ∈ l := by
  intro ls
  induction ls with
  | nil => intro acc; simp [interLoop]
  | cons l ls ih =>
    intro acc
    simp only [interLoop]
    by_cases he : (acc.filter (fun y => decide (y ∈ l))).isEmpty
    · rw [if_pos he]
      rw [List.isEmpty_iff] at he
      constructor
      · intro hx; simp at hx
      · rintro ⟨hacc, hall⟩
        have hx : x ∈ acc.filter (fun y => decide (y ∈ l)) :=
          List.mem_filter.mpr ⟨hacc, by
            simp [hall l (List.mem_cons_self l ls)]⟩
        rw [he] at hx
        simp at hx
    · rw [if_neg he, ih]
      rw [List.forall_mem_cons]
      constructor
      · rintro ⟨hf, hrest⟩
        obtain ⟨hacc, hl⟩ := List.mem_filter.mp hf
        exact ⟨hacc, by simpa using hl, hrest⟩
      · rintro ⟨hacc, hl, hrest⟩
        exact ⟨List.mem_filter.mpr ⟨hacc, by simpa using hl⟩, hrest⟩

theorem interLoop_nodup : ∀ (ls : List (List Nat)) (acc : List Nat),
    acc.Nodup → (interLoop acc ls).Nodup := by
  intro ls
  induction ls with
  | nil => intro acc h; exact h
  | cons l ls ih =>
    intro acc h
    simp only [interLoop]
    by_cases he : (acc.filter (fun y => decide (y ∈ l))).isEmpty
    · rw [if_pos he]; exact List.nodup_nil
    · rw [if_neg he]
      exact ih _ (h.filter _)

theorem collectLists_some_eq (ix : InvertedIndex) :
    ∀ (cs : List (String × String)) (lists : List (List Nat)),
    collectLists ix cs = some lists →
    lists = cs.map (fun c => ix.search_field c.1 c.2) := by
  intro cs
  induction cs with
  | nil => intro lists h; cases h; rfl
  | cons c cs ih =>
    intro lists h
    obtain ⟨f, t⟩ := c
    unfold collectLists at h
    by_cases he : (ix.search_field f t).isEmpty
    · rw [if_pos he] at h; cases h
    · rw [if_neg he] at h
      cases hrec : collectLists ix cs with
      | none => rw [hrec] at h; cases h
      | some rest =>
        rw [hrec] at h
        cases h
        rw [ih rest hrec]
        rfl

theorem collectLists_none_iff (ix : InvertedIndex) :
    ∀ cs : List (String × String),
    collectLists ix cs = none ↔ ∃ c ∈ cs, ix.search_field c.1 c.2 = [] := by
  intro cs
  induction cs with
  | nil => simp [collectLists]
  | cons c cs ih =>
    obtain ⟨f, t⟩ := c
    unfold collectLists
    by_cases he : (ix.search_field f t).isEmpty
    · rw [if_pos he]
      rw [List.isEmpty_iff] at he
      exact ⟨fun _ => ⟨(f, t), List.mem_cons_self _ _, he⟩, fun _ => rfl⟩
    · rw [if_neg he]
      rw [List.isEmpty_iff] at he
      cases hrec : collectLists ix cs with
      | none =>
        constructor
        · intro _
          obtain ⟨c0, hc0, h0⟩ := ih.mp hrec
          exact ⟨c0, List.mem_cons_of_mem _ hc0, h0⟩
        · intro _; rfl
      | some rest =>
        constructor
        · intro habs; simp at habs
        · rintro ⟨c0, hc0, h0⟩
          rcases List.mem_cons.mp hc0 with rfl | hmem
          · exact absurd h0 he
          · have hn := ih.mpr ⟨c0, hmem, h0⟩
            rw [hrec] at hn
            cases hn

theorem search_and_mem (ix : InvertedIndex) (cs : List (String × String))
    (hcs : cs ≠ []) (x : Nat) :
    x ∈ ix.search_and cs ↔ ∀ c ∈ cs, x ∈ ix.search_field c.1 c.2 := by
  obtain ⟨c0, cs', rfl⟩ : ∃ c0 cs', cs = c0 :: cs' := by
    cases cs with
    | nil => exact absurd rfl hcs
    | cons a b => exact ⟨a, b, rfl⟩
  show x ∈ (match collectLists ix (c0 :: cs') with
    | none => []
    | some lists =>
      match List.insertionSort (fun a b : List Nat => a.length ≤ b.length) lists with
      | [] => []
      | l0 :: rest => interLoop l0 rest) ↔ _
  cases hcol : collectLists ix (c0 :: cs') with
  | none =>
    obtain ⟨c1, hc1, h1⟩ := (collectLists_none_iff ix (c0 :: cs')).mp hcol
    show x ∈ ([] : List Nat) ↔ _
    simp only [List.not_mem_nil, false_iff]
    intro hall
    have := hall c1 hc1
    rw [h1] at this
    simp at this
  | some lists =>
    have hlists := collectLists_some_eq ix (c0 :: cs') lists hcol
    have hperm := List.perm_insertionSort
      (fun a b : List Nat => a.length ≤ b.length) lists
    show x ∈ (match List.insertionSort
        (fun a b : List Nat => a.length ≤ b.length) lists with
      | [] => []
      | l0 :: rest => interLoop l0 rest) ↔ _
    cases hsorted : List.insertionSort
        (fun a b : List Nat => a.length ≤ b.length) lists with
    | nil =>
      rw [hsorted] at hperm
      have hnil : lists = [] := hperm.symm.eq_nil
      rw [hlists] at hnil
      cases hnil
    | cons l0 rest =>
      rw [hsorted] at hperm
      show x ∈ interLoop l0 rest ↔ _
      rw [interLoop_mem]
      have hmem : ∀ l : List Nat, l ∈ l0 :: rest ↔
          ∃ c ∈ c0 :: cs', ix.search_field c.1 c.2 = l := by
        intro l
        rw [hperm.mem_iff, hlists]
        exact List.mem_map
      constructor
      · rintro ⟨h0, hrest⟩ c hc
        have hl : ix.search_field c.1 c.2 ∈ l0 :: rest :=
          (hmem _).mpr ⟨c, hc, rfl⟩
        rcases List.mem_cons.mp hl with heq | hmem'
        · rw [heq]; exact h0
        · exact hrest _ hmem'
      · intro hall
        constructor
        · obtain ⟨c, hc, hceq⟩ := (hmem l0).mp (List.mem_cons_self l0 rest)
          rw [← hceq]
          exact hall c hc
        · intro l hl
          obtain ⟨c, hc, hceq⟩ := (hmem l).mp (List.mem_cons_of_mem l0 hl)
          rw [← hceq]
          exact hall c hc

theorem search_and_nodup (ix : InvertedIndex) (cs : List (String × String))
    (h : ∀ c ∈ cs, (ix.search_field c.1 c.2).Nodup) :
    (ix.search_and cs).Nodup := by
  cases cs with
  | nil => exact List.nodup_nil
  | cons c0 cs' =>
    show (match collectLists ix (c0 :: cs') with
      | none => []
      | some lists =>
        match List.insertionSort (fun a b : List Nat => a.length ≤ b.length) lists with
        | [] => []
        | l0 :: rest => interLoop l0 rest).Nodup
    cases hcol : collectLists ix (c0 :: cs') with
    | none => exact List.nodup_nil
    | some lists =>
      have hlists := collectLists_some_eq ix (c0 :: cs') lists hcol
      have hperm := List.perm_insertionSort
        (fun a b : List Nat => a.length ≤ b.length) lists
      show (match List.insertionSort
          (fun a b : List Nat => a.length ≤ b.length) lists with
        | [] => []
        | l0 :: rest => interLoop l0 rest).Nodup
      cases hsorted : List.insertionSort
          (fun a b : List Nat => a.length ≤ b.length) lists with
      | nil => exact List.nodup_nil
      | cons l0 rest =>
        rw [hsorted] at hperm
        show (interLoop l0 rest).Nodup
        apply interLoop_nodup
        have hl0 : l0 ∈ lists := hperm.mem_iff.mp (List.mem_cons_self l0 rest)
        rw [hlists] at hl0
        obtain ⟨c, hc, hceq⟩ := List.mem_map.mp hl0
        rw [← hceq]
        exact h c hc

theorem timeSetsOf_eq (ix : InvertedIndex) :
    ∀ cs : List (String × String),
    (∀ c ∈ cs, c.1 = "time" → (parseTimeClause c.2).isSome) →
    timeSetsOf ix cs =
      some ((cs.filter (fun c => decide (c.1 = "time"))).map
        (fun c => ix.search_time_range ((parseTimeClause c.2).getD (0, 0)).1
          ((parseTimeClause c.2).getD (0, 0)).2)) := by
  intro cs
  induction cs with
  | nil => intro _; rfl
  | cons c cs ih =>
    intro h
    unfold timeSetsOf
    have hrec := ih (fun c' hc' => h c' (List.mem_cons_of_mem _ hc'))
    by_cases ht : c.1 = "time"
    · rw [if_pos ht]
      have hsome := h c (List.mem_cons_self _ _) ht
      obtain ⟨xy, hxy⟩ := Option.isSome_iff_exists.mp hsome
      rw [hxy, hrec]
      rw [List.filter_cons, if_pos (by simp [ht])]
      simp [hxy]
    · rw [if_neg ht, hrec]
      rw [List.filter_cons, if_neg (by simp [ht])]

theorem search_time_range_mem (ix : InvertedIndex) (x y : Int) (i : Nat) :
    i ∈ ix.search_time_range x y ↔
      i < ix.timestamps.length ∧
      (x ≤ ix.timestamps.getD i 0 ∧ ix.timestamps.getD i 0 ≤ y) := by
  unfold InvertedIndex.search_time_range
  simp [List.mem_filter, List.mem_range]

theorem search_time_range_nodup (ix : InvertedIndex) (x y : Int) :
    (ix.search_time_range x y).Nodup :=
  (List.nodup_range _).filter _

theorem search_field_decision (ix : InvertedIndex) (v : String) :
    ix.search_field "decision" v = postingLookup ix.decisionP (upperStr v) := by
  unfold InvertedIndex.search_field
  rw [if_pos (by decide), if_neg (by decide), if_neg (by decide), if_pos rfl]

theorem entryMatchesClause_decision (e : AuditEntry) (v : String) :
    entryMatchesClause e ("decision", v) =
      some (upperStr v == e.decision.nm) := by
  unfold entryMatchesClause
  rw [if_neg (show ¬("decision" : String) = "domain" by decide),
    if_neg (show ¬("decision" : String) = "agent_id" by decide),
    if_pos (show ("decision" : String) = "decision" from rfl)]

theorem entryMatchesClause_time (e : AuditEntry) (v : String) (xy : Int × Int)
    (h : parseTimeClause v = some xy) :
    entryMatchesClause e ("time", v) =
      some (decide (xy.1 ≤ e.timestamp ∧ e.timestamp ≤ xy.2)) := by
  unfold entryMatchesClause
  rw [if_neg (show ¬("time" : String) = "domain" by decide),
    if_neg (show ¬("time" : String) = "agent_id" by decide),
    if_neg (show ¬("time" : String) = "decision" by decide),
    if_neg (show ¬("time" : String) = "reason" by decide),
    if_pos (show ("time" : String) = "time" from rfl), h]

theorem entryMatchesAll_isSome (e : AuditEntry) :
    ∀ cs : List (String × String),
    (∀ c ∈ cs, entryMatchesClause e c ≠ none) →
    ∃ b, entryMatchesAll e cs = some b := by
  intro cs
  induction cs with
  | nil => intro _; exact ⟨true, rfl⟩
  | cons c cs ih =>
    intro h
    cases hc : entryMatchesClause e c with
    | none => exact absurd hc (h c (List.mem_cons_self _ _))
    | some b =>
      cases b with
      | false => exact ⟨false, by unfold entryMatchesAll; rw [hc]⟩
      | true =>
        obtain ⟨b', hb'⟩ := ih (fun c' hc' => h c' (List.mem_cons_of_mem _ hc'))
        exact ⟨b', by unfold entryMatchesAll; rw [hc]; exact hb'⟩

theorem entryMatchesAll_true_iff (e : AuditEntry) :
    ∀ cs : List (String × String),
    (∀ c ∈ cs, entryMatchesClause e c ≠ none) →
    (entryMatchesAll e cs = some true ↔
      ∀ c ∈ cs, entryMatchesClause e c = some true) := by
  intro cs
  induction cs with
  | nil => intro _; simp [entryMatchesAll]
  | cons c cs ih =>
    intro h
    have hrec := ih (fun c' hc' => h c' (List.mem_cons_of_mem _ hc'))
    cases hc : entryMatchesClause e c with
    | none => exact absurd hc (h c (List.mem_cons_self _ _))
    | some b =>
      cases b with
      | false =>
        unfold entryMatchesAll
        rw [hc]
        constructor
        · intro habs; simp at habs
        · intro hall
          have := hall c (List.mem_cons_self _ _)
          rw [hc] at this
          simp at this
      | true =>
        unfold entryMatchesAll
        rw [hc, hrec, List.forall_mem_cons]
        constructor
        · intro hrest; exact ⟨hc, hrest⟩
        · rintro ⟨-, hrest⟩; exact hrest

theorem naiveLoop_eq (cs : List (String × String)) :
    ∀ (es : List AuditEntry) (k : Nat),
    (∀ e ∈ es, ∃ b, entryMatchesAll e cs = some b) →
    naiveLoop cs k es =
      some ((List.range' k es.length).filter
        (fun i => entryMatchesAll (es.getD (i - k) default) cs == some true)) := by
  intro es
  induction es with
  | nil => intro k _; rfl
  | cons e es ih =>
    intro k h
    obtain ⟨b, hb⟩ := h e (List.mem_cons_self _ _)
    unfold naiveLoop
    rw [hb]
    have hrec := ih (k + 1) (fun e' he' => h e' (List.mem_cons_of_mem _ he'))
    have hcongr : (List.range' (k + 1) es.length).filter
        (fun i => entryMatchesAll ((e :: es).getD (i - k) default) cs ==
          some true) =
        (List.range' (k + 1) es.length).filter
        (fun i => entryMatchesAll (es.getD (i - (k + 1)) default) cs ==
          some true) := by
      apply List.filter_congr
      intro i hi
      rw [List.mem_range'_1] at hi
      have : i - k = (i - (k + 1)) + 1 := by omega
      rw [this, List.getD_cons_succ]
    have hlen : (e :: es).length = es.length + 1 := rfl
    rw [hlen, List.range'_succ]
    rw [List.filter_cons]
    have hk : ((e :: es).getD (k - k) default) = e := by
      rw [Nat.sub_self, List.getD_cons_zero]
    cases b with
    | true =>
      rw [hrec]
      rw [if_pos (by rw [hk, hb]; rfl)]
      rw [hcongr]
      rfl
    | false =>
      rw [hrec]
      rw [if_neg (by rw [hk, hb]; simp)]
      rw [hcongr]

theorem clause_set_mem_decision (es : List AuditEntry) (v : String) (i : Nat) :
    i ∈ (buildEngine es).index.search_field "decision" v ↔
      i < es.length ∧
      entryMatchesClause (es.getD i default) ("decision", v) = some true := by
  rw [search_field_decision, buildEngine_decisionP]
  rw [List.mem_filter, List.mem_range, entryMatchesClause_decision]
  constructor
  · rintro ⟨h1, h2⟩
    refine ⟨h1, ?_⟩
    rw [beq_iff_eq.mp h2]
    simp
  · rintro ⟨h1, h2⟩
    refine ⟨h1, ?_⟩
    have h3 : (upperStr v == (es.getD i default).decision.nm) = true :=
      Option.some.inj h2
    exact beq_iff_eq.mpr (beq_iff_eq.mp h3).symm

theorem clause_set_mem_time (es : List AuditEntry) (v : String) (xy : Int × Int)
    (hxy : parseTimeClause v = some xy) (i : Nat) :
    i ∈ (buildEngine es).index.search_time_range xy.1 xy.2 ↔
      i < es.length ∧
      entryMatchesClause (es.getD i default) ("time", v) = some true := by
  rw [search_time_range_mem, buildEngine_timestamps,
    entryMatchesClause_time _ _ _ hxy]
  have hlen : (es.map (fun x => x.timestamp)).length = es.length :=
    List.length_map _ _
  constructor
  · rintro ⟨h1, h2, h3⟩
    rw [hlen] at h1
    have hgd : (es.map (fun x => x.timestamp)).getD i 0 =
        (es.getD i default).timestamp := by
      rw [List.getD_eq_getElem _ _ (by rw [hlen]; exact h1), List.getElem_map,
        List.getD_eq_getElem _ _ h1]
    rw [hgd] at h2 h3
    exact ⟨h1, congrArg some (decide_eq_true ⟨h2, h3⟩)⟩
  · rintro ⟨h1, h2⟩
    have hgd : (es.map (fun x => x.timestamp)).getD i 0 =
        (es.getD i default).timestamp := by
      rw [List.getD_eq_getElem _ _ (by rw [hlen]; exact h1), List.getElem_map,
        List.getD_eq_getElem _ _ h1]
    have h3 : decide (xy.1 ≤ (es.getD i default).timestamp ∧
        (es.getD i default).timestamp ≤ xy.2) = true := Option.some.inj h2
    rw [decide_eq_true_eq] at h3
    exact ⟨by rw [hlen]; exact h1, by rw [hgd]; exact h3.1,
      by rw [hgd]; exact h3.2⟩

theorem forall_mem_filter_split {α : Type} (p : α → Bool) (P : α → Prop)
    (l : List α) :
    (∀ c ∈ l, P c) ↔
      ((∀ c ∈ l.filter p, P c) ∧
        ∀ c ∈ l.filter (fun c => !(p c)), P c) := by
  constructor
  · intro h
    exact ⟨fun c hcf => h c (List.mem_filter.mp hcf).1,
      fun c hcf => h c (List.mem_filter.mp hcf).1⟩
  · rintro ⟨h1, h2⟩ c hcmem
    by_cases hpc : p c
    · exact h1 c (List.mem_filter.mpr ⟨hcmem, hpc⟩)
    · exact h2 c (List.mem_filter.mpr ⟨hcmem, by simp [hpc]⟩)

theorem isSome_eq_some_getD {α : Type} (o : Option α) (d : α)
    (h : o.isSome) : o = some (o.getD d) := by
  cases o with
  | none => cases h
  | some a => rfl

/-- Closing step shared by both branches of the search/naive equivalence:
a nodup index list whose membership is "in range and every clause holds",
once sorted, equals the naive scan's output. -/
theorem final_list_eq (es : List AuditEntry) (clauses : List (String × String))
    (X : List Nat) (hX : X.Nodup)
    (hmem : ∀ i, i ∈ X ↔ (i < es.length ∧
      ∀ c ∈ clauses, entryMatchesClause (es.getD i default) c = some true))
    (hnone : ∀ e : AuditEntry, ∀ c ∈ clauses, entryMatchesClause e c ≠ none) :
    sortNats X = (List.range' 0 es.length).filter
      (fun i => entryMatchesAll (es.getD (i - 0) default) clauses ==
        some true) := by
  apply @List.eq_of_perm_of_sorted Nat (· ≤ ·) inferInstance
  · apply List.perm_of_nodup_nodup_toFinset_eq
    · exact (List.perm_insertionSort _ X).nodup_iff.mpr hX
    · exact (List.nodup_range' 0 es.length).filter _
    · ext i
      simp only [List.mem_toFinset, sortNats]
      rw [(List.perm_insertionSort _ X).mem_iff, hmem i, List.mem_filter,
        List.mem_range'_1]
      constructor
      · rintro ⟨h1, h2⟩
        refine ⟨⟨Nat.zero_le i, by omega⟩, ?_⟩
        have hall := (entryMatchesAll_true_iff _ clauses (hnone _)).mpr h2
        have hsub : i - 0 = i := Nat.sub_zero i
        rw [hsub, hall]
        rfl
      · rintro ⟨⟨-, h1⟩, h2⟩
        refine ⟨by omega, ?_⟩
        have hb : entryMatchesAll (es.getD (i - 0) default) clauses =
            some true := eq_of_beq h2
        rw [Nat.sub_zero] at hb
        exact (entryMatchesAll_true_iff _ clauses (hnone _)).mp hb
  · exact List.sorted_insertionSort _ X
  · exact (List.Pairwise.sublist (List.filter_sublist _)
      (List.pairwise_lt_range' 0 es.length)).imp (fun h => le_of_lt h)

/-- C9 as the code actually behaves (amended): on every engine built by
indexing a list of entries, `search` and `naive_search` return identical
index sequences for every query whose parsed clauses are all `decision:`
clauses or well-formed `time:` clauses.  On `domain:`, `agent_id:` and
`reason:` clauses the two genuinely differ — `naive_search` substring-matches
the stored field while the inverted index matches whole tokens exactly — see
the counterexample. -/
theorem C9_search_eq_naive_on_decision_time (es : List AuditEntry)
    (query : String) (clauses : List (String × String))
    (hp : parseQuery query = some clauses)
    (hc : ∀ c ∈ clauses, c.1 = "decision" ∨
      (c.1 = "time" ∧ (parseTimeClause c.2).isSome = true)) :
    (buildEngine es).search query = (buildEngine es).naive_search query := by
  have htime : ∀ c ∈ clauses, c.1 = "time" → (parseTimeClause c.2).isSome := by
    intro c hcm ht
    rcases hc c hcm with hdec | ⟨-, hs⟩
    · exact absurd (hdec.symm.trans ht) (by decide)
    · exact hs
  have hnone : ∀ e : AuditEntry, ∀ c ∈ clauses,
      entryMatchesClause e c ≠ none := by
    intro e c hcm
    obtain ⟨f, v⟩ := c
    rcases hc _ hcm with hdec | ⟨ht, hs⟩
    · have hdec' : f = "decision" := hdec
      subst hdec'
      rw [entryMatchesClause_decision]
      simp
    · have ht' : f = "time" := ht
      subst ht'
      obtain ⟨xy, hxy⟩ := Option.isSome_iff_exists.mp hs
      rw [entryMatchesClause_time _ _ _ hxy]
      simp
  have hsome : ∀ e ∈ es, ∃ b, entryMatchesAll e clauses = some b :=
    fun e _ => entryMatchesAll_isSome e clauses (hnone e)
  by_cases hemp : clauses.isEmpty
  · unfold AuditSearchEngine.search AuditSearchEngine.naive_search
    rw [hp]
    show (if clauses.isEmpty = true then some [] else _) =
      (if clauses.isEmpty = true then some [] else _)
    rw [if_pos hemp, if_pos hemp]
  · have hclne : clauses ≠ [] := fun h => hemp (by rw [h]; rfl)
    have hR : (buildEngine es).naive_search query =
        some ((List.range' 0 es.length).filter
          (fun i => entryMatchesAll (es.getD (i - 0) default) clauses ==
            some true)) := by
      unfold AuditSearchEngine.naive_search
      rw [hp]
      show (if clauses.isEmpty = true then some []
        else naiveLoop clauses 0 (buildEngine es).entries) = _
      rw [if_neg hemp, buildEngine_entries, naiveLoop_eq clauses es 0 hsome]
    have hPtime : ∀ c ∈ clauses, c.1 = "time" → ∀ i : Nat,
        (i ∈ (buildEngine es).index.search_time_range
            ((parseTimeClause c.2).getD (0, 0)).1
            ((parseTimeClause c.2).getD (0, 0)).2 ↔
          (i < es.length ∧
            entryMatchesClause (es.getD i default) c = some true)) := by
      intro c hcm ht i
      obtain ⟨f, v⟩ := c
      have ht' : f = "time" := ht
      subst ht'
      exact clause_set_mem_time es v _
        (isSome_eq_some_getD _ ((0 : Int), (0 : Int)) (htime _ hcm rfl)) i
    have hPdec : ∀ c ∈ clauses, ¬ c.1 = "time" → ∀ i : Nat,
        (i ∈ (buildEngine es).index.search_field c.1 c.2 ↔
          (i < es.length ∧
            entryMatchesClause (es.getD i default) c = some true)) := by
      intro c hcm ht i
      obtain ⟨f, v⟩ := c
      rcases hc _ hcm with hdec | ⟨ht2, -⟩
      · have hdec' : f = "decision" := hdec
        subst hdec'
        exact clause_set_mem_decision es v i
      · exact absurd ht2 ht
    have hNdec : ∀ c ∈ clauses, ¬ c.1 = "time" →
        ((buildEngine es).index.search_field c.1 c.2).Nodup := by
      intro c hcm ht
      obtain ⟨f, v⟩ := c
      rcases hc _ hcm with hdec | ⟨ht2, -⟩
      · have hdec' : f = "decision" := hdec
        subst hdec'
        show ((buildEngine es).index.search_field "decision" v).Nodup
        rw [search_field_decision, buildEngine_decisionP]
        exact (List.nodup_range _).filter _
      · exact absurd ht2 ht
    rw [hR]
    unfold AuditSearchEngine.search
    rw [hp]
    show (if clauses.isEmpty = true then some []
      else
        match timeSetsOf (buildEngine es).index clauses with
        | none => none
        | some time_sets =>
          if ¬ (clauses.filter (fun c => decide ¬(c.1 = "time"))).isEmpty
              = true then
            some (sortNats (interLoop ((buildEngine es).index.search_and
              (clauses.filter (fun c => decide ¬(c.1 = "time")))) time_sets))
          else
            match time_sets with
            | [] => some []
            | t0 :: rest => some (sortNats (interLoop t0 rest))) = _
    rw [if_neg hemp]
    cases hts : timeSetsOf (buildEngine es).index clauses with
    | none =>
      rw [timeSetsOf_eq _ _ htime] at hts
      cases hts
    | some TS =>
      have hTSeq : TS =
          (clauses.filter (fun c => decide (c.1 = "time"))).map
            (fun c => (buildEngine es).index.search_time_range
              ((parseTimeClause c.2).getD (0, 0)).1
              ((parseTimeClause c.2).getD (0, 0)).2) := by
        rw [timeSetsOf_eq _ _ htime] at hts
        exact (Option.some.inj hts).symm
      show (if ¬ (clauses.filter
            (fun c => decide ¬(c.1 = "time"))).isEmpty = true then
          some (sortNats (interLoop ((buildEngine es).index.search_and
            (clauses.filter (fun c => decide ¬(c.1 = "time")))) TS))
        else
          match TS with
          | [] => some []
          | t0 :: rest => some (sortNats (interLoop t0 rest))) = _
      by_cases hfe : (clauses.filter (fun c => decide ¬(c.1 = "time"))).isEmpty
      · rw [if_neg (not_not_intro hfe)]
        have halltime : ∀ c ∈ clauses, c.1 = "time" := by
          intro c hcm
          by_contra hct
          have hmem : c ∈ clauses.filter (fun c => decide ¬(c.1 = "time")) :=
            List.mem_filter.mpr ⟨hcm, decide_eq_true hct⟩
          rw [List.isEmpty_iff.mp hfe] at hmem
          simp at hmem
        have hTfull : clauses.filter (fun c => decide (c.1 = "time")) =
            clauses :=
          List.filter_eq_self.mpr
            (fun c hcm => decide_eq_true (halltime c hcm))
        cases hTS0 : TS with
        | nil =>
          rw [hTS0, hTfull] at hTSeq
          exact absurd (List.map_eq_nil_iff.mp hTSeq.symm) hclne
        | cons t0 rest =>
          show some (sortNats (interLoop t0 rest)) = _
          rw [hTS0, hTfull] at hTSeq
          refine congrArg some (final_list_eq es clauses _ ?_ ?_ hnone)
          · have ht0 : t0 ∈ clauses.map (fun c =>
                (buildEngine es).index.search_time_range
                  ((parseTimeClause c.2).getD (0, 0)).1
                  ((parseTimeClause c.2).getD (0, 0)).2) := by
              rw [← hTSeq]
              exact List.mem_cons_self _ _
            obtain ⟨c, -, hceq⟩ := List.mem_map.mp ht0
            apply interLoop_nodup
            rw [← hceq]
            exact search_time_range_nodup _ _ _
          · intro i
            rw [interLoop_mem]
            constructor
            · rintro ⟨h0, hrest⟩
              have hall : ∀ l ∈ t0 :: rest, i ∈ l := by
                intro l hl
                rcases List.mem_cons.mp hl with rfl | hl'
                · exact h0
                · exact hrest l hl'
              have hallc : ∀ c ∈ clauses,
                  i ∈ (buildEngine es).index.search_time_range
                    ((parseTimeClause c.2).getD (0, 0)).1
                    ((parseTimeClause c.2).getD (0, 0)).2 := by
                intro c hcm
                apply hall
                rw [hTSeq]
                exact List.mem_map_of_mem _ hcm
              obtain ⟨c0, hc0⟩ := List.exists_mem_of_ne_nil clauses hclne
              refine ⟨((hPtime c0 hc0 (halltime c0 hc0) i).mp
                (hallc c0 hc0)).1, ?_⟩
              intro c hcm
              exact ((hPtime c hcm (halltime c hcm) i).mp (hallc c hcm)).2
            · rintro ⟨hb, hallc⟩
              have h0 : ∀ l ∈ t0 :: rest, i ∈ l := by
                intro l hl
                rw [hTSeq] at hl
                obtain ⟨c, hcm, hceq2⟩ := List.mem_map.mp hl
                rw [← hceq2]
                exact (hPtime c hcm (halltime c hcm) i).mpr
                  ⟨hb, hallc c hcm⟩
              exact ⟨h0 t0 (List.mem_cons_self _ _),
                fun l hl => h0 l (List.mem_cons_of_mem _ hl)⟩
      · rw [if_pos hfe]
        have hfne : clauses.filter (fun c => decide ¬(c.1 = "time")) ≠ [] := by
          intro h
          exact hfe (by rw [h]; rfl)
        refine congrArg some (final_list_eq es clauses _ ?_ ?_ hnone)
        · apply interLoop_nodup
          apply search_and_nodup
          intro c hcf
          obtain ⟨hcm, hct⟩ := List.mem_filter.mp hcf
          exact hNdec c hcm (of_decide_eq_true hct)
        · intro i
          rw [interLoop_mem, search_and_mem _ _ hfne]
          constructor
          · rintro ⟨hfield, htsall⟩
            obtain ⟨c0, hc0⟩ := List.exists_mem_of_ne_nil _ hfne
            obtain ⟨hc0m, hc0t⟩ := List.mem_filter.mp hc0
            refine ⟨((hPdec c0 hc0m (of_decide_eq_true hc0t) i).mp
              (hfield c0 hc0)).1, ?_⟩
            intro c hcm
            by_cases hct : c.1 = "time"
            · have hin : i ∈ (buildEngine es).index.search_time_range
                  ((parseTimeClause c.2).getD (0, 0)).1
                  ((parseTimeClause c.2).getD (0, 0)).2 := by
                apply htsall
                rw [hTSeq]
                exact List.mem_map_of_mem _
                  (List.mem_filter.mpr ⟨hcm, decide_eq_true hct⟩)
              exact ((hPtime c hcm hct i).mp hin).2
            · exact ((hPdec c hcm hct i).mp (hfield c
                (List.mem_filter.mpr ⟨hcm, decide_eq_true hct⟩))).2
          · rintro ⟨hb, hall⟩
            constructor
            · intro c hcf
              obtain ⟨hcm, hct⟩ := List.mem_filter.mp hcf
              exact (hPdec c hcm (of_decide_eq_true hct) i).mpr
                ⟨hb, hall c hcm⟩
            · intro l hl
              rw [hTSeq] at hl
              obtain ⟨c, hcf, hceq2⟩ := List.mem_map.mp hl
              obtain ⟨hcm, hct⟩ := List.mem_filter.mp hcf
              rw [← hceq2]
              exact (hPtime c hcm (of_decide_eq_true hct) i).mpr
                ⟨hb, hall c hcm⟩

/-- Counterexample to C8 as stated: with the single pattern `"*"` and the
domain `"*"`, the trie walks the literal child and the `"*"` child — the
same node — and returns the pattern twice, while the naive scan and the
automaton (which deduplicates) return it once: the three results are not
equal as multisets. -/
theorem C8_counterexample_wildcard_domain :
    trieMatch (buildTrie ["*"]) "*" = ["*", "*"] ∧
    acSearch (acBuild (buildAC ["*"])) "*" = ["*"] ∧
    matchNaive ["*"] "*" = ["*"] ∧
    ¬ (trieMatch (buildTrie ["*"]) "*").Perm (matchNaive ["*"] "*") :=
  ⟨by decide, by decide, by decide, fun h => by
    have := h.length_eq
    simp [show trieMatch (buildTrie ["*"]) "*" = ["*", "*"] from by decide,
      show matchNaive ["*"] "*" = ["*"] from by decide] at this⟩

/-- Witness for C9: a concrete decision/time query on a two-entry engine,
with the hypotheses discharged by evaluation. -/
theorem C9_search_eq_naive_on_decision_time_witness :
    parseQuery "decision:allow AND time:5-5" =
      some [("decision", "allow"), ("time", "5-5")] ∧
    (buildEngine [wEntryA, wEntryB]).search "decision:allow AND time:5-5" =
      (buildEngine [wEntryA, wEntryB]).naive_search
        "decision:allow AND time:5-5" :=
  ⟨by decide, C9_search_eq_naive_on_decision_time [wEntryA, wEntryB]
    "decision:allow AND time:5-5" [("decision", "allow"), ("time", "5-5")]
    (by decide) (by decide)⟩

@[simp]
theorem TrieNode.children_node (ch : List (String × TrieNode))
    (ps : List String) : (TrieNode.node ch ps).children = ch := rfl

@[simp]
theorem TrieNode.patterns_node (ch : List (String × TrieNode))
    (ps : List String) : (TrieNode.node ch ps).patterns = ps := rfl

theorem assocGet_set {β : Type} (key k' : String) (v : β) :
    ∀ l : List (String × β),
    assocGet k' (assocSet key v l) =
      if key = k' then some v else assocGet k' l := by
  intro l
  induction l with
  | nil =>
    show (if key = k' then some v else none) = _
    rfl
  | cons hd rest ih =>
    obtain ⟨a, b⟩ := hd
    show assocGet k' (if a = key then (a, v) :: rest
      else (a, b) :: assocSet key v rest) = _
    by_cases hak : a = key
    · rw [if_pos hak]
      show (if a = k' then some v else assocGet k' rest) = _
      by_cases hk : key = k'
      · rw [if_pos (hak.trans hk), if_pos hk]
      · rw [if_neg (fun h => hk (hak ▸ h)), if_neg hk]
        show _ = if a = k' then some b else assocGet k' rest
        rw [if_neg (fun h => hk (hak ▸ h))]
    · rw [if_neg hak]
      show (if a = k' then some b else assocGet k' (assocSet key v rest)) = _
      by_cases hk : a = k'
      · rw [if_pos hk, if_neg (fun h : key = k' => hak (hk ▸ h.symm ▸ rfl))]
        show _ = if a = k' then some b else assocGet k' rest
        rw [if_pos hk]
      · rw [if_neg hk, ih]
        by_cases h2 : key = k'
        · rw [if_pos h2, if_pos h2]
        · rw [if_neg h2, if_neg h2]
          show _ = if a = k' then some b else assocGet k' rest
          rw [if_neg hk]

theorem assocGet_mem {β : Type} (key : String) (v : β) :
    ∀ l : List (String × β), assocGet key l = some v → (key, v) ∈ l := by
  intro l
  induction l with
  | nil => intro h; cases h
  | cons hd rest ih =>
    obtain ⟨a, b⟩ := hd
    intro h
    show (key, v) ∈ (a, b) :: rest
    by_cases hak : a = key
    · have : some b = some v := by
        rw [show assocGet key ((a, b) :: rest) = some b from by
          show (if a = key then some b else _) = _
          rw [if_pos hak]] at h
        exact h
      cases this
      exact hak ▸ List.mem_cons_self _ _
    · have h' : assocGet key rest = some v := by
        rw [show assocGet key ((a, b) :: rest) = assocGet key rest from by
          show (if a = key then some b else _) = _
          rw [if_neg hak]] at h
        exact h
      exact List.mem_cons_of_mem _ (ih h')

theorem assocGet_append_some {β : Type} (key : String) (v : β)
    (l l₂ : List (String × β)) (h : assocGet key l = some v) :
    assocGet key (l ++ l₂) = some v := by
  induction l with
  | nil => cases h
  | cons hd rest ih =>
    obtain ⟨a, b⟩ := hd
    by_cases hak : a = key
    · show (if a = key then some b else _) = _
      rw [if_pos hak]
      have : some b = some v := by
        rw [show assocGet key ((a, b) :: rest) = some b from by
          show (if a = key then some b else _) = _
          rw [if_pos hak]] at h
        exact h
      exact this
    · show (if a = key then some b else assocGet key (rest ++ l₂)) = _
      rw [if_neg hak]
      apply ih
      rw [show assocGet key ((a, b) :: rest) = assocGet key rest from by
        show (if a = key then some b else _) = _
        rw [if_neg hak]] at h
      exact h

theorem assocGet_append_none {β : Type} (key : String)
    (l l₂ : List (String × β)) (h : assocGet key l = none) :
    assocGet key (l ++ l₂) = assocGet key l₂ := by
  induction l with
  | nil => rfl
  | cons hd rest ih =>
    obtain ⟨a, b⟩ := hd
    by_cases hak : a = key
    · exfalso
      rw [show assocGet key ((a, b) :: rest) = some b from by
        show (if a = key then some b else _) = _
        rw [if_pos hak]] at h
      cases h
    · show (if a = key then some b else assocGet key (rest ++ l₂)) = _
      rw [if_neg hak]
      apply ih
      rw [show assocGet key ((a, b) :: rest) = assocGet key rest from by
        show (if a = key then some b else _) = _
        rw [if_neg hak]] at h
      exact h

theorem trieWalk_empty : ∀ segs : List String,
    trieWalk segs (TrieNode.node [] []) = [] := by
  intro segs
  cases segs with
  | nil => rfl
  | cons s rest => rfl

theorem wmB_cons (a b : String) (as bs : List String) :
    wmB (a :: as) (b :: bs) = ((a == "*" || a == b) && wmB as bs) := by
  show (((a :: as).length == (b :: bs).length) &&
    (((a, b) :: as.zip bs).all (fun pd => pd.1 == "*" || pd.1 == pd.2))) =
    ((a == "*" || a == b) && ((as.length == bs.length) &&
      ((as.zip bs).all (fun pd => pd.1 == "*" || pd.1 == pd.2))))
  rw [List.all_cons]
  rw [show ((a :: as).length == (b :: bs).length) =
      (as.length == bs.length) from by
    rw [Bool.eq_iff_iff, beq_iff_eq, beq_iff_eq, List.length_cons,
      List.length_cons]
    omega]
  exact Bool.and_left_comm _ _ _

theorem wmB_nil_cons (b : String) (bs : List String) :
    wmB [] (b :: bs) = false := rfl

theorem wmB_cons_nil (a : String) (as : List String) :
    wmB (a :: as) [] = false := rfl

theorem perm_append_swap {α : Type} (a m w : List α) :
    ((a ++ m) ++ w).Perm ((a ++ w) ++ m) := by
  rw [List.append_assoc, List.append_assoc]
  exact (List.perm_append_comm).append_left a

/-- Key trie lemma: inserting a pattern adds exactly one walk hit when the
pattern's reversed segments match the walked segments, and nothing
otherwise (for a domain without wildcard segments). -/
theorem trieWalk_insertAux_perm :
    ∀ segs : List String, "*" ∉ segs →
    ∀ (qs : List String) (t : TrieNode) (q : String),
    (trieWalk segs (trieInsertAux qs t q)).Perm
      (trieWalk segs t ++ (if wmB qs segs then [q] else [])) := by
  intro segs
  induction segs with
  | nil =>
    intro _ qs t q
    cases qs with
    | nil =>
      show (t.patterns ++ [q]).Perm (t.patterns ++ (if wmB [] [] then [q]
        else []))
      exact List.Perm.refl _
    | cons s rest =>
      show t.patterns.Perm (t.patterns ++ (if wmB (s :: rest) [] then [q]
        else []))
      rw [wmB_cons_nil]
      simp
  | cons seg rest ih =>
    intro hw qs t q
    have hseg : ¬ seg = "*" := fun h => hw (by
      rw [← h]; exact List.mem_cons_self _ _)
    have hw' : "*" ∉ rest := fun h => hw (List.mem_cons_of_mem _ h)
    cases qs with
    | nil =>
      show ((match assocGet seg t.children with
        | none => [] | some c => trieWalk rest c) ++
        (match assocGet "*" t.children with
        | none => [] | some w => trieWalk rest w)).Perm
        (trieWalk (seg :: rest) t ++ (if wmB [] (seg :: rest) then [q]
          else []))
      rw [wmB_nil_cons]
      simp only [Bool.false_eq_true, if_false, List.append_nil]
      exact List.Perm.refl _
    | cons s qrest =>
      show (trieWalk (seg :: rest) (TrieNode.node
        (assocSet s (trieInsertAux qrest (match assocGet s t.children with
          | some c => c | none => TrieNode.node [] []) q) t.children)
        t.patterns)).Perm _
      show ((match assocGet seg (assocSet s (trieInsertAux qrest
          (match assocGet s t.children with
            | some c => c | none => TrieNode.node [] []) q) t.children) with
        | none => [] | some c => trieWalk rest c) ++
        (match assocGet "*" (assocSet s (trieInsertAux qrest
          (match assocGet s t.children with
            | some c => c | none => TrieNode.node [] []) q) t.children) with
        | none => [] | some w => trieWalk rest w)).Perm _
      rw [assocGet_set, assocGet_set, wmB_cons]
      by_cases hs : s = seg
      · rw [if_pos hs, if_neg (fun h : s = "*" => hseg (hs ▸ h))]
        have hhd : (s == "*" || s == seg) = true := by
          rw [beq_iff_eq.mpr hs]
          simp
        rw [hhd, Bool.true_and]
        cases hc : assocGet s t.children with
        | some c =>
          show (trieWalk rest (trieInsertAux qrest c q) ++
            (match assocGet "*" t.children with
            | none => [] | some w => trieWalk rest w)).Perm
            (trieWalk (seg :: rest) t ++ _)
          have hlit : trieWalk (seg :: rest) t =
              trieWalk rest c ++ (match assocGet "*" t.children with
              | none => [] | some w => trieWalk rest w) := by
            show ((match assocGet seg t.children with
              | none => [] | some c => trieWalk rest c) ++ _) = _
            rw [← hs, hc]
          rw [hlit]
          refine ((ih hw' qrest c q).append_right _).trans ?_
          exact perm_append_swap _ _ _
        | none =>
          show (trieWalk rest (trieInsertAux qrest (TrieNode.node [] []) q)
            ++ (match assocGet "*" t.children with
            | none => [] | some w => trieWalk rest w)).Perm
            (trieWalk (seg :: rest) t ++ _)
          have hlit : trieWalk (seg :: rest) t =
              [] ++ (match assocGet "*" t.children with
              | none => [] | some w => trieWalk rest w) := by
            show ((match assocGet seg t.children with
              | none => [] | some c => trieWalk rest c) ++ _) = _
            rw [← hs, hc]
          rw [hlit]
          refine ((ih hw' qrest _ q).append_right _).trans ?_
          rw [trieWalk_empty]
          simp only [List.nil_append]
          exact List.perm_append_comm
      · rw [if_neg hs]
        by_cases hsw : s = "*"
        · rw [if_pos hsw]
          have hhd : (s == "*" || s == seg) = true := by
            rw [beq_iff_eq.mpr hsw]
            simp
          rw [hhd, Bool.true_and]
          cases hc : assocGet s t.children with
          | some w0 =>
            show ((match assocGet seg t.children with
              | none => [] | some c => trieWalk rest c) ++
              trieWalk rest (trieInsertAux qrest w0 q)).Perm
              (trieWalk (seg :: rest) t ++ _)
            have hwild : trieWalk (seg :: rest) t =
                (match assocGet seg t.children with
                | none => [] | some c => trieWalk rest c) ++
                trieWalk rest w0 := by
              show (_ ++ (match assocGet "*" t.children with
                | none => [] | some w => trieWalk rest w)) = _
              rw [← hsw, hc]
            rw [hwild, List.append_assoc]
            exact ((ih hw' qrest w0 q).append_left _)
          | none =>
            show ((match assocGet seg t.children with
              | none => [] | some c => trieWalk rest c) ++
              trieWalk rest (trieInsertAux qrest (TrieNode.node [] [])
                q)).Perm (trieWalk (seg :: rest) t ++ _)
            have hwild : trieWalk (seg :: rest) t =
                (match assocGet seg t.children with
                | none => [] | some c => trieWalk rest c) ++ [] := by
              show (_ ++ (match assocGet "*" t.children with
                | none => [] | some w => trieWalk rest w)) = _
              rw [← hsw, hc]
            rw [hwild, List.append_assoc]
            refine List.Perm.append_left _ ?_
            refine (ih hw' qrest _ q).trans ?_
            rw [trieWalk_empty]
        · rw [if_neg hsw]
          have hhd : (s == "*" || s == seg) = false := by
            rw [beq_eq_false_iff_ne.mpr hsw, beq_eq_false_iff_ne.mpr hs]
            rfl
          rw [hhd, Bool.false_and]
          simp only [Bool.false_eq_true, if_false, List.append_nil]
          exact List.Perm.refl _

/-- The walk over a built trie returns, up to permutation, the patterns
whose reversed segments match the walked segments. -/
theorem trieWalk_buildTrie_perm (segs : List String) (hw : "*" ∉ segs)
    (ps : List String) :
    (trieWalk segs (buildTrie ps)).Perm
      (ps.filter (fun p => wmB (splitDots p).reverse segs)) := by
  induction ps using List.reverseRecOn with
  | nil =>
    show (trieWalk segs (TrieNode.node [] [])).Perm _
    rw [trieWalk_empty]
    exact List.Perm.refl _
  | append_singleton ps q ih =>
    have hb : buildTrie (ps ++ [q]) = trieInsert (buildTrie ps) q := by
      show (ps ++ [q]).foldl trieInsert (TrieNode.node [] []) = _
      rw [List.foldl_append]
      rfl
    rw [hb]
    refine (trieWalk_insertAux_perm segs hw _ _ q).trans ?_
    rw [List.filter_append]
    refine List.Perm.append ih ?_
    rw [List.filter_cons, List.filter_nil]

theorem wmB_iff_labelsMatch (a b : List String) :
    wmB a b = true ↔ labelsMatch a b := by
  show _ ↔ List.Forall₂ _ a b
  rw [List.forall₂_iff_zip]
  show (((a.length == b.length) && ((a.zip b).all
    (fun pd => pd.1 == "*" || pd.1 == pd.2))) = true) ↔ _
  rw [Bool.and_eq_true, beq_iff_eq, List.all_eq_true]
  constructor
  · rintro ⟨h1, h2⟩
    refine ⟨h1, ?_⟩
    intro x y hxy
    have h3 := h2 (x, y) hxy
    rcases Bool.or_eq_true_iff.mp h3 with h4 | h4
    · exact Or.inr (beq_iff_eq.mp h4)
    · exact Or.inl (beq_iff_eq.mp h4)
  · rintro ⟨h1, h2⟩
    refine ⟨h1, ?_⟩
    intro pd hpd
    obtain ⟨x, y⟩ := pd
    rcases h2 hpd with h4 | h4
    · exact Bool.or_eq_true_iff.mpr (Or.inr (beq_iff_eq.mpr h4))
    · exact Bool.or_eq_true_iff.mpr (Or.inl (beq_iff_eq.mpr h4))

theorem wmB_reverse (a b : List String) :
    wmB a.reverse b.reverse = wmB a b := by
  rw [Bool.eq_iff_iff, wmB_iff_labelsMatch, wmB_iff_labelsMatch]
  exact List.forall₂_reverse_iff

/-- The trie half of the consistency property: on a domain without `"*"`
segments the trie walk agrees with the naive scan up to permutation. -/
theorem trieMatch_perm_naive (ps : List String) (domain : String)
    (hdw : "*" ∉ splitDots domain) :
    (trieMatch (buildTrie ps) domain).Perm (matchNaive ps domain) := by
  have hw : "*" ∉ (splitDots domain).reverse := by simpa using hdw
  refine (trieWalk_buildTrie_perm _ hw ps).trans ?_
  have hcongr : ps.filter
      (fun p => wmB (splitDots p).reverse (splitDots domain).reverse) =
      ps.filter (fun p => wmB (splitDots p) (splitDots domain)) :=
    List.filter_congr (fun p _ => wmB_reverse _ _)
  rw [hcongr]
  exact List.Perm.refl _

theorem getD_set_self {α : Type} (l : List α) (i : Nat) (a d : α)
    (h : i < l.length) : (l.set i a).getD i d = a := by
  rw [List.getD_eq_getElem?_getD, List.getElem?_set_self h]
  rfl

theorem getD_set_ne {α : Type} (l : List α) (i j : Nat) (a d : α)
    (h : i ≠ j) : (l.set i a).getD j d = l.getD j d := by
  rw [List.getD_eq_getElem?_getD, List.getElem?_set_ne h,
    ← List.getD_eq_getElem?_getD]

theorem getD_snoc_lt {α : Type} (l : List α) (b d : α) (j : Nat)
    (h : j < l.length) : (l ++ [b]).getD j d = l.getD j d :=
  List.getD_append _ _ _ _ h

theorem getD_snoc_len {α : Type} (l : List α) (b d : α) :
    (l ++ [b]).getD l.length d = b := by
  rw [List.getD_append_right _ _ _ _ le_rfl, Nat.sub_self]
  rfl

theorem getD_oob {α : Type} (l : List α) (d : α) (j : Nat)
    (h : l.length ≤ j) : l.getD j d = d :=
  List.getD_eq_default _ _ h

theorem splitOnChar_length (sep : Char) :
    ∀ l : List Char, (splitOnChar sep l).length = l.count sep + 1 := by
  intro l
  induction l with
  | nil => rfl
  | cons c cs ih =>
    show (if c = sep then [] :: splitOnChar sep cs
      else match splitOnChar sep cs with
        | [] => [[c]]
        | r :: rs => (c :: r) :: rs).length = _
    by_cases hc : c = sep
    · rw [if_pos hc, List.length_cons, ih, List.count_cons]
      simp [hc]
    · rw [if_neg hc]
      cases hr : splitOnChar sep cs with
      | nil => rw [hr] at ih; cases ih
      | cons r rs =>
        show (r :: rs).length = _
        rw [← hr, ih, List.count_cons]
        simp [hc]

theorem splitDots_length (s : String) :
    (splitDots s).length = dotCount s + 1 := by
  show ((splitOnChar '.' s.data).map String.mk).length = _
  rw [List.length_map, splitOnChar_length]
  rfl

theorem acFollow_append (nodes : List ACNode) :
    ∀ (xs ys : List String) (u : Nat),
    acFollow nodes u (xs ++ ys) =
      (acFollow nodes u xs).bind (fun w => acFollow nodes w ys) := by
  intro xs
  induction xs with
  | nil => intro ys u; rfl
  | cons s rest ih =>
    intro ys u
    show (match assocGet s (nodes.getD u default).children with
      | none => none
      | some w => acFollow nodes w (rest ++ ys)) = _
    cases h : assocGet s (nodes.getD u default).children with
    | none =>
      show none = (match assocGet s (nodes.getD u default).children with
        | none => none
        | some w => acFollow nodes w rest).bind _
      rw [h]
      rfl
    | some w =>
      show acFollow nodes w (rest ++ ys) =
        (match assocGet s (nodes.getD u default).children with
        | none => none
        | some w => acFollow nodes w rest).bind _
      rw [h]
      exact ih ys w

theorem acFollow_snoc (nodes : List ACNode) (xs : List String) (s : String)
    (u v : Nat) :
    acFollow nodes u (xs ++ [s]) = some v ↔
      ∃ w, acFollow nodes u xs = some w ∧
        assocGet s (nodes.getD w default).children = some v := by
  rw [acFollow_append]
  cases h : acFollow nodes u xs with
  | none => simp
  | some w =>
    simp only [Option.some_bind]
    show (match assocGet s (nodes.getD w default).children with
      | none => none
      | some w' => acFollow nodes w' []) = some v ↔ _
    cases hg : assocGet s (nodes.getD w default).children with
    | none =>
      simp only [hg]
      constructor
      · intro habs; cases habs
      · rintro ⟨w', hw', hg'⟩
        have hww : w = w' := Option.some.inj hw'
        rw [← hww, hg] at hg'
        cases hg'
    | some t =>
      show some t = some v ↔ _
      constructor
      · intro ht
        exact ⟨w, rfl, hg.trans ht⟩
      · rintro ⟨w', hw', hg'⟩
        have hww : w = w' := Option.some.inj hw'
        rw [← hww, hg] at hg'
        exact hg'

theorem acFollow_range_depth (nodes : List ACNode) (hs : ACStruct nodes) :
    ∀ (ls : List String) (u v : Nat), u < nodes.length →
    acFollow nodes u ls = some v →
    v < nodes.length ∧
      (nodes.getD v default).depth = (nodes.getD u default).depth +
        ls.length := by
  intro ls
  induction ls with
  | nil =>
    intro u v hu h
    cases h
    exact ⟨hu, rfl⟩
  | cons s rest ih =>
    intro u v hu h
    obtain ⟨-, -, hch, -, -, -⟩ := hs
    cases hg : assocGet s (nodes.getD u default).children with
    | none =>
      unfold acFollow at h
      rw [hg] at h
      cases h
    | some w =>
      unfold acFollow at h
      rw [hg] at h
      obtain ⟨-, hw, hd⟩ := hch u hu _ (assocGet_mem _ _ _ hg)
      obtain ⟨hv, hvd⟩ := ih w v hw h
      refine ⟨hv, ?_⟩
      rw [hvd, hd, List.length_cons]
      omega

theorem acFollow_unique (nodes : List ACNode) (hs : ACStruct nodes) :
    ∀ (ls ls' : List String) (v : Nat),
    acFollow nodes 0 ls = some v → acFollow nodes 0 ls' = some v →
    ls = ls' := by
  intro ls
  induction ls using List.reverseRecOn with
  | nil =>
    intro ls' v h h'
    cases h
    rcases List.eq_nil_or_concat ls' with rfl | ⟨ys, s', rfl⟩
    · rfl
    · rw [List.concat_eq_append] at h'
      obtain ⟨w, hw, hg⟩ := (acFollow_snoc nodes ys s' 0 0).mp h'
      obtain ⟨hwlt, -⟩ := acFollow_range_depth nodes hs ys 0 w hs.1 hw
      obtain ⟨-, -, hch, -, -, -⟩ := hs
      obtain ⟨h1, -, -⟩ := hch w hwlt _ (assocGet_mem _ _ _ hg)
      omega
  | append_singleton xs s ih =>
    intro ls' v h h'
    obtain ⟨w, hw, hg⟩ := (acFollow_snoc nodes xs s 0 v).mp h
    obtain ⟨hwlt, -⟩ := acFollow_range_depth nodes hs xs 0 w hs.1 hw
    rcases List.eq_nil_or_concat ls' with rfl | ⟨ys, s', rfl⟩
    · cases h'
      obtain ⟨-, -, hch, -, -, -⟩ := hs
      obtain ⟨h1, -, -⟩ := hch w hwlt _ (assocGet_mem _ _ _ hg)
      omega
    · rw [List.concat_eq_append] at h'
      rw [List.concat_eq_append]
      obtain ⟨w', hw', hg'⟩ := (acFollow_snoc nodes ys s' 0 v).mp h'
      obtain ⟨hwlt', -⟩ := acFollow_range_depth nodes hs ys 0 w' hs.1 hw'
      obtain ⟨-, -, -, -, -, hinj⟩ := hs
      obtain ⟨hww, hss⟩ := hinj w hwlt w' hwlt' _
        (assocGet_mem _ _ _ hg) _ (assocGet_mem _ _ _ hg') rfl
      have hss' : s = s' := hss
      subst hww
      rw [ih ys w hw hw', hss']

theorem acFollow_mono (nodes nodes' : List ACNode)
    (h : ∀ v : Nat, ∃ ext, (nodes'.getD v default).children =
      (nodes.getD v default).children ++ ext) :
    ∀ (ls : List String) (u w : Nat),
    acFollow nodes u ls = some w → acFollow nodes' u ls = some w := by
  intro ls
  induction ls with
  | nil => intro u w hf; exact hf
  | cons s rest ih =>
    intro u w hf
    unfold acFollow at hf ⊢
    cases hg : assocGet s (nodes.getD u default).children with
    | none => rw [hg] at hf; cases hf
    | some t =>
      rw [hg] at hf
      obtain ⟨ext, hext⟩ := h u
      rw [hext, assocGet_append_some _ _ _ _ hg]
      exact ih t w hf

theorem acFollow_congr (nodes nodes' : List ACNode)
    (h : ∀ v : Nat, (nodes'.getD v default).children =
      (nodes.getD v default).children) :
    ∀ (ls : List String) (u : Nat),
    acFollow nodes' u ls = acFollow nodes u ls := by
  intro ls
  induction ls with
  | nil => intro u; rfl
  | cons s rest ih =>
    intro u
    unfold acFollow
    rw [h u]
    cases assocGet s (nodes.getD u default).children with
    | none => rfl
    | some t => exact ih t

theorem ACStruct_congr (nodes nodes' : List ACNode)
    (hlen : nodes'.length = nodes.length)
    (hch : ∀ v, (nodes'.getD v default).children =
      (nodes.getD v default).children)
    (hd : ∀ v, (nodes'.getD v default).depth =
      (nodes.getD v default).depth)
    (hs : ACStruct nodes) : ACStruct nodes' := by
  obtain ⟨g1, g2, g3, g4, g5, g6⟩ := hs
  refine ⟨by omega, by rw [hd 0]; exact g2, ?_, ?_, ?_, ?_⟩
  · intro v hv sc hsc
    rw [hlen] at hv
    rw [hch v] at hsc
    obtain ⟨a, b, c⟩ := g3 v hv sc hsc
    exact ⟨a, by omega, by rw [hd sc.2, hd v]; exact c⟩
  · intro v hv
    rw [hlen] at hv
    rw [hd v]
    exact g4 v hv
  · intro v hv h1v
    rw [hlen] at hv
    rw [hd v]
    exact g5 v hv h1v
  · intro v hv w hw sc hsc sc' hsc' he
    rw [hlen] at hv hw
    rw [hch v] at hsc
    rw [hch w] at hsc'
    exact g6 v hv w hw sc hsc sc' hsc' he

/-- What one `add_pattern` walk does to the automaton: structure is
preserved and extended, depths and failure links of existing nodes are
untouched, new nodes carry failure link 0, children lists only grow, and
exactly one node — the one the remaining segments lead to — gains the
pattern at the end of its output. -/
theorem acAddAux_spec :
    ∀ (rest : List String) (nodes : List ACNode) (cur i : Nat)
      (pattern : String),
    ACStruct nodes → cur < nodes.length →
    (nodes.getD cur default).depth = i →
    ACStruct (acAddAux rest nodes cur i pattern) ∧
    nodes.length ≤ (acAddAux rest nodes cur i pattern).length ∧
    (∀ v, v < nodes.length →
      ((acAddAux rest nodes cur i pattern).getD v default).depth =
        (nodes.getD v default).depth) ∧
    (∀ v, ((acAddAux rest nodes cur i pattern).getD v default).fail =
      (nodes.getD v default).fail) ∧
    (∀ v, ∃ ext,
      ((acAddAux rest nodes cur i pattern).getD v default).children =
        (nodes.getD v default).children ++ ext) ∧
    (∃ t, t < (acAddAux rest nodes cur i pattern).length ∧
      acFollow (acAddAux rest nodes cur i pattern) cur rest = some t ∧
      ((acAddAux rest nodes cur i pattern).getD t default).output =
        (nodes.getD t default).output ++ [pattern] ∧
      ∀ v, v ≠ t →
        ((acAddAux rest nodes cur i pattern).getD v default).output =
          (nodes.getD v default).output) := by
  intro rest
  induction rest with
  | nil =>
    intro nodes cur i pattern hs hcur hdep
    have hacc : ∀ v : Nat,
        (acAddAux [] nodes cur i pattern).getD v default =
          if v = cur then { nodes.getD cur default with
            output := (nodes.getD cur default).output ++ [pattern] }
          else nodes.getD v default := by
      intro v
      by_cases hv : v = cur
      · rw [if_pos hv, hv]
        exact getD_set_self _ _ _ _ hcur
      · rw [if_neg hv]
        exact getD_set_ne _ _ _ _ _ (fun h => hv h.symm)
    have hlen : (acAddAux [] nodes cur i pattern).length = nodes.length :=
      List.length_set _ _ _
    have hch : ∀ v, ((acAddAux [] nodes cur i pattern).getD v
        default).children = (nodes.getD v default).children := by
      intro v
      rw [hacc v]
      by_cases hv : v = cur
      · rw [if_pos hv, hv]
      · rw [if_neg hv]
    have hd : ∀ v, ((acAddAux [] nodes cur i pattern).getD v
        default).depth = (nodes.getD v default).depth := by
      intro v
      rw [hacc v]
      by_cases hv : v = cur
      · rw [if_pos hv, hv]
      · rw [if_neg hv]
    have hf : ∀ v, ((acAddAux [] nodes cur i pattern).getD v
        default).fail = (nodes.getD v default).fail := by
      intro v
      rw [hacc v]
      by_cases hv : v = cur
      · rw [if_pos hv, hv]
      · rw [if_neg hv]
    refine ⟨ACStruct_congr _ _ hlen hch hd hs, hlen.ge, fun v _ => hd v,
      hf, fun v => ⟨[], by rw [hch v, List.append_nil]⟩, cur, ?_, rfl,
      ?_, ?_⟩
    · rw [hlen]; exact hcur
    · rw [hacc cur, if_pos rfl]
    · intro v hv
      rw [hacc v, if_neg hv]
  | cons seg rs ih =>
    intro nodes cur i pattern hs hcur hdep
    cases hg : assocGet seg (nodes.getD cur default).children with
    | some nxt =>
      have hred : acAddAux (seg :: rs) nodes cur i pattern =
          acAddAux rs nodes nxt (i + 1) pattern := by
        conv_lhs => unfold acAddAux
        rw [hg]
      have hmem := assocGet_mem _ _ _ hg
      obtain ⟨-, hnxt, hnd⟩ := hs.2.2.1 cur hcur _ hmem
      have hdep' : (nodes.getD nxt default).depth = i + 1 := by
        rw [hnd, hdep]
      obtain ⟨s1, s2, s3, s4, s5, s6⟩ := ih nodes nxt (i + 1) pattern hs
        hnxt hdep'
      rw [hred]
      refine ⟨s1, s2, s3, s4, s5, ?_⟩
      obtain ⟨t, ht1, ht2, ht3, ht4⟩ := s6
      refine ⟨t, ht1, ?_, ht3, ht4⟩
      show (match assocGet seg
          (((acAddAux rs nodes nxt (i + 1) pattern)).getD cur
            default).children with
        | none => none
        | some w => acFollow (acAddAux rs nodes nxt (i + 1) pattern) w
            rs) = some t
      obtain ⟨ext, hext⟩ := s5 cur
      rw [hext, assocGet_append_some _ _ _ _ hg]
      exact ht2
    | none =>
      set idx := nodes.length with hidx
      set B : ACNode := { children := [], fail := 0, output := [], depth := i + 1 } with hB
      set A : ACNode := { nodes.getD cur default with children := (nodes.getD cur default).children ++ [(seg, idx)] } with hA
      set nodes1 : List ACNode := nodes.set cur A ++ [B] with hN1
      have hred : acAddAux (seg :: rs) nodes cur i pattern =
          acAddAux rs nodes1 idx (i + 1) pattern := by
        rw [hN1, hA, hB, hidx]
        conv_lhs => unfold acAddAux
        rw [hg]
      have hlen1 : nodes1.length = nodes.length + 1 := by
        rw [hN1, List.length_append, List.length_set]
        rfl
      have hacc1 : ∀ v : Nat, nodes1.getD v default =
          if v = cur then A else if v = idx then B
          else nodes.getD v default := by
        intro v
        rw [hN1]
        by_cases hv : v = cur
        · rw [if_pos hv, hv,
            getD_snoc_lt _ _ _ _ (by rw [List.length_set]; exact hcur)]
          exact getD_set_self _ _ _ _ hcur
        · rw [if_neg hv]
          by_cases hvi : v = idx
          · rw [if_pos hvi, hvi,
              show idx = (nodes.set cur A).length from by
                rw [List.length_set, hidx]]
            exact getD_snoc_len _ _ _
          · rw [if_neg hvi]
            by_cases hvlen : v < nodes.length
            · rw [getD_snoc_lt _ _ _ _
                (by rw [List.length_set]; exact hvlen)]
              exact getD_set_ne _ _ _ _ _ (fun h => hv h.symm)
            · have hlen2 : (nodes.set cur A ++ [B]).length =
                  nodes.length + 1 := by
                rw [List.length_append, List.length_set]
                rfl
              have hv1 : (nodes.set cur A ++ [B]).length ≤ v := by
                rw [hlen2]
                omega
              have hv2 : nodes.length ≤ v := by omega
              rw [getD_oob _ _ _ hv1, getD_oob _ _ _ hv2]
      have hncur : ¬ idx = cur := by omega
      have hdep1 : ∀ w, w < nodes.length →
          (nodes1.getD w default).depth = (nodes.getD w default).depth := by
        intro w hw
        rw [hacc1 w]
        by_cases hwc : w = cur
        · rw [if_pos hwc]
          show (nodes.getD cur default).depth = _
          rw [hwc]
        · rw [if_neg hwc, if_neg (show ¬ w = idx from by omega)]
      have hdep1idx : (nodes1.getD idx default).depth = i + 1 := by
        rw [hacc1 idx, if_neg hncur, if_pos rfl]
      have hfail1 : ∀ w, (nodes1.getD w default).fail =
          (nodes.getD w default).fail := by
        intro w
        rw [hacc1 w]
        by_cases hwc : w = cur
        · rw [if_pos hwc]
          show (nodes.getD cur default).fail = _
          rw [hwc]
        · rw [if_neg hwc]
          by_cases hwi : w = idx
          · rw [if_pos hwi, hwi, getD_oob _ _ _ (by omega)]
            rfl
          · rw [if_neg hwi]
      have hout1 : ∀ w, (nodes1.getD w default).output =
          (nodes.getD w default).output := by
        intro w
        rw [hacc1 w]
        by_cases hwc : w = cur
        · rw [if_pos hwc]
          show (nodes.getD cur default).output = _
          rw [hwc]
        · rw [if_neg hwc]
          by_cases hwi : w = idx
          · rw [if_pos hwi, hwi, getD_oob _ _ _ (by omega)]
            rfl
          · rw [if_neg hwi]
      have hch1cur : (nodes1.getD cur default).children =
          (nodes.getD cur default).children ++ [(seg, idx)] := by
        rw [hacc1 cur, if_pos rfl]
      have hch1 : ∀ w, w ≠ cur → w ≠ idx →
          (nodes1.getD w default).children =
          (nodes.getD w default).children := by
        intro w hwc hwi
        rw [hacc1 w, if_neg hwc, if_neg hwi]
      have hch1idx : (nodes1.getD idx default).children = [] := by
        rw [hacc1 idx, if_neg hncur, if_pos rfl]
      obtain ⟨g1, g2, g3, g4, g5, g6⟩ := hs
      have hchmem : ∀ v, v < nodes1.length →
          ∀ sc ∈ (nodes1.getD v default).children,
          (v < nodes.length ∧ sc ∈ (nodes.getD v default).children) ∨
            (v = cur ∧ sc = (seg, idx)) := by
        intro v hv sc hsc
        by_cases hvc : v = cur
        · rw [hvc, hch1cur] at hsc
          rcases List.mem_append.mp hsc with hold | hnew
          · exact Or.inl ⟨by omega, by rw [hvc]; exact hold⟩
          · exact Or.inr ⟨hvc, by simpa using hnew⟩
        · by_cases hvi : v = idx
          · rw [hvi, hch1idx] at hsc
            cases hsc
          · rw [hch1 v hvc hvi] at hsc
            exact Or.inl ⟨by omega, hsc⟩
      have hs1 : ACStruct nodes1 := by
        refine ⟨by omega, ?_, ?_, ?_, ?_, ?_⟩
        · rw [hdep1 0 (by omega)]
          exact g2
        · intro v hv sc hsc
          rcases hchmem v hv sc hsc with ⟨hvlen, hold⟩ | ⟨hvc, hnew⟩
          · obtain ⟨a, b, c⟩ := g3 v hvlen sc hold
            refine ⟨a, by omega, ?_⟩
            rw [hdep1 sc.2 b, hdep1 v hvlen]
            exact c
          · rw [hnew, hvc]
            refine ⟨?_, ?_, ?_⟩
            · show 1 ≤ idx
              omega
            · show idx < nodes1.length
              omega
            · show (nodes1.getD idx default).depth =
                (nodes1.getD cur default).depth + 1
              rw [hdep1idx, hdep1 cur hcur, hdep]
        · intro v hv
          by_cases hvlen : v < nodes.length
          · rw [hdep1 v hvlen]
            exact g4 v hvlen
          · have : v = idx := by omega
            rw [this, hdep1idx]
            have := g4 cur hcur
            omega
        · intro v hv h1v
          by_cases hvlen : v < nodes.length
          · rw [hdep1 v hvlen]
            exact g5 v hvlen h1v
          · have : v = idx := by omega
            rw [this, hdep1idx]
            omega
        · intro v hv w hw sc hsc sc' hsc' he
          rcases hchmem v hv sc hsc with ⟨hvlen, hold⟩ | ⟨hvc, hnew⟩ <;>
            rcases hchmem w hw sc' hsc' with ⟨hwlen, hold'⟩ |
              ⟨hwc, hnew'⟩
          · exact g6 v hvlen w hwlen sc hold sc' hold' he
          · obtain ⟨-, hb, -⟩ := g3 v hvlen sc hold
            rw [he, hnew'] at hb
            exact absurd hb (by simp [hidx])
          · obtain ⟨-, hb, -⟩ := g3 w hwlen sc' hold'
            rw [← he, hnew] at hb
            exact absurd hb (by simp [hidx])
          · rw [hvc, hwc, hnew, hnew']
            exact ⟨rfl, rfl⟩
      have hidxlt : idx < nodes1.length := by omega
      obtain ⟨s1, s2, s3, s4, s5, s6⟩ := ih nodes1 idx (i + 1) pattern hs1
        hidxlt hdep1idx
      rw [hred]
      refine ⟨s1, by omega, ?_, ?_, ?_, ?_⟩
      · intro v hv
        rw [s3 v (by omega), hdep1 v hv]
      · intro v
        rw [s4 v, hfail1 v]
      · intro v
        obtain ⟨ext, hext⟩ := s5 v
        by_cases hvc : v = cur
        · refine ⟨[(seg, idx)] ++ ext, ?_⟩
          rw [hext, hvc, hch1cur, List.append_assoc]
        · by_cases hvi : v = idx
          · refine ⟨ext, ?_⟩
            rw [hext, hvi, hch1idx, getD_oob _ _ _ (by omega)]
            rfl
          · exact ⟨ext, by rw [hext, hch1 v hvc hvi]⟩
      · obtain ⟨t, ht1, ht2, ht3, ht4⟩ := s6
        refine ⟨t, ht1, ?_, ?_, ?_⟩
        · show (match assocGet seg
              (((acAddAux rs nodes1 idx (i + 1) pattern)).getD cur
                default).children with
            | none => none
            | some w => acFollow (acAddAux rs nodes1 idx (i + 1) pattern)
                w rs) = some t
          obtain ⟨ext, hext⟩ := s5 cur
          rw [hext, hch1cur, List.append_assoc,
            assocGet_append_none _ _ _ hg, List.singleton_append]
          show (match (if seg = seg then some idx else assocGet seg ext)
            with
            | none => none
            | some w => acFollow (acAddAux rs nodes1 idx (i + 1) pattern)
                w rs) = some t
          rw [if_pos rfl]
          exact ht2
        · rw [ht3, hout1 t]
        · intro v hv
          rw [ht4 v hv, hout1 v]

/-- The pre-build automaton: well-formed goto trie, all failure links 0,
and the outputs are exactly the added patterns sitting at the nodes their
segment paths lead to. -/
theorem buildAC_spec (ps : List String) :
    ACStruct (buildAC ps) ∧
    (∀ v, ((buildAC ps).getD v default).fail = 0) ∧
    (∀ v, ∀ q ∈ ((buildAC ps).getD v default).output,
      q ∈ ps ∧ acFollow (buildAC ps) 0 (splitDots q) = some v) ∧
    (∀ q ∈ ps, ∃ v, acFollow (buildAC ps) 0 (splitDots q) = some v ∧
      q ∈ ((buildAC ps).getD v default).output) := by
  induction ps using List.reverseRecOn with
  | nil =>
    refine ⟨⟨by decide, by decide, ?_, ?_, ?_, ?_⟩, ?_, ?_, ?_⟩
    · intro v hv sc hsc
      have hv0 : v = 0 := by
        have : (buildAC []).length = 1 := rfl
        omega
      rw [hv0] at hsc
      exact absurd hsc (List.not_mem_nil _)
    · intro v hv
      have hv0 : v = 0 := by
        have : (buildAC []).length = 1 := rfl
        omega
      rw [hv0]
      exact Nat.le_refl _
    · intro v hv h1v
      have : (buildAC []).length = 1 := rfl
      omega
    · intro v hv w hw sc hsc sc' hsc' he
      have hv0 : v = 0 := by
        have : (buildAC []).length = 1 := rfl
        omega
      rw [hv0] at hsc
      exact absurd hsc (List.not_mem_nil _)
    · intro v
      cases v with
      | zero => rfl
      | succ n => rfl
    · intro v q hq
      cases v with
      | zero => exact absurd hq (List.not_mem_nil _)
      | succ n => exact absurd hq (List.not_mem_nil _)
    · intro q hq
      cases hq
  | append_singleton ps pat ih =>
    have hb : buildAC (ps ++ [pat]) =
        acAddAux (splitDots pat) (buildAC ps) 0 0 pat := by
      show (ps ++ [pat]).foldl acAddPattern acEmpty = _
      rw [List.foldl_append]
      rfl
    obtain ⟨hstr, hfail, hsound, hcomp⟩ := ih
    have h0lt : 0 < (buildAC ps).length := hstr.1
    have h0d : ((buildAC ps).getD 0 default).depth = 0 := hstr.2.1
    obtain ⟨s1, s2, s3, s4, s5, s6⟩ := acAddAux_spec (splitDots pat)
      (buildAC ps) 0 0 pat hstr h0lt h0d
    obtain ⟨t, ht1, ht2, ht3, ht4⟩ := s6
    rw [hb]
    refine ⟨s1, ?_, ?_, ?_⟩
    · intro v
      rw [s4 v]
      exact hfail v
    · intro v q hq
      by_cases hvt : v = t
      · rw [hvt, ht3] at hq
        rcases List.mem_append.mp hq with hold | hnew
        · obtain ⟨hmem, hfol⟩ := hsound t q hold
          exact ⟨List.mem_append_left _ hmem,
            by rw [hvt]; exact acFollow_mono _ _ s5 _ _ _ hfol⟩
        · have hqp : q = pat := by simpa using hnew
          subst hqp
          exact ⟨List.mem_append_right _ (by simp),
            by rw [hvt]; exact ht2⟩
      · rw [ht4 v hvt] at hq
        obtain ⟨hmem, hfol⟩ := hsound v q hq
        exact ⟨List.mem_append_left _ hmem,
          acFollow_mono _ _ s5 _ _ _ hfol⟩
    · intro q hq
      rcases List.mem_append.mp hq with hold | hnew
      · obtain ⟨v, hfol, hout⟩ := hcomp q hold
        refine ⟨v, acFollow_mono _ _ s5 _ _ _ hfol, ?_⟩
        by_cases hvt : v = t
        · rw [hvt, ht3]
          exact List.mem_append_left _ (hvt ▸ hout)
        · rw [ht4 v hvt]
          exact hout
      · have hqp : q = pat := by simpa using hnew
        subst hqp
        refine ⟨t, ht2, ?_⟩
        rw [ht3]
        exact List.mem_append_right _ (by simp)

theorem buildAC_outWF (ps : List String) : ACOutWF (buildAC ps) := by
  intro v q hq
  obtain ⟨hstr, -, hsound, -⟩ := buildAC_spec ps
  obtain ⟨-, hfol⟩ := hsound v q hq
  obtain ⟨hvlt, hd⟩ := acFollow_range_depth _ hstr (splitDots q) 0 v
    hstr.1 hfol
  rw [hd, hstr.2.1, splitDots_length]
  omega

/-- The failure-chain climb stays in range, never increases the depth, and
either stops immediately or strictly decreases it. -/
theorem acClimb_spec (nodes : List ACNode)
    (hfd : ∀ v, 1 ≤ v → v < nodes.length →
      (nodes.getD v default).fail < nodes.length ∧
      (nodes.getD (nodes.getD v default).fail default).depth <
        (nodes.getD v default).depth) (seg : String) :
    ∀ (fuel cur : Nat), cur < nodes.length →
    acClimb nodes seg fuel cur < nodes.length ∧
    (nodes.getD (acClimb nodes seg fuel cur) default).depth ≤
      (nodes.getD cur default).depth ∧
    (acClimb nodes seg fuel cur = cur ∨
      (nodes.getD (acClimb nodes seg fuel cur) default).depth <
        (nodes.getD cur default).depth) := by
  intro fuel
  induction fuel with
  | zero => intro cur hc; exact ⟨hc, le_rfl, Or.inl rfl⟩
  | succ fuel ihf =>
    intro cur hc
    cases cur with
    | zero => exact ⟨hc, le_rfl, Or.inl rfl⟩
    | succ c =>
      by_cases hif :
          (assocGet seg (nodes.getD (c + 1) default).children).isSome
      · rw [show acClimb nodes seg (fuel + 1) (c + 1) = c + 1 from by
          unfold acClimb; rw [if_pos hif]]
        exact ⟨hc, le_rfl, Or.inl rfl⟩
      · have hr : acClimb nodes seg (fuel + 1) (c + 1) =
            acClimb nodes seg fuel (nodes.getD (c + 1) default).fail := by
          conv_lhs => unfold acClimb
          rw [if_neg hif]
        obtain ⟨hflt, hfdp⟩ := hfd (c + 1) (by omega) hc
        obtain ⟨a, b, -⟩ := ihf (nodes.getD (c + 1) default).fail hflt
        rw [hr]
        exact ⟨a, by omega, Or.inr (by omega)⟩

theorem BuildRel_refl (base : List ACNode) (hstr : ACStruct base)
    (hf : ∀ v, (base.getD v default).fail = 0) : BuildRel base base := by
  obtain ⟨g1, g2, g3, g4, g5, g6⟩ := hstr
  refine ⟨rfl, fun v => rfl, fun v => rfl,
    fun v => ⟨[], (List.append_nil _).symm,
      fun q hq => absurd hq (List.not_mem_nil _)⟩, ?_⟩
  intro v h1 h2
  rw [hf v]
  refine ⟨by omega, ?_⟩
  rw [g2]
  exact g5 v h2 h1

/-- `build`s per-edge body preserves the build relation: the child's new
failure link is in range at strictly smaller depth, and the output it gains
consists of strictly shorter patterns. -/
theorem acProcessChild_rel (base nodes : List ACNode)
    (hstr : ACStruct base) (hout : ACOutWF base)
    (hrel : BuildRel base nodes) (cur : Nat) (seg : String) (child : Nat)
    (hcur1 : 1 ≤ cur) (hcurlt : cur < nodes.length)
    (hchild : (seg, child) ∈ (nodes.getD cur default).children) :
    BuildRel base (acProcessChild nodes cur seg child) := by
  obtain ⟨r1, r2, r3, r4, r5⟩ := hrel
  obtain ⟨g1, g2, g3, g4, g5, g6⟩ := hstr
  have hchb : (seg, child) ∈ (base.getD cur default).children := by
    rw [r2 cur] at hchild
    exact hchild
  have hcurltb : cur < base.length := by omega
  obtain ⟨hch1, hchltb, hchd⟩ := g3 cur hcurltb _ hchb
  have hchlt : child < nodes.length := by
    have : (seg, child).2 < base.length := hchltb
    omega
  have hch1' : (1 : Nat) ≤ child := hch1
  have hchd' : (base.getD child default).depth =
      (base.getD cur default).depth + 1 := hchd
  obtain ⟨hcf_lt, hcf_dp⟩ := r5 cur hcur1 hcurlt
  obtain ⟨hfb_lt, hfb_le, -⟩ := acClimb_spec nodes r5 seg nodes.length
    (nodes.getD cur default).fail hcf_lt
  set fallback := acClimb nodes seg nodes.length (nodes.getD cur default).fail with hfb
  set f0 := (match assocGet seg (nodes.getD fallback default).children with | some t => t | none => 0) with hf0
  set f1 := (if f0 = child then 0 else f0) with hf1
  have hfb_dp : (nodes.getD fallback default).depth <
      (nodes.getD cur default).depth := by omega
  have hf0facts : f0 < nodes.length ∧
      (nodes.getD f0 default).depth < (nodes.getD child default).depth := by
    rw [hf0]
    cases hgf : assocGet seg (nodes.getD fallback default).children with
    | none =>
      show 0 < nodes.length ∧
        (nodes.getD 0 default).depth < (nodes.getD child default).depth
      constructor
      · omega
      · rw [r3 0, r3 child, g2, hchd']
        omega
    | some t =>
      show t < nodes.length ∧
        (nodes.getD t default).depth < (nodes.getD child default).depth
      have htb : (seg, t) ∈ (base.getD fallback default).children := by
        rw [← r2 fallback]
        exact assocGet_mem _ _ _ hgf
      obtain ⟨-, htltb, htd⟩ := g3 fallback (by omega) _ htb
      have htd' : (base.getD t default).depth =
          (base.getD fallback default).depth + 1 := htd
      rw [r3 fallback, r3 cur] at hfb_dp
      constructor
      · have : (seg, t).2 < base.length := htltb
        omega
      · rw [r3 t, r3 child, htd', hchd']
        omega
  have hf1facts : f1 < nodes.length ∧
      (nodes.getD f1 default).depth < (nodes.getD child default).depth := by
    rw [hf1]
    by_cases h00 : f0 = child
    · rw [if_pos h00]
      constructor
      · omega
      · rw [r3 0, r3 child, g2, hchd']
        omega
    · rw [if_neg h00]
      exact hf0facts
  have hne : f1 ≠ child := by
    rw [hf1]
    by_cases h00 : f0 = child
    · rw [if_pos h00]
      omega
    · rw [if_neg h00]
      exact h00
  set N1 : ACNode := { nodes.getD child default with fail := f1 } with hN1def
  set nodes1 := nodes.set child N1 with hnodes1
  have hred : acProcessChild nodes cur seg child = nodes1.set child { nodes1.getD child default with output := (nodes1.getD child default).output ++ (nodes1.getD f1 default).output } := rfl
  have h1get : nodes1.getD child default = N1 :=
    getD_set_self _ _ _ _ hchlt
  have h1getne : ∀ v, v ≠ child →
      nodes1.getD v default = nodes.getD v default :=
    fun v hv => getD_set_ne _ _ _ _ _ (fun h => hv h.symm)
  have h1len : nodes1.length = nodes.length := List.length_set _ _ _
  have hlen' : (acProcessChild nodes cur seg child).length =
      nodes.length := by
    rw [hred, List.length_set, h1len]
  have hacc : ∀ v, (acProcessChild nodes cur seg child).getD v default =
      if v = child then { children := (nodes.getD child default).children, fail := f1, output := (nodes.getD child default).output ++ (nodes.getD f1 default).output, depth := (nodes.getD child default).depth }
      else nodes.getD v default := by
    intro v
    rw [hred]
    by_cases hv : v = child
    · rw [if_pos hv, hv,
        getD_set_self _ _ _ _ (by rw [h1len]; exact hchlt),
        h1get, h1getne f1 hne]
    · rw [if_neg hv, getD_set_ne _ _ _ _ _ (fun h => hv h.symm),
        h1getne v hv]
  refine ⟨?_, ?_, ?_, ?_, ?_⟩
  · rw [hlen']
    exact r1
  · intro v
    rw [hacc v]
    by_cases hv : v = child
    · rw [if_pos hv]
      show (nodes.getD child default).children = _
      rw [hv]
      exact r2 child
    · rw [if_neg hv]
      exact r2 v
  · intro v
    rw [hacc v]
    by_cases hv : v = child
    · rw [if_pos hv]
      show (nodes.getD child default).depth = _
      rw [hv]
      exact r3 child
    · rw [if_neg hv]
      exact r3 v
  · intro v
    rw [hacc v]
    by_cases hv : v = child
    · rw [if_pos hv]
      obtain ⟨extra, hex, hexlt⟩ := r4 child
      refine ⟨extra ++ (nodes.getD f1 default).output, ?_, ?_⟩
      · show (nodes.getD child default).output ++
          (nodes.getD f1 default).output = _
        rw [hex, hv, List.append_assoc]
      · intro q hq
        show dotCount q + 1 < (nodes.getD child default).depth
        rcases List.mem_append.mp hq with h1 | h2
        · exact hexlt q h1
        · obtain ⟨extra1, hex1, hexlt1⟩ := r4 f1
          rw [hex1] at h2
          rcases List.mem_append.mp h2 with h3 | h4
          · have h5 := hout f1 q h3
            rw [← r3 f1] at h5
            omega
          · have h5 := hexlt1 q h4
            omega
    · rw [if_neg hv]
      exact r4 v
  · intro v h1v hvlen
    rw [hlen'] at hvlen
    by_cases hv : v = child
    · rw [hacc v, if_pos hv]
      show f1 < (acProcessChild nodes cur seg child).length ∧
        ((acProcessChild nodes cur seg child).getD f1 default).depth <
          (nodes.getD child default).depth
      constructor
      · rw [hlen']
        exact hf1facts.1
      · rw [hacc f1, if_neg hne]
        exact hf1facts.2
    · rw [hacc v, if_neg hv]
      obtain ⟨ha, hb⟩ := r5 v h1v hvlen
      constructor
      · rw [hlen']
        exact ha
      · rw [hacc ((nodes.getD v default).fail)]
        by_cases hfc : (nodes.getD v default).fail = child
        · rw [if_pos hfc]
          show (nodes.getD child default).depth <
            (nodes.getD v default).depth
          rw [← hfc]
          exact hb
        · rw [if_neg hfc]
          exact hb

theorem acBuildFold_rel (base : List ACNode) (hstr : ACStruct base)
    (hout : ACOutWF base) (cur : Nat) (hcur1 : 1 ≤ cur)
    (hcurb : cur < base.length) :
    ∀ (chs : List (String × Nat)) (nodes : List ACNode)
      (queue : List Nat),
    BuildRel base nodes →
    (∀ sc ∈ chs, sc ∈ (base.getD cur default).children) →
    (∀ x ∈ queue, 1 ≤ x ∧ x < base.length) →
    BuildRel base (chs.foldl
      (fun st sc => (acProcessChild st.1 cur sc.1 sc.2, st.2 ++ [sc.2]))
      (nodes, queue)).1 ∧
    (∀ x ∈ (chs.foldl
      (fun st sc => (acProcessChild st.1 cur sc.1 sc.2, st.2 ++ [sc.2]))
      (nodes, queue)).2, 1 ≤ x ∧ x < base.length) := by
  intro chs
  induction chs with
  | nil => intro nodes queue hrel _ hq; exact ⟨hrel, hq⟩
  | cons sc rest ih =>
    intro nodes queue hrel hchs hq
    rw [List.foldl_cons]
    have hscb : sc ∈ (base.getD cur default).children :=
      hchs sc (List.mem_cons_self _ _)
    obtain ⟨hsc1, hsclt, -⟩ := hstr.2.2.1 cur hcurb sc hscb
    have hrel' : BuildRel base (acProcessChild nodes cur sc.1 sc.2) := by
      apply acProcessChild_rel base nodes hstr hout hrel cur sc.1 sc.2
        hcur1 (by rw [hrel.1]; exact hcurb)
      rw [hrel.2.1 cur]
      exact hscb
    refine ih (acProcessChild nodes cur sc.1 sc.2) (queue ++ [sc.2])
      hrel' (fun x hx => hchs x (List.mem_cons_of_mem _ hx)) ?_
    intro x hx
    rcases List.mem_append.mp hx with h1 | h2
    · exact hq x h1
    · have : x = sc.2 := by simpa using h2
      rw [this]
      exact ⟨hsc1, hsclt⟩

theorem acBuildLoop_rel (base : List ACNode) (hstr : ACStruct base)
    (hout : ACOutWF base) :
    ∀ (fuel : Nat) (nodes : List ACNode) (queue : List Nat),
    BuildRel base nodes →
    (∀ x ∈ queue, 1 ≤ x ∧ x < base.length) →
    BuildRel base (acBuildLoop fuel nodes queue) := by
  intro fuel
  induction fuel with
  | zero => intro nodes queue hrel _; exact hrel
  | succ fuel ihf =>
    intro nodes queue hrel hq
    cases queue with
    | nil => exact hrel
    | cons cur rest =>
      show BuildRel base (acBuildLoop fuel
        ((nodes.getD cur default).children.foldl
          (fun st sc => (acProcessChild st.1 cur sc.1 sc.2,
            st.2 ++ [sc.2])) (nodes, rest)).1
        ((nodes.getD cur default).children.foldl
          (fun st sc => (acProcessChild st.1 cur sc.1 sc.2,
            st.2 ++ [sc.2])) (nodes, rest)).2)
      obtain ⟨hc1, hc2⟩ := hq cur (List.mem_cons_self _ _)
      obtain ⟨hrel', hq'⟩ := acBuildFold_rel base hstr hout cur hc1 hc2
        (nodes.getD cur default).children nodes rest hrel
        (fun sc hsc => by rw [← hrel.2.1 cur]; exact hsc)
        (fun x hx => hq x (List.mem_cons_of_mem _ hx))
      exact ihf _ _ hrel' hq'

/-- `build` establishes the build relation over the pre-build automaton. -/
theorem acBuild_rel (base : List ACNode) (hstr : ACStruct base)
    (hout : ACOutWF base)
    (hf : ∀ v, (base.getD v default).fail = 0) :
    BuildRel base (acBuild base) := by
  obtain ⟨g1, g2, g3, g4, g5, g6⟩ := hstr
  have hrefl := BuildRel_refl base ⟨g1, g2, g3, g4, g5, g6⟩ hf
  -- step 1: root fail set to 0
  have hset0 : ∀ (nodes : List ACNode) (v0 : Nat), BuildRel base nodes →
      (v0 = 0 ∨ (1 ≤ v0 ∧ v0 < base.length ∧
        1 ≤ (base.getD v0 default).depth)) →
      BuildRel base (nodes.set v0 { nodes.getD v0 default with fail := 0 }) := by
    intro nodes v0 hrel hv0
    obtain ⟨r1, r2, r3, r4, r5⟩ := hrel
    have hacc : ∀ v, ((nodes.set v0 { nodes.getD v0 default with fail := 0 }).getD v default) = if v = v0 then { nodes.getD v0 default with fail := 0 } else nodes.getD v default := by
      intro v
      by_cases hv : v = v0
      · rw [if_pos hv, hv]
        by_cases hlt : v0 < nodes.length
        · exact getD_set_self _ _ _ _ hlt
        · rw [List.set_eq_of_length_le (by omega),
            getD_oob _ _ _ (by omega)]
          rfl
      · rw [if_neg hv]
        exact getD_set_ne _ _ _ _ _ (fun h => hv h.symm)
    refine ⟨?_, ?_, ?_, ?_, ?_⟩
    · rw [List.length_set]
      exact r1
    · intro v
      rw [hacc v]
      by_cases hv : v = v0
      · rw [if_pos hv]
        show (nodes.getD v0 default).children = _
        rw [hv]
        exact r2 v0
      · rw [if_neg hv]
        exact r2 v
    · intro v
      rw [hacc v]
      by_cases hv : v = v0
      · rw [if_pos hv]
        show (nodes.getD v0 default).depth = _
        rw [hv]
        exact r3 v0
      · rw [if_neg hv]
        exact r3 v
    · intro v
      rw [hacc v]
      by_cases hv : v = v0
      · rw [if_pos hv]
        obtain ⟨extra, hex, hexlt⟩ := r4 v0
        refine ⟨extra, ?_, ?_⟩
        · show (nodes.getD v0 default).output = _
          rw [hv]
          exact hex
        · intro q hq
          show dotCount q + 1 < (nodes.getD v0 default).depth
          have := hexlt q hq
          rw [r3 v0]
          rw [r3 v0] at this
          exact this
      · rw [if_neg hv]
        exact r4 v
    · intro v h1v hvlen
      rw [List.length_set] at hvlen
      rw [hacc v]
      by_cases hv : v = v0
      · rw [if_pos hv]
        show (0 : Nat) < (nodes.set v0 _).length ∧
          ((nodes.set v0 { nodes.getD v0 default with fail := 0 }).getD 0
            default).depth < (nodes.getD v0 default).depth
        rcases hv0 with h0 | ⟨ha, hb, hc⟩
        · omega
        · constructor
          · rw [List.length_set]
            omega
          · rw [hacc 0, if_neg (by omega), r3 0, r3 v0, g2]
            omega
      · rw [if_neg hv]
        obtain ⟨ha, hb⟩ := r5 v h1v hvlen
        constructor
        · rw [List.length_set]
          exact ha
        · rw [hacc ((nodes.getD v default).fail)]
          by_cases hfc : (nodes.getD v default).fail = v0
          · rw [if_pos hfc]
            show (nodes.getD v0 default).depth < _
            rw [← hfc]
            exact hb
          · rw [if_neg hfc]
            exact hb
  have h1 : BuildRel base (base.set 0 { base.getD 0 default with fail := 0 }) :=
    hset0 base 0 hrefl (Or.inl rfl)
  -- the root children are unchanged by the set
  have hch0 : ((base.set 0 { base.getD 0 default with fail := 0 }).getD 0
      default).children = (base.getD 0 default).children := h1.2.1 0
  -- step 2: depth-1 fails set to 0
  have h2 : ∀ (rc : List (String × Nat)),
      (∀ sc ∈ rc, sc ∈ (base.getD 0 default).children) →
      ∀ nodes : List ACNode, BuildRel base nodes →
      BuildRel base (rc.foldl
        (fun st sc => st.set sc.2 { st.getD sc.2 default with fail := 0 })
        nodes) := by
    intro rc
    induction rc with
    | nil => intro _ nodes hrel; exact hrel
    | cons sc rest ih =>
      intro hmem nodes hrel
      rw [List.foldl_cons]
      refine ih (fun x hx => hmem x (List.mem_cons_of_mem _ hx)) _ ?_
      obtain ⟨ha, hb, hc⟩ := g3 0 (by omega) sc
        (hmem sc (List.mem_cons_self _ _))
      refine hset0 nodes sc.2 hrel (Or.inr ⟨ha, hb, by omega⟩)
  show BuildRel base (acBuildLoop (base.length + 1) _ _)
  apply acBuildLoop_rel base ⟨g1, g2, g3, g4, g5, g6⟩ hout
  · rw [hch0]
    exact h2 _ (fun sc hsc => hsc) _ h1
  · rw [hch0]
    intro x hx
    obtain ⟨sc, hsc, hsceq⟩ := List.mem_map.mp hx
    obtain ⟨ha, hb, -⟩ := g3 0 (by omega) sc hsc
    rw [← hsceq]
    exact ⟨ha, hb⟩

theorem acClimb_stop (nodes : List ACNode) (seg : String) (fuel v : Nat)
    (hsome : (assocGet seg ((nodes.getD v default).children)).isSome)
    (hfuel : 1 ≤ fuel) : acClimb nodes seg fuel v = v := by
  cases v with
  | zero =>
    cases fuel with
    | zero => rfl
    | succ f => rfl
  | succ c =>
    cases fuel with
    | zero => omega
    | succ f =>
      unfold acClimb
      rw [if_pos hsome]

theorem acAdvance_mono (nodes : List ACNode) (v : Nat) (seg : String)
    (next : List Nat) (x : Nat) (hx : x ∈ next) :
    x ∈ acAdvance nodes v seg next := by
  show x ∈ (match assocGet seg
      ((nodes.getD (acClimb nodes seg nodes.length v) default)).children
      with
    | none => next
    | some t => if t ∈ next then next else next ++ [t])
  cases hm : assocGet seg
      ((nodes.getD (acClimb nodes seg nodes.length v) default)).children
      with
  | none => exact hx
  | some t =>
    show x ∈ (if t ∈ next then next else next ++ [t])
    by_cases ht : t ∈ next
    · rw [if_pos ht]
      exact hx
    · rw [if_neg ht]
      exact List.mem_append_left _ hx

theorem acAdvance_sound (nodes : List ACNode) (v : Nat) (seg : String)
    (next : List Nat) (x : Nat) (h : x ∈ acAdvance nodes v seg next) :
    x ∈ next ∨ assocGet seg
      ((nodes.getD (acClimb nodes seg nodes.length v) default)).children =
        some x := by
  have h' : x ∈ (match assocGet seg
      ((nodes.getD (acClimb nodes seg nodes.length v) default)).children
      with
    | none => next
    | some t => if t ∈ next then next else next ++ [t]) := h
  cases hm : assocGet seg
      ((nodes.getD (acClimb nodes seg nodes.length v) default)).children
      with
  | none =>
    rw [hm] at h'
    exact Or.inl h'
  | some t =>
    rw [hm] at h'
    have h'' : x ∈ (if t ∈ next then next else next ++ [t]) := h'
    by_cases ht : t ∈ next
    · rw [if_pos ht] at h''
      exact Or.inl h''
    · rw [if_neg ht] at h''
      rcases List.mem_append.mp h'' with h1 | h2
      · exact Or.inl h1
      · have hxt : x = t := by simpa using h2
        rw [hxt]
        exact Or.inr rfl

theorem acAdvance_complete (nodes : List ACNode) (v : Nat) (seg : String)
    (next : List Nat) (w : Nat) (hlen : 1 ≤ nodes.length)
    (hg : assocGet seg ((nodes.getD v default).children) = some w) :
    w ∈ acAdvance nodes v seg next := by
  show w ∈ (match assocGet seg
      ((nodes.getD (acClimb nodes seg nodes.length v) default)).children
      with
    | none => next
    | some t => if t ∈ next then next else next ++ [t])
  rw [acClimb_stop nodes seg nodes.length v (by rw [hg]; rfl) hlen, hg]
  show w ∈ (if w ∈ next then next else next ++ [w])
  by_cases hw : w ∈ next
  · rw [if_pos hw]
    exact hw
  · rw [if_neg hw]
    exact List.mem_append_right _ (by simp)

theorem foldl_adv_mono (nodes : List ACNode) (seg : String) :
    ∀ (active : List Nat) (acc : List Nat) (x : Nat), x ∈ acc →
    x ∈ active.foldl
      (fun next v => acAdvance nodes v "*" (acAdvance nodes v seg next))
      acc := by
  intro active
  induction active with
  | nil => intro acc x hx; exact hx
  | cons v rest ih =>
    intro acc x hx
    rw [List.foldl_cons]
    exact ih _ x (acAdvance_mono _ _ _ _ _ (acAdvance_mono _ _ _ _ _ hx))

theorem foldl_adv_sound (nodes : List ACNode) (seg : String) :
    ∀ (active : List Nat) (acc : List Nat) (w : Nat),
    w ∈ active.foldl
      (fun next v => acAdvance nodes v "*" (acAdvance nodes v seg next))
      acc →
    w ∈ acc ∨ ∃ v ∈ active, ∃ l, (l = seg ∨ l = "*") ∧
      assocGet l
        ((nodes.getD (acClimb nodes l nodes.length v) default)).children =
          some w := by
  intro active
  induction active with
  | nil => intro acc w h; exact Or.inl h
  | cons v rest ih =>
    intro acc w h
    rw [List.foldl_cons] at h
    rcases ih _ w h with hacc | ⟨v', hv', l, hl, hg⟩
    · rcases acAdvance_sound _ _ _ _ _ hacc with hacc2 | hg2
      · rcases acAdvance_sound _ _ _ _ _ hacc2 with hacc3 | hg3
        · exact Or.inl hacc3
        · exact Or.inr ⟨v, List.mem_cons_self _ _, seg, Or.inl rfl, hg3⟩
      · exact Or.inr ⟨v, List.mem_cons_self _ _, "*", Or.inr rfl, hg2⟩
    · exact Or.inr ⟨v', List.mem_cons_of_mem _ hv', l, hl, hg⟩

theorem acStep_sound (nodes : List ACNode) (seg : String)
    (active : List Nat) (w : Nat) (h : w ∈ acStep nodes active seg) :
    ∃ v ∈ active, ∃ l, (l = seg ∨ l = "*") ∧
      assocGet l
        ((nodes.getD (acClimb nodes l nodes.length v) default)).children =
          some w := by
  rcases foldl_adv_sound nodes seg active [] w h with habs | hgood
  · exact absurd habs (List.not_mem_nil _)
  · exact hgood

theorem acStep_complete (nodes : List ACNode) (seg : String)
    (active : List Nat) (v w : Nat) (l : String) (hlen : 1 ≤ nodes.length)
    (hv : v ∈ active) (hl : l = seg ∨ l = "*")
    (hg : assocGet l ((nodes.getD v default).children) = some w) :
    w ∈ acStep nodes active seg := by
  obtain ⟨pre, post, rfl⟩ := List.append_of_mem hv
  show w ∈ (pre ++ v :: post).foldl
    (fun next u => acAdvance nodes u "*" (acAdvance nodes u seg next)) []
  rw [List.foldl_append, List.foldl_cons]
  apply foldl_adv_mono
  rcases hl with rfl | rfl
  · exact acAdvance_mono _ _ _ _ _
      (acAdvance_complete _ _ _ _ _ hlen hg)
  · exact acAdvance_complete _ _ _ _ _ hlen hg

theorem forall₂_snoc_right {R : String → String → Prop}
    (ls ds : List String) (d : String) :
    List.Forall₂ R ls (ds ++ [d]) ↔
      ∃ ls' l, ls = ls' ++ [l] ∧ List.Forall₂ R ls' ds ∧ R l d := by
  constructor
  · intro h
    have h1 := List.forall₂_take_append ls ds [d] h
    have h2 := List.forall₂_drop_append ls ds [d] h
    rcases (List.forall₂_cons_right_iff).mp h2 with ⟨a, l', hra, hl', hdrop⟩
    have hnil : l' = [] := List.forall₂_nil_right_iff.mp hl'
    refine ⟨ls.take ds.length, a, ?_, h1, hra⟩
    conv_lhs => rw [← List.take_append_drop ds.length ls]
    rw [hdrop, hnil]
  · rintro ⟨ls', l, rfl, h1, h2⟩
    exact List.rel_append h1 (List.Forall₂.cons h2 List.Forall₂.nil)

theorem activeOk_nil (nodes : List ACNode) (hlen : 1 ≤ nodes.length)
    (hd0 : (nodes.getD 0 default).depth = 0) : ActiveOk nodes [] [0] := by
  refine ⟨?_, ?_, ?_⟩
  · intro v hv
    have hv0 : v = 0 := by simpa using hv
    rw [hv0, hd0]
    exact ⟨hlen, le_rfl⟩
  · intro v hv hdv
    have hv0 : v = 0 := by simpa using hv
    exact ⟨[], List.Forall₂.nil, by rw [hv0]; rfl⟩
  · intro ls hm v hfv
    have hls : ls = [] := List.forall₂_nil_right_iff.mp hm
    rw [hls] at hfv
    cases hfv
    simp

theorem acStep_activeOk (nodes : List ACNode) (hstr : ACStruct nodes)
    (hfd : ∀ v, 1 ≤ v → v < nodes.length →
      (nodes.getD v default).fail < nodes.length ∧
      (nodes.getD (nodes.getD v default).fail default).depth <
        (nodes.getD v default).depth)
    (ds : List String) (seg : String) (active : List Nat)
    (hok : ActiveOk nodes ds active) :
    ActiveOk nodes (ds ++ [seg]) (acStep nodes active seg) := by
  obtain ⟨a1, a2, a3⟩ := hok
  obtain ⟨g1, g2, g3, g4, g5, g6⟩ := hstr
  have hlen2 : (ds ++ [seg]).length = ds.length + 1 := by simp
  refine ⟨?_, ?_, ?_⟩
  · intro w hw
    obtain ⟨v, hv, l, hl, hg⟩ := acStep_sound nodes seg active w hw
    obtain ⟨hvlt, hvdep⟩ := a1 v hv
    obtain ⟨hclt, hcle, -⟩ := acClimb_spec nodes hfd l nodes.length v hvlt
    obtain ⟨-, hwlt, hwd⟩ := g3 _ hclt _ (assocGet_mem _ _ _ hg)
    have hwd' : (nodes.getD w default).depth =
        (nodes.getD (acClimb nodes l nodes.length v) default).depth + 1 :=
      hwd
    have hwlt' : (l, w).2 < nodes.length := hwlt
    rw [hlen2]
    exact ⟨hwlt', by omega⟩
  · intro w hw hdw
    rw [hlen2] at hdw
    obtain ⟨v, hv, l, hl, hg⟩ := acStep_sound nodes seg active w hw
    obtain ⟨hvlt, hvdep⟩ := a1 v hv
    obtain ⟨hclt, hcle, hcor⟩ := acClimb_spec nodes hfd l nodes.length v
      hvlt
    obtain ⟨-, hwlt, hwd⟩ := g3 _ hclt _ (assocGet_mem _ _ _ hg)
    have hwd' : (nodes.getD w default).depth =
        (nodes.getD (acClimb nodes l nodes.length v) default).depth + 1 :=
      hwd
    have hcv : acClimb nodes l nodes.length v = v := by
      rcases hcor with h | h
      · exact h
      · omega
    rw [hcv] at hg
    have hvdep' : (nodes.getD v default).depth = ds.length := by
      rw [hcv] at hwd'
      omega
    obtain ⟨ls, hm, hf⟩ := a2 v hv hvdep'
    refine ⟨ls ++ [l], ?_, ?_⟩
    · exact List.rel_append hm (List.Forall₂.cons (by tauto)
        List.Forall₂.nil)
    · exact (acFollow_snoc nodes ls l 0 w).mpr ⟨v, hf, hg⟩
  · intro ls' hm' w hfola
    obtain ⟨ls, l, rfl, hm, hrl⟩ := (forall₂_snoc_right ls' ds seg).mp hm'
    obtain ⟨v, hfv, hgv⟩ := (acFollow_snoc nodes ls l 0 w).mp hfola
    exact acStep_complete nodes seg active v w l g1 (a3 ls hm v hfv)
      hrl hgv

theorem activeOk_foldl (nodes : List ACNode) (hstr : ACStruct nodes)
    (hfd : ∀ v, 1 ≤ v → v < nodes.length →
      (nodes.getD v default).fail < nodes.length ∧
      (nodes.getD (nodes.getD v default).fail default).depth <
        (nodes.getD v default).depth) :
    ∀ ds : List String,
    ActiveOk nodes ds (ds.foldl (acStep nodes) [0]) := by
  intro ds
  induction ds using List.reverseRecOn with
  | nil => exact activeOk_nil nodes hstr.1 hstr.2.1
  | append_singleton ds seg ih =>
    rw [List.foldl_append, List.foldl_cons, List.foldl_nil]
    exact acStep_activeOk nodes hstr hfd ds seg _ ih

theorem collect_inner_mem (n : Nat) :
    ∀ (out : List String) (acc : List String) (q : String),
    (q ∈ out.foldl (fun results pat =>
      if pat ∉ results ∧ dotCount pat + 1 = n then results ++ [pat]
      else results) acc ↔
    (q ∈ acc ∨ (q ∈ out ∧ dotCount q + 1 = n))) := by
  intro out
  induction out with
  | nil => intro acc q; simp
  | cons p rest ih =>
    intro acc q
    rw [List.foldl_cons]
    by_cases hc : p ∉ acc ∧ dotCount p + 1 = n
    · rw [if_pos hc, ih]
      constructor
      · rintro (h1 | h2)
        · rcases List.mem_append.mp h1 with ha | hp
          · exact Or.inl ha
          · have hqp : q = p := by simpa using hp
            exact Or.inr ⟨by rw [hqp]; exact List.mem_cons_self _ _,
              by rw [hqp]; exact hc.2⟩
        · exact Or.inr ⟨List.mem_cons_of_mem _ h2.1, h2.2⟩
      · rintro (ha | ⟨hmem, hok⟩)
        · exact Or.inl (List.mem_append_left _ ha)
        · rcases List.mem_cons.mp hmem with rfl | hrest
          · exact Or.inl (List.mem_append_right _ (by simp))
          · exact Or.inr ⟨hrest, hok⟩
    · rw [if_neg hc, ih]
      constructor
      · rintro (ha | h2)
        · exact Or.inl ha
        · exact Or.inr ⟨List.mem_cons_of_mem _ h2.1, h2.2⟩
      · rintro (ha | ⟨hmem, hok⟩)
        · exact Or.inl ha
        · rcases List.mem_cons.mp hmem with rfl | hrest
          · left
            rcases not_and_or.mp hc with h | h
            · exact not_not.mp h
            · exact absurd hok h
          · exact Or.inr ⟨hrest, hok⟩

theorem acCollect_mem_aux (nodes : List ACNode) (n : Nat) :
    ∀ (active : List Nat) (acc : List String) (q : String),
    (q ∈ active.foldl (fun results v =>
      (nodes.getD v default).output.foldl (fun results pat =>
        if pat ∉ results ∧ dotCount pat + 1 = n then results ++ [pat]
        else results) results) acc ↔
    (q ∈ acc ∨ ((∃ v ∈ active, q ∈ (nodes.getD v default).output) ∧
      dotCount q + 1 = n))) := by
  intro active
  induction active with
  | nil => intro acc q; simp
  | cons v rest ih =>
    intro acc q
    rw [List.foldl_cons, ih, collect_inner_mem]
    constructor
    · rintro ((ha | ⟨ho, hok⟩) | ⟨⟨v', hv', ho'⟩, hok⟩)
      · exact Or.inl ha
      · exact Or.inr ⟨⟨v, List.mem_cons_self _ _, ho⟩, hok⟩
      · exact Or.inr ⟨⟨v', List.mem_cons_of_mem _ hv', ho'⟩, hok⟩
    · rintro (ha | ⟨⟨v', hv', ho'⟩, hok⟩)
      · exact Or.inl (Or.inl ha)
      · rcases List.mem_cons.mp hv' with rfl | hrest
        · exact Or.inl (Or.inr ⟨ho', hok⟩)
        · exact Or.inr ⟨⟨v', hrest, ho'⟩, hok⟩

theorem acCollect_mem (nodes : List ACNode) (n : Nat) (active : List Nat)
    (q : String) :
    q ∈ acCollect nodes n active ↔
      (∃ v ∈ active, q ∈ (nodes.getD v default).output) ∧
        dotCount q + 1 = n := by
  have h := acCollect_mem_aux nodes n active [] q
  simp only [List.not_mem_nil, false_or] at h
  exact h

theorem collect_inner_nodup (n : Nat) :
    ∀ (out : List String) (acc : List String), acc.Nodup →
    (out.foldl (fun results pat =>
      if pat ∉ results ∧ dotCount pat + 1 = n then results ++ [pat]
      else results) acc).Nodup := by
  intro out
  induction out with
  | nil => intro acc h; exact h
  | cons p rest ih =>
    intro acc h
    rw [List.foldl_cons]
    by_cases hc : p ∉ acc ∧ dotCount p + 1 = n
    · rw [if_pos hc]
      refine ih _ (List.nodup_append.mpr ⟨h, List.nodup_singleton _, ?_⟩)
      intro x hx hx'
      have : x = p := by simpa using hx'
      rw [this] at hx
      exact hc.1 hx
    · rw [if_neg hc]
      exact ih _ h

theorem acCollect_nodup (nodes : List ACNode) (n : Nat) :
    ∀ (active : List Nat) (acc : List String), acc.Nodup →
    (active.foldl (fun results v =>
      (nodes.getD v default).output.foldl (fun results pat =>
        if pat ∉ results ∧ dotCount pat + 1 = n then results ++ [pat]
        else results) results) acc).Nodup := by
  intro active
  induction active with
  | nil => intro acc h; exact h
  | cons v rest ih =>
    intro acc h
    rw [List.foldl_cons]
    exact ih _ (collect_inner_nodup n _ acc h)

theorem matchNaive_eq (ps : List String) (domain : String) :
    matchNaive ps domain =
      ps.filter (fun p => wmB (splitDots p) (splitDots domain)) := rfl

/-- The automaton half of the consistency property: with duplicate-free
patterns, `search` on the built automaton agrees with the naive scan up to
permutation (the automaton deduplicates, so duplicate patterns would be
reported once instead of twice). -/
theorem acSearch_perm_naive (ps : List String) (domain : String)
    (hnd : ps.Nodup) :
    (acSearch (acBuild (buildAC ps)) domain).Perm
      (matchNaive ps domain) := by
  obtain ⟨hstrb, hfail0, hsound, hcomp⟩ := buildAC_spec ps
  have houtwf := buildAC_outWF ps
  obtain ⟨r1, r2, r3, r4, r5⟩ := acBuild_rel (buildAC ps) hstrb houtwf
    hfail0
  have hstr' : ACStruct (acBuild (buildAC ps)) :=
    ACStruct_congr (buildAC ps) _ r1 r2 r3 hstrb
  have hAO := activeOk_foldl (acBuild (buildAC ps)) hstr' r5
    (splitDots domain)
  obtain ⟨a1, a2, a3⟩ := hAO
  have hsearch : acSearch (acBuild (buildAC ps)) domain =
      acCollect (acBuild (buildAC ps)) (splitDots domain).length
        ((splitDots domain).foldl (acStep (acBuild (buildAC ps))) [0]) :=
    rfl
  have hmem : ∀ q, q ∈ acSearch (acBuild (buildAC ps)) domain ↔
      q ∈ matchNaive ps domain := by
    intro q
    rw [hsearch, acCollect_mem, matchNaive_eq, List.mem_filter]
    constructor
    · rintro ⟨⟨v, hvact, hqout⟩, hcount⟩
      obtain ⟨extra, hex, hexlt⟩ := r4 v
      rw [hex] at hqout
      rcases List.mem_append.mp hqout with hq0 | hqe
      · obtain ⟨hqps, hfol⟩ := hsound v q hq0
        have hfolB : acFollow (acBuild (buildAC ps)) 0 (splitDots q) =
            some v := by
          rw [acFollow_congr (buildAC ps) (acBuild (buildAC ps)) r2]
          exact hfol
        have hdq : dotCount q + 1 =
            ((acBuild (buildAC ps)).getD v default).depth := by
          rw [r3 v]
          exact houtwf v q hq0
        have hdv : ((acBuild (buildAC ps)).getD v default).depth =
            (splitDots domain).length := by omega
        obtain ⟨ls, hlsm, hlsf⟩ := a2 v hvact hdv
        have hql : splitDots q = ls :=
          acFollow_unique _ hstr' (splitDots q) ls v hfolB hlsf
        rw [← hql] at hlsm
        exact ⟨hqps, (wmB_iff_labelsMatch _ _).mpr hlsm⟩
      · have := hexlt q hqe
        obtain ⟨-, hdep⟩ := a1 v hvact
        omega
    · rintro ⟨hqps, hwmB⟩
      have hlm : labelsMatch (splitDots q) (splitDots domain) :=
        (wmB_iff_labelsMatch _ _).mp hwmB
      obtain ⟨v, hfol, hout0⟩ := hcomp q hqps
      have hfolB : acFollow (acBuild (buildAC ps)) 0 (splitDots q) =
          some v := by
        rw [acFollow_congr (buildAC ps) (acBuild (buildAC ps)) r2]
        exact hfol
      refine ⟨⟨v, a3 (splitDots q) hlm v hfolB, ?_⟩, ?_⟩
      · obtain ⟨extra, hex, -⟩ := r4 v
        rw [hex]
        exact List.mem_append_left _ hout0
      · have h1 := splitDots_length q
        have h2 := List.Forall₂.length_eq hlm
        omega
  have hnds : (acSearch (acBuild (buildAC ps)) domain).Nodup := by
    rw [hsearch]
    exact acCollect_nodup _ _ _ [] List.nodup_nil
  have hndn : (matchNaive ps domain).Nodup := by
    rw [matchNaive_eq]
    exact hnd.filter _
  apply List.perm_of_nodup_nodup_toFinset_eq hnds hndn
  ext q
  simp only [List.mem_toFinset]
  exact hmem q

/-- C8 as the code actually behaves (amended): provided the pattern set has
no duplicates and the domain itself contains no `"*"` segment, the
reversed-segment trie match, the segment automaton search, and the naive
per-pattern scan return the same multiset of matching patterns.  Without
those provisos the claim fails: a `"*"` segment in the domain makes the
trie walk the same child twice (duplicated hits), and a duplicated pattern
is reported twice by trie/naive but once by the deduplicating automaton —
see the counterexample. -/
theorem C8_match_consistency (ps : List String) (domain : String)
    (hnd : ps.Nodup) (hdw : "*" ∉ splitDots domain) :
    (trieMatch (buildTrie ps) domain).Perm (matchNaive ps domain) ∧
    (acSearch (acBuild (buildAC ps)) domain).Perm
      (matchNaive ps domain) :=
  ⟨trieMatch_perm_naive ps domain hdw, acSearch_perm_naive ps domain hnd⟩

/-- Witness for C8: two concrete patterns (one wildcard, one literal)
against a concrete two-segment domain, hypotheses discharged by
evaluation. -/
theorem C8_match_consistency_witness :
    (["*.b", "a.b"] : List String).Nodup ∧
    "*" ∉ splitDots "a.b" ∧
    ((trieMatch (buildTrie ["*.b", "a.b"]) "a.b").Perm
      (matchNaive ["*.b", "a.b"] "a.b") ∧
    (acSearch (acBuild (buildAC ["*.b", "a.b"])) "a.b").Perm
      (matchNaive ["*.b", "a.b"] "a.b")) :=
  ⟨by decide, by decide,
    C8_match_consistency ["*.b", "a.b"] "a.b" (by decide) (by decide)⟩

end ChronoGuard
